import Mathlib

/-!
# discard0: scan a block device for zero ranges and discard them

A shallow embedding of `discard0.c` (functions `is_chunk_zero` and `discard0`)
and the properties of its scan-and-coalesce loop.

Machine integers are represented by their mathematical value; every C conversion
and every wrapping operation is written out (`to_int`, `to_off_t`, `to_u64`, `% 2^64`).
The kernel is a record of deterministic answers: the outcome of `lseek` depends on
the target offset, the outcome of `read` on the file position it is issued at, the
outcome of `BLKDISCARD` on the range.  Within one scan every offset is sought at
most once and every position is read at most once, so this covers every sequence
of outcomes a scan can observe.  The device content is not changed by the scan.
-/

namespace Discard0

/-! ## Data model -/

/-- One byte of device or buffer content. -/
abbrev Byte := Fin 256

/-- Return codes of `is_chunk_zero` (the anonymous enum). -/
def IS_ZERO : Int := 0
def IS_NOT_ZERO : Int := 1
def READ_ERR : Int := 2
def NEED_SEEK : Int := -3

/-- The sentinel `OFS_INVAL` is `~0ULL`. -/
def OFS_INVAL : Nat := 2 ^ 64 - 1

/-- Conversion of an integer value to C `int` (32 bits, two's complement). -/
def to_int (x : Int) : Int := (x + 2 ^ 31) % 2 ^ 32 - 2 ^ 31

/-- Conversion of an integer value to `off_t` (64 bits, two's complement). -/
def to_off_t (x : Int) : Int := (x + 2 ^ 63) % 2 ^ 64 - 2 ^ 63

/-- Conversion of an integer value to `uint64_t` (also `size_t`, `unsigned long`). -/
def to_u64 (x : Int) : Nat := (x % 2 ^ 64).toNat

/-- Conversion of an integer value to `unsigned int`. -/
def to_u32 (x : Int) : Nat := (x % 2 ^ 32).toNat

/-- The fields of `struct discard_opts` that `discard0` reads. -/
structure discard_opts where
  /-- Field `uint64_t dev_size`. -/
  dev_size : Nat
  /-- Field `unsigned int granularity`. -/
  granularity : Nat
  /-- Field `bool dry`. -/
  dry : Bool

/-- Everything outside the program: the device and the answers of the system calls. -/
structure World where
  /-- Byte stored at each device offset. -/
  content : Nat → Byte
  /-- Value of `sysconf(_SC_PAGESIZE)`. -/
  pagesize : Int
  /-- Whether `malloc(chunksz)` returns a buffer. -/
  malloc_ok : Bool
  /-- Content of the freshly allocated buffer. -/
  fbuf0 : Nat → Byte
  /-- File position of `opts.fd` when `discard0` starts. -/
  pos0 : Nat
  /-- Whether `lseek(fd, ofs, SEEK_SET)` to a non-negative offset succeeds. -/
  lseek_ok : Int → Bool
  /-- Answer to a `read` issued at a file position: `none` is failure (`-1`),
  `some k` means that the kernel delivers at most `k` bytes. -/
  read_max : Nat → Option Nat
  /-- Whether `ioctl(fd, BLKDISCARD, range)` succeeds for the range `start`, `length`. -/
  discard_ok : Nat → Nat → Bool

/-- What the scan does, in program order. -/
inductive Event
  /-- Call `lseek(opts.fd, ofs, SEEK_SET)` and whether it succeeded. -/
  | lseek (ofs : Int) (ok : Bool)
  /-- Call `is_chunk_zero(opts.fd, fbuf, len)` in the iteration at cursor `ofs`:
  the file position `pos` the read was issued at, the value `n` of `read`,
  the return code `r`. -/
  | chunk (ofs : Int) (pos : Nat) (len : Int) (n : Int) (r : Int)
  /-- The block `if (range[0] != OFS_INVAL && range[1] != OFS_INVAL)` is entered
  ("found zero range"). -/
  | found (start : Nat) (length : Nat)
  /-- Call `ioctl(opts.fd, BLKDISCARD, &range)` and whether it succeeded. -/
  | blkdiscard (start : Nat) (length : Nat) (ok : Bool)
  deriving DecidableEq, Repr

/-- The local variables of `discard0`, the file position of `opts.fd`, and the trace. -/
structure State where
  /-- Variable `off_t ofs`. -/
  ofs : Int
  /-- Variable `range[0]`. -/
  range0 : Nat
  /-- Variable `range[1]`. -/
  range1 : Nat
  /-- Variable `uint64_t freed`. -/
  freed : Nat
  need_seek : Bool
  last : Bool
  /-- Content of the buffer `fbuf`. -/
  fbuf : Nat → Byte
  /-- File position of `opts.fd`. -/
  pos : Nat
  /-- Events so far, oldest first. -/
  log : List Event

/-- How the process can die before `discard0` returns. -/
inductive Fault
  /-- Evaluation of `chunksz % opts.granularity` with `opts.granularity == 0`. -/
  | div_by_zero
  /-- Failure of `assert (chunksz % opts.granularity == 0)`. -/
  | assert_fail
  deriving DecidableEq, Repr

/-- Result of a call of `discard0`. -/
inductive Outcome
  /-- Return of `ret`, after printing `freed`; `log` is the trace of the scan. -/
  | returned (ret : Int) (freed : Nat) (log : List Event)
  /-- The process was killed. -/
  | crashed (f : Fault)
  deriving DecidableEq, Repr

/-! ## `is_chunk_zero` -/

/-- The system call `read(fd, buf, count)` issued at file position `pos`:
the value returned, the new file position, the new buffer content. -/
def sys_read (w : World) (o : discard_opts) (pos : Nat) (buf : Nat → Byte) (count : Nat) :
    Int × Nat × (Nat → Byte) :=
  match w.read_max pos with
  | none => (-1, pos, buf)
  | some k =>
    let n := min k (min count (o.dev_size - pos))
    ((n : Int), pos + n, fun i => if i < n then w.content (pos + i) else buf i)

/-- The `unsigned long` stored at `(unsigned long*)buf + p` (little endian). -/
def word_at (buf : Nat → Byte) (p : Nat) : Nat :=
  ((List.range 8).map (fun j => (buf (8 * p + j)).val * 256 ^ j)).sum

/-- The loop `for (p = buf; p < buf + n / sizeof(unsigned long); p++)` of `is_chunk_zero`,
with `cnt` words left from word index `p`. -/
def scan_words (buf : Nat → Byte) : Nat → Nat → Int
  | _, 0 => IS_ZERO
  | p, cnt + 1 => if word_at buf p ≠ 0 then IS_NOT_ZERO else scan_words buf (p + 1) cnt

/-- The part of `is_chunk_zero` after the read: classification from the value `n`
of `read`, the buffer and the requested length. -/
def classify (n : Int) (buf : Nat → Byte) (len : Int) : Int :=
  if n < 0 then READ_ERR
  else if n < len then NEED_SEEK
  else if to_u64 n % 8 ≠ 0 then IS_NOT_ZERO
  else scan_words buf 0 (to_u64 n / 8)

/-- Function `is_chunk_zero(fd, buf, len)` with the file position at `pos`:
return code, value of `n`, new file position, new buffer content. -/
def is_chunk_zero (w : World) (o : discard_opts) (pos : Nat) (buf : Nat → Byte) (len : Int) :
    Int × Int × Nat × (Nat → Byte) :=
  let rd := sys_read w o pos buf (to_u64 len)
  let n := to_int rd.1
  (classify n rd.2.2 len, n, rd.2.1, rd.2.2)

/-! ## `discard0` -/

/-- The chunk size computed at the start of `discard0` (lines 299-303), for a build
with assertions enabled. -/
def chunk_size (granularity : Nat) (pagesize : Int) : Except Fault Nat :=
  let chunksz : Nat := granularity
  let chunksz : Nat := if (chunksz : Int) < pagesize then to_u32 pagesize else chunksz
  if granularity = 0 then .error .div_by_zero
  else if chunksz % granularity ≠ 0 then .error .assert_fail
  else .ok chunksz

/-- How one pass through the loop body ends. -/
inductive Step
  /-- The end of the body is reached; the loop increment follows. -/
  | next (s : State)
  /-- One of the `goto out`. -/
  | out (s : State)

/-- Lines 356-376: the block that hands a closed range to `BLKDISCARD`. -/
def emit (w : World) (o : discard_opts) (s : State) : Step :=
  if s.range0 ≠ OFS_INVAL ∧ s.range1 ≠ OFS_INVAL then
    let s1 := { s with log := s.log ++ [Event.found s.range0 s.range1] }
    if o.dry = false then
      if w.discard_ok s.range0 s.range1 then
        .next { s1 with
          log := s1.log ++ [Event.blkdiscard s.range0 s.range1 true]
          freed := (s.freed + s.range1) % 2 ^ 64
          range0 := OFS_INVAL
          range1 := OFS_INVAL }
      else
        .out { s1 with log := s1.log ++ [Event.blkdiscard s.range0 s.range1 false] }
    else
      .next { s1 with
        freed := (s.freed + s.range1) % 2 ^ 64
        range0 := OFS_INVAL
        range1 := OFS_INVAL }
  else .next s

/-- Lines 332-354: the `switch (r)`; `none` is `goto out`. -/
def coalesce (o : discard_opts) (s : State) (r : Int) : Option State :=
  if r = IS_ZERO then
    let s1 := if s.range0 = OFS_INVAL then { s with range0 := to_u64 s.ofs } else s
    some (if s1.last then { s1 with range1 := (o.dev_size + 2 ^ 64 - s1.range0) % 2 ^ 64 } else s1)
  else if r = NEED_SEEK ∨ r = IS_NOT_ZERO then
    let s1 := if r = NEED_SEEK then { s with need_seek := true } else s
    some (if s1.range0 ≠ OFS_INVAL
      then { s1 with range1 := (to_u64 s1.ofs + 2 ^ 64 - s1.range0) % 2 ^ 64 } else s1)
  else if r = READ_ERR then none
  else some s

/-- Lines 313-376: the body of the `for` loop. -/
def body (w : World) (o : discard_opts) (chunksz : Nat) (s : State) : Step :=
  let len0 : Int := to_int chunksz
  let is_last : Bool := decide (o.dev_size ≤ to_u64 (to_off_t (s.ofs + len0)))
  let len : Int := if is_last then to_int ((o.dev_size + 2 ^ 64 - to_u64 s.ofs) % 2 ^ 64 : Nat) else len0
  let s := if is_last then { s with last := true } else s
  let sought : Bool := s.need_seek && (decide (0 ≤ s.ofs) && w.lseek_ok s.ofs)
  if s.need_seek = true ∧ sought = false then
    .out { s with log := s.log ++ [Event.lseek s.ofs false] }
  else
    let s := if s.need_seek then
        { s with need_seek := false, pos := s.ofs.toNat, log := s.log ++ [Event.lseek s.ofs true] }
      else s
    let pos := s.pos
    let z := is_chunk_zero w o pos s.fbuf len
    let s := { s with pos := z.2.2.1, fbuf := z.2.2.2,
                      log := s.log ++ [Event.chunk s.ofs pos len z.2.1 z.1] }
    match coalesce o s z.1 with
    | none => .out s
    | some s => emit w o s

/-- The loop increment `ofs += chunksz`. -/
def advance (chunksz : Nat) (t : State) : State :=
  { t with ofs := to_off_t (t.ofs + chunksz) }

/-- The `for` loop of `discard0`; each pass uses one unit of `fuel`, `none` is
"fuel exhausted". -/
def discard0_loop (w : World) (o : discard_opts) (chunksz : Nat) : Nat → State → Option Outcome
  | 0, _ => none
  | fuel + 1, s =>
    if to_u64 s.ofs < o.dev_size then
      match body w o chunksz s with
      | .out t => some (.returned (-1) t.freed t.log)
      | .next t => discard0_loop w o chunksz fuel (advance chunksz t)
    else some (.returned 0 s.freed s.log)

/-- The local variables at the first evaluation of the loop condition. -/
def init_state (w : World) : State :=
  { ofs := 0, range0 := OFS_INVAL, range1 := OFS_INVAL, freed := 0,
    need_seek := true, last := false, fbuf := w.fbuf0, pos := w.pos0, log := [] }

/-- Function `discard0`. -/
def discard0 (fuel : Nat) (w : World) (o : discard_opts) : Option Outcome :=
  match chunk_size o.granularity w.pagesize with
  | .error f => some (.crashed f)
  | .ok chunksz =>
    if w.malloc_ok = false then some (.returned (-1) 0 [])
    else discard0_loop w o chunksz fuel (init_state w)

/-! ## Reading a trace -/

/-- Ranges for which the discard block was entered, in order. -/
def found_ranges (log : List Event) : List (Nat × Nat) :=
  log.filterMap fun e => match e with
    | .found a l => some (a, l)
    | _ => none

/-- Ranges handed to `BLKDISCARD`, in order. -/
def issued_ranges (log : List Event) : List (Nat × Nat) :=
  log.filterMap fun e => match e with
    | .blkdiscard a l _ => some (a, l)
    | _ => none

/-- One classified chunk: cursor, file position of the read, requested length, value of
`read`, return code of `is_chunk_zero`. -/
structure Chunk where
  ofs : Int
  pos : Nat
  len : Int
  n : Int
  r : Int
  deriving DecidableEq, Repr

/-- The classified chunks of a trace, in order. -/
def chunks (log : List Event) : List Chunk :=
  log.filterMap fun e => match e with
    | .chunk ofs pos len n r => some ⟨ofs, pos, len, n, r⟩
    | _ => none

/-- A small device for examples: 8-byte pages, bytes given by `f`, no failing call,
all reads full. -/
def tiny (f : Nat → Byte) : World :=
  { content := f, pagesize := 8, malloc_ok := true, fbuf0 := fun _ => 7, pos0 := 0,
    lseek_ok := fun _ => true, read_max := fun _ => some (2 ^ 40), discard_ok := fun _ _ => true }

/-! ## One pass of the loop, in exact arithmetic -/

/-- Value of the cursor `ofs` as the loop condition reads it. -/
def cur (s : State) : Nat := to_u64 s.ofs

/-- Number of bytes requested in the pass that starts in state `s`. -/
def chunk_len (o : discard_opts) (c : Nat) (s : State) : Nat := min c (o.dev_size - cur s)

/-- Result of `is_chunk_zero` in the pass that starts in state `s`. -/
def verdict (w : World) (o : discard_opts) (c : Nat) (s : State) : Int × Int × Nat × (Nat → Byte) :=
  is_chunk_zero w o (cur s) s.fbuf (chunk_len o c s : Int)

/-- The successful `lseek` of a pass, if one is made. -/
def seek_events (s : State) : List Event :=
  if s.need_seek then [Event.lseek s.ofs true] else []

/-- The classification event of a pass. -/
def chunk_event (w : World) (o : discard_opts) (c : Nat) (s : State) : Event :=
  Event.chunk s.ofs (cur s) (chunk_len o c s) (verdict w o c s).2.1 (verdict w o c s).1

/-- Start of the zero range that is open once the chunk at the cursor is zero. -/
def open_start (s : State) : Nat := if s.range0 = OFS_INVAL then cur s else s.range0

/-- The range closed by a pass whose chunk gets return code `r`. -/
def closing (o : discard_opts) (c : Nat) (s : State) (r : Int) : Option (Nat × Nat) :=
  if r = IS_ZERO then
    if o.dev_size ≤ cur s + c then some (open_start s, o.dev_size - open_start s) else none
  else if s.range0 ≠ OFS_INVAL then some (s.range0, cur s - s.range0) else none

/-- Side conditions under which no conversion in the loop loses information. -/
structure Sized (o : discard_opts) (c : Nat) : Prop where
  c_pos : 0 < c
  c_lt : c < 2 ^ 31
  size_lt : o.dev_size < 2 ^ 63

/-- Facts about the local variables at every evaluation of the loop condition. -/
structure Inv (o : discard_opts) (c : Nat) (s : State) : Prop where
  dvd : c ∣ cur s
  lt : cur s < o.dev_size + c
  nonneg : cur s < o.dev_size → s.ofs = (cur s : Int)
  last : s.last = true → o.dev_size ≤ cur s
  r1 : s.range1 = OFS_INVAL
  r0 : s.range0 ≠ OFS_INVAL → s.range0 < cur s ∧ c ∣ s.range0 ∧ cur s < o.dev_size
  pos : s.need_seek = false → cur s < o.dev_size → s.pos = cur s
  freed : s.freed ≤ if s.range0 = OFS_INVAL then min (cur s) o.dev_size else s.range0

/-- The variables a pass leaves behind when it reaches the end of the body. -/
structure Carried (w : World) (o : discard_opts) (c : Nat) (s t : State) : Prop where
  ofs : t.ofs = s.ofs
  r1 : t.range1 = OFS_INVAL
  need_seek : t.need_seek = decide ((verdict w o c s).1 = NEED_SEEK)
  last : t.last = decide (o.dev_size ≤ cur s + c)
  pos : t.pos = (verdict w o c s).2.2.1
  fbuf : t.fbuf = (verdict w o c s).2.2.2

/-- The five ways a pass of the loop can go. -/
inductive Pass (w : World) (o : discard_opts) (c : Nat) (s : State) : Step → Prop
  | seek_fail (t : State) (h1 : s.need_seek = true) (h2 : w.lseek_ok s.ofs = false)
      (hlog : t.log = s.log ++ [Event.lseek s.ofs false]) (hfreed : t.freed = s.freed) :
      Pass w o c s (.out t)
  | read_err (t : State) (hseek : s.need_seek = true → w.lseek_ok s.ofs = true)
      (hr : (verdict w o c s).1 = READ_ERR)
      (hlog : t.log = s.log ++ seek_events s ++ [chunk_event w o c s])
      (hfreed : t.freed = s.freed) :
      Pass w o c s (.out t)
  | keep (t : State) (hseek : s.need_seek = true → w.lseek_ok s.ofs = true)
      (hr : (verdict w o c s).1 ≠ READ_ERR)
      (hcl : closing o c s (verdict w o c s).1 = none)
      (hlog : t.log = s.log ++ seek_events s ++ [chunk_event w o c s])
      (hfreed : t.freed = s.freed)
      (hr0 : t.range0 = if (verdict w o c s).1 = IS_ZERO then open_start s else OFS_INVAL)
      (hc : Carried w o c s t) :
      Pass w o c s (.next t)
  | close_ok (t : State) (st ln : Nat) (hseek : s.need_seek = true → w.lseek_ok s.ofs = true)
      (hr : (verdict w o c s).1 ≠ READ_ERR)
      (hcl : closing o c s (verdict w o c s).1 = some (st, ln))
      (hok : o.dry = true ∨ w.discard_ok st ln = true)
      (hlog : t.log = s.log ++ seek_events s ++ [chunk_event w o c s, Event.found st ln]
        ++ (if o.dry then [] else [Event.blkdiscard st ln true]))
      (hfreed : t.freed = s.freed + ln)
      (hr0 : t.range0 = OFS_INVAL)
      (hc : Carried w o c s t) :
      Pass w o c s (.next t)
  | close_fail (t : State) (st ln : Nat) (hseek : s.need_seek = true → w.lseek_ok s.ofs = true)
      (hr : (verdict w o c s).1 ≠ READ_ERR)
      (hcl : closing o c s (verdict w o c s).1 = some (st, ln))
      (hdry : o.dry = false) (hok : w.discard_ok st ln = false)
      (hlog : t.log = s.log ++ seek_events s
        ++ [chunk_event w o c s, Event.found st ln, Event.blkdiscard st ln false])
      (hfreed : t.freed = s.freed) :
      Pass w o c s (.out t)


/-- The state right after the call of `is_chunk_zero` in a pass. -/
def after_chunk (w : World) (o : discard_opts) (c : Nat) (s : State) : State :=
  { ofs := s.ofs, range0 := s.range0, range1 := s.range1, freed := s.freed, need_seek := false,
    last := decide (o.dev_size ≤ cur s + c), fbuf := (verdict w o c s).2.2.2,
    pos := (verdict w o c s).2.2.1, log := s.log ++ seek_events s ++ [chunk_event w o c s] }

/-! ## Vocabulary for the properties of a trace -/

/-- The state, or final state, a pass ends in. -/
def Step.state : Step → State
  | .next t => t
  | .out t => t

/-- The record of the chunk classified by the pass that starts in state `s`. -/
def chunk_rec (w : World) (o : discard_opts) (c : Nat) (s : State) : Chunk :=
  ⟨s.ofs, cur s, chunk_len o c s, (verdict w o c s).2.1, (verdict w o c s).1⟩

/-- Byte offset `x` lies in the range `p` given as start and length. -/
def in_range (x : Nat) (p : Nat × Nat) : Bool := decide (p.1 ≤ x ∧ x < p.1 + p.2)

/-- Byte offset `x` lies in the extent `[ofs, ofs + len)` of chunk `k`. -/
def in_chunk (x : Nat) (k : Chunk) : Bool := decide (k.ofs ≤ (x : Int) ∧ (x : Int) < k.ofs + k.len)

/-- Chunk `k` was classified `IS_NOT_ZERO`. -/
def Chunk.nonzero (k : Chunk) : Bool := decide (k.r = IS_NOT_ZERO)

/-- Chunk `k` was a short read (`NEED_SEEK`). -/
def Chunk.short (k : Chunk) : Bool := decide (k.r = NEED_SEEK)

/-- Byte offset `x` lies in a chunk of `ch` that was read in full and classified `IS_ZERO`,
and the device holds a zero byte there. -/
def zero_covered (w : World) (ch : List Chunk) (x : Nat) : Prop :=
  w.content x = 0 ∧
  ∃ k, k ∈ ch ∧ k.r = IS_ZERO ∧ (k.pos : Int) = k.ofs ∧ k.n = k.len ∧ in_chunk x k = true

/-- Number of emitted ranges and of chunks classified non-zero or short that contain `x`. -/
def cover_count (fd : List (Nat × Nat)) (ch : List Chunk) (x : Nat) : Nat :=
  fd.countP (in_range x) + ch.countP (fun k => (k.nonzero || k.short) && in_chunk x k)

/-- What holds of every classified chunk of a scan. -/
structure ChunkOk (w : World) (o : discard_opts) (c : Nat) (k : Chunk) : Prop where
  ofs_nonneg : 0 ≤ k.ofs
  pos_eq : (k.pos : Int) = k.ofs
  len_pos : 0 < k.len
  len_le : k.len ≤ c
  end_le : k.ofs + k.len ≤ o.dev_size
  dvd : (c : Int) ∣ k.ofs
  codes : k.r = IS_ZERO ∨ k.r = IS_NOT_ZERO ∨ k.r = READ_ERR ∨ k.r = NEED_SEEK
  zero : k.r = IS_ZERO → k.n = k.len ∧
    ∀ x : Nat, k.ofs ≤ (x : Int) → (x : Int) < k.ofs + k.len → w.content x = 0
  short : k.r = NEED_SEEK → 0 ≤ k.n ∧ k.n < k.len
  full : k.r = IS_NOT_ZERO → k.n = k.len

/-- What holds of every emitted range. -/
structure RangeOk (w : World) (o : discard_opts) (c : Nat) (ch : List Chunk) (p : Nat × Nat) :
    Prop where
  len_pos : 0 < p.2
  end_le : p.1 + p.2 ≤ o.dev_size
  dvd : c ∣ p.1
  len_dvd : p.1 + p.2 = o.dev_size ∨ c ∣ p.2
  zero : ∀ x, p.1 ≤ x → x < p.1 + p.2 → zero_covered w ch x
  closed : (p.1 + p.2 = o.dev_size ∧
      ∃ k, k ∈ ch ∧ k.r = IS_ZERO ∧ k.ofs + k.len = o.dev_size) ∨
    (∃ k, k ∈ ch ∧ (k.r = IS_NOT_ZERO ∨ k.r = NEED_SEEK) ∧ k.ofs = ((p.1 + p.2 : Nat) : Int))

/-- Geometry of a trace given by its chunks `ch`, emitted ranges `fd` and issued ranges
`iss`: the cursor has reached `a`, and emitted ranges and non-zero chunks tile `[0, bnd)`. -/
structure Geo (w : World) (o : discard_opts) (c : Nat) (ch : List Chunk)
    (fd iss : List (Nat × Nat)) (a bnd : Nat) : Prop where
  chunk_ok : ∀ k, k ∈ ch → ChunkOk w o c k ∧ k.ofs + k.len ≤ a
  found_ok : ∀ p, p ∈ fd → RangeOk w o c ch p
  issued : ∀ p, p ∈ iss → p ∈ fd
  tiling : ∀ x, cover_count fd ch x = if x < bnd then 1 else 0
  bnd_le : bnd ≤ a ∧ bnd ≤ o.dev_size
  final : ∀ k, k ∈ ch → k.r = IS_ZERO → k.ofs + k.len = o.dev_size →
    ∃ st, fd.getLast? = some (st, o.dev_size - st) ∧ (st : Int) ≤ k.ofs

/-- The bound up to which the device is settled at the loop condition: the start of the
open zero range, or the cursor. -/
def bound (o : discard_opts) (s : State) : Nat :=
  if s.range0 = OFS_INVAL then min (cur s) o.dev_size else s.range0

/-- The geometry invariant at the loop condition. -/
structure GeoAt (w : World) (o : discard_opts) (c : Nat) (s : State) : Prop where
  geo : Geo w o c (chunks s.log) (found_ranges s.log) (issued_ranges s.log) (cur s) (bound o s)
  pend : s.range0 ≠ OFS_INVAL → ∀ x, s.range0 ≤ x → x < cur s → zero_covered w (chunks s.log) x

/-- One step of the left-to-right reading of the classified chunks: `acc.1` are the zero
runs already ended, `acc.2` is the start of the run that is open. -/
def run_step (acc : List (Nat × Nat) × Option Nat) (k : Chunk) :
    List (Nat × Nat) × Option Nat :=
  if k.r = IS_ZERO then (acc.1, some (acc.2.getD k.ofs.toNat))
  else match acc.2 with
    | some st => (acc.1 ++ [(st, k.ofs.toNat - st)], none)
    | none => (acc.1, none)

/-- The maximal runs of consecutive chunks classified `IS_ZERO`, in the words of the
specification: in increasing offset order, each run from the offset of its first chunk to
the offset of the chunk that ends it, or to `dev_size` when no chunk ends it. -/
def spec_zero_runs (dev_size : Nat) (ch : List Chunk) : List (Nat × Nat) :=
  match (ch.foldl run_step ([], none)).2 with
  | some st => (ch.foldl run_step ([], none)).1 ++ [(st, dev_size - st)]
  | none => (ch.foldl run_step ([], none)).1

/-- The start of the open zero range, if one is open. -/
def pend (s : State) : Option Nat := if s.range0 = OFS_INVAL then none else some s.range0

/-- The invariant that ties the emitted ranges to the zero runs of the classified chunks. -/
structure RunsAt (o : discard_opts) (s : State) : Prop where
  fold : (chunks s.log).foldl run_step ([], none) = (found_ranges s.log, pend s) ∨
    (o.dev_size ≤ cur s ∧ s.range0 = OFS_INVAL ∧
      ∃ st, ((chunks s.log).foldl run_step ([], none)).2 = some st ∧
        found_ranges s.log =
          ((chunks s.log).foldl run_step ([], none)).1 ++ [(st, o.dev_size - st)])
  gap : (found_ranges s.log).Pairwise (fun p q => p.1 + p.2 < q.1)
  below : cur s < o.dev_size → ∀ p, p ∈ found_ranges s.log → p.1 + p.2 < bound o s

/-- Ranges whose `BLKDISCARD` succeeded, in order. -/
def done_ranges (log : List Event) : List (Nat × Nat) :=
  log.filterMap fun e => match e with
    | .blkdiscard a l true => some (a, l)
    | _ => none

/-- Ranges whose reclaim completed: in a dry run every emitted range, otherwise the ranges
whose `BLKDISCARD` succeeded. -/
def completed_ranges (dry : Bool) (log : List Event) : List (Nat × Nat) :=
  if dry then found_ranges log else done_ranges log

/-- Sum of the lengths of a list of ranges. -/
def total_length (l : List (Nat × Nat)) : Nat := (l.map Prod.snd).sum

/-- An event that is a failed call: a failed `lseek`, a read error, a failed
`BLKDISCARD`. -/
def Event.failed : Event → Bool
  | .lseek _ ok => !ok
  | .chunk _ _ _ _ r => decide (r = READ_ERR)
  | .found _ _ => false
  | .blkdiscard _ _ ok => !ok

/-- The trace without its `BLKDISCARD` calls. -/
def strip (log : List Event) : List Event :=
  log.filter fun e => match e with
    | .blkdiscard _ _ _ => false
    | _ => true

/-- The same device with no failing call: every `lseek`, `malloc` and `BLKDISCARD`
succeeds, and a read that failed delivers `fill pos` bytes instead. -/
def error_free (w : World) (fill : Nat → Nat) : World :=
  { w with
    malloc_ok := true
    lseek_ok := fun _ => true
    discard_ok := fun _ _ => true
    read_max := fun pos => match w.read_max pos with
      | some k => some k
      | none => some (fill pos) }

/-- A device with 4096-byte pages, bytes given by `f`, no failing call, all reads full. -/
def paged (f : Nat → Byte) : World :=
  { tiny f with pagesize := 4096 }

/-- The accounting invariant at the loop condition: `freed` is the total length of the
emitted ranges, and each of them is completed. -/
structure FreedAt (o : discard_opts) (s : State) : Prop where
  sum : s.freed = total_length (found_ranges s.log)
  all : completed_ranges o.dry s.log = found_ranges s.log

/-- Two states that agree on every variable and on the file position, the trace of the
first being the trace of the second without its `BLKDISCARD` calls. -/
structure Rel (sd sr : State) : Prop where
  ofs : sd.ofs = sr.ofs
  range0 : sd.range0 = sr.range0
  range1 : sd.range1 = sr.range1
  freed : sd.freed = sr.freed
  need_seek : sd.need_seek = sr.need_seek
  last : sd.last = sr.last
  fbuf : sd.fbuf = sr.fbuf
  pos : sd.pos = sr.pos
  log : sd.log = strip sr.log

/-! ## Example devices and the notions of the specification -/

/-- A world of three 8-byte chunks: zero, non-zero, zero. -/
def zero_one_zero : World :=
  tiny fun i => if i < 8 then 0 else if i < 16 then 1 else 0

/-- A world with one 8-byte all-zero chunk whose read delivers 3 bytes. -/
def short_world : World :=
  { tiny (fun _ => 0) with read_max := fun _ => some 3 }

/-- Coverage count in the words of the specification: number of emitted ranges and of
chunks classified NonZero (`IS_NOT_ZERO`) that contain `x`. -/
def spec_cover_count (fd : List (Nat × Nat)) (ch : List Chunk) (x : Nat) : Nat :=
  fd.countP (in_range x) + ch.countP (fun k => k.nonzero && in_chunk x k)

/-- A 48-byte device with 32-byte chunks: the first chunk is non-zero, the final chunk of
16 bytes is zero. -/
def tail_world : World :=
  tiny fun i => if i < 32 then 1 else 0

/-- States the loop condition is evaluated in during a call of `discard0` with chunk
size `c`. -/
inductive Reach (w : World) (o : discard_opts) (c : Nat) : State → Prop
  | init : Reach w o c (init_state w)
  | step {s t : State} : Reach w o c s → to_u64 s.ofs < o.dev_size →
      body w o c s = .next t → Reach w o c (advance c t)

/-- A 16-byte all-zero device with 8-byte chunks whose read at position 0 delivers
3 bytes. -/
def short_first : World :=
  { tiny (fun _ => 0) with read_max := fun pos => if pos = 0 then some 3 else some 8 }

/-- A 32-byte device with 8-byte chunks zero, non-zero, zero, non-zero, on which the
`BLKDISCARD` of a range that starts at offset 16 fails. -/
def failing_world : World :=
  { tiny (fun i => if i < 8 then 0 else if i < 16 then 1 else if i < 24 then 0 else 1) with
    discard_ok := fun st _ => decide (st ≠ 16) }

/-- A device of `2^32 + 4096` bytes with 4096-byte pages: the first page is zero, every
other byte is 1. The read at file position 0 is full; a read at any other position
fails, as the kernel refuses a `read` whose count is `(size_t)(-2^31)`. -/
def wrap_world : World :=
  { paged (fun i => if i < 4096 then 0 else 1) with
    read_max := fun pos => if pos = 0 then some (2 ^ 40) else none }

/-- Options of a real run on `wrap_world`: discard granularity `2^31`. -/
def wrap_opts : discard_opts := ⟨2 ^ 32 + 4096, 2 ^ 31, false⟩

/-- The calls `discard0` makes on `wrap_world` with `wrap_opts`. -/
def wrap_trace : List Event :=
  [.lseek 0 true, .chunk 0 0 4096 4096 IS_ZERO, .found 0 (2 ^ 32 + 4096),
   .blkdiscard 0 (2 ^ 32 + 4096) true, .chunk (2 ^ 31) 4096 (-2 ^ 31) (-1) READ_ERR]

/-! ## Integer conversions -/

theorem to_int_eq (x : Int) (h0 : -2 ^ 31 ≤ x) (h1 : x < 2 ^ 31) : to_int x = x := by
  unfold to_int; omega

theorem to_u64_eq (x : Int) (h0 : 0 ≤ x) (h1 : x < 2 ^ 64) : to_u64 x = x.toNat := by
  unfold to_u64; omega

theorem to_u64_natCast (x : Nat) (h1 : x < 2 ^ 64) : to_u64 (x : Int) = x := by
  unfold to_u64; omega

theorem to_u64_to_off_t (x : Int) : to_u64 (to_off_t x) = to_u64 x := by
  unfold to_u64 to_off_t; omega

theorem to_u64_lt (x : Int) : to_u64 x < 2 ^ 64 := by
  unfold to_u64; omega

/-! ## `is_chunk_zero` -/

theorem word_at_eq_zero (buf : Nat → Byte) (p : Nat) :
    word_at buf p = 0 ↔ ∀ j, j < 8 → buf (8 * p + j) = 0 := by
  have hval : ∀ b : Byte, b.val = 0 → b = 0 := fun b h => Fin.ext h
  constructor
  · intro h j hj
    simp [word_at, List.range_succ] at h
    obtain ⟨h0, h1, h2, h3, h4, h5, h6, h7⟩ := h
    have : j = 0 ∨ j = 1 ∨ j = 2 ∨ j = 3 ∨ j = 4 ∨ j = 5 ∨ j = 6 ∨ j = 7 := by omega
    rcases this with e | e | e | e | e | e | e | e <;> subst e
    · exact hval _ h0
    · exact hval _ h1
    · exact hval _ h2
    · exact hval _ h3
    · exact hval _ h4
    · exact hval _ h5
    · exact hval _ h6
    · exact hval _ h7
  · intro h
    have h0 := h 0 (by omega)
    have h1 := h 1 (by omega)
    have h2 := h 2 (by omega)
    have h3 := h 3 (by omega)
    have h4 := h 4 (by omega)
    have h5 := h 5 (by omega)
    have h6 := h 6 (by omega)
    have h7 := h 7 (by omega)
    simp only [Nat.add_zero] at h0
    simp [word_at, List.range_succ, h0, h1, h2, h3, h4, h5, h6, h7]

theorem scan_words_cases (buf : Nat → Byte) (cnt p : Nat) :
    scan_words buf p cnt = IS_ZERO ∨ scan_words buf p cnt = IS_NOT_ZERO := by
  induction cnt generalizing p with
  | zero => left; rfl
  | succ k ih =>
    unfold scan_words
    split
    · right; rfl
    · exact ih (p + 1)

theorem scan_words_eq_zero (buf : Nat → Byte) (cnt p : Nat) :
    scan_words buf p cnt = IS_ZERO ↔ ∀ i, 8 * p ≤ i → i < 8 * (p + cnt) → buf i = 0 := by
  induction cnt generalizing p with
  | zero =>
    constructor
    · intro _ i h1 h2; omega
    · intro _; rfl
  | succ k ih =>
    unfold scan_words
    by_cases hw : word_at buf p = 0
    · rw [if_neg (by simpa using hw), ih (p + 1)]
      rw [word_at_eq_zero] at hw
      constructor
      · intro h i h1 h2
        by_cases hi : i < 8 * (p + 1)
        · have := hw (i - 8 * p) (by omega)
          rwa [show 8 * p + (i - 8 * p) = i by omega] at this
        · exact h i (by omega) (by omega)
      · intro h i h1 h2
        exact h i (by omega) (by omega)
    · rw [if_pos hw]
      constructor
      · intro h; exact absurd h (by decide)
      · intro h
        exfalso; apply hw
        rw [word_at_eq_zero]
        intro j hj
        exact h _ (by omega) (by omega)

theorem classify_full (buf : Nat → Byte) (len : Nat) (h0 : 0 < len) (h1 : len < 2 ^ 31) :
    (classify (len : Int) buf (len : Int) = IS_ZERO ∨
      classify (len : Int) buf (len : Int) = IS_NOT_ZERO) ∧
    (classify (len : Int) buf (len : Int) = IS_ZERO ↔
      8 ∣ len ∧ ∀ i, i < len → buf i = 0) := by
  have hu : to_u64 (len : Int) = len := to_u64_natCast len (by omega)
  unfold classify
  rw [if_neg (by omega), if_neg (by omega), hu]
  by_cases h8 : len % 8 = 0
  · rw [if_neg (by simpa using h8)]
    refine ⟨scan_words_cases _ _ _, ?_⟩
    rw [scan_words_eq_zero]
    constructor
    · intro h
      exact ⟨Nat.dvd_of_mod_eq_zero h8, fun i hi => h i (by omega) (by omega)⟩
    · intro h i _ hi
      exact h.2 i (by omega)
  · rw [if_pos h8]
    refine ⟨Or.inr rfl, ?_⟩
    constructor
    · intro h; exact absurd h (by decide)
    · intro h; exact absurd (Nat.mod_eq_zero_of_dvd h.1) h8

/-- What `is_chunk_zero` returns for a request of `len` bytes at position `a` that lies
inside the device. -/
theorem is_chunk_zero_spec (w : World) (o : discard_opts) (a : Nat) (buf : Nat → Byte)
    (len : Nat) (h0 : 0 < len) (h1 : len < 2 ^ 31) (h2 : a + len ≤ o.dev_size) :
    (w.read_max a = none →
      (is_chunk_zero w o a buf len).1 = READ_ERR ∧ (is_chunk_zero w o a buf len).2.1 = -1) ∧
    (∀ k, w.read_max a = some k →
      (is_chunk_zero w o a buf len).2.1 = ((min k len : Nat) : Int) ∧
      (is_chunk_zero w o a buf len).2.2.1 = a + min k len ∧
      (k < len → (is_chunk_zero w o a buf len).1 = NEED_SEEK) ∧
      (len ≤ k →
        ((is_chunk_zero w o a buf len).1 = IS_ZERO ∨
          (is_chunk_zero w o a buf len).1 = IS_NOT_ZERO) ∧
        ((is_chunk_zero w o a buf len).1 = IS_ZERO ↔
          8 ∣ len ∧ ∀ i, i < len → w.content (a + i) = 0))) := by
  have hu : to_u64 (len : Int) = len := to_u64_natCast len (by omega)
  constructor
  · intro hr
    have hm : to_int (-1) = -1 := by decide
    simp only [is_chunk_zero, sys_read, hr, hm]
    refine ⟨?_, trivial⟩
    unfold classify
    rw [if_pos (by omega)]
  · intro k hr
    have hmin : min k (min len (o.dev_size - a)) = min k len := by omega
    have hn : to_int ((min k len : Nat) : Int) = ((min k len : Nat) : Int) :=
      to_int_eq _ (by omega) (by omega)
    simp only [is_chunk_zero, sys_read, hr, hu, hmin, hn]
    refine ⟨trivial, trivial, ?_, ?_⟩
    · intro hk
      unfold classify
      rw [if_neg (by omega), if_pos (by omega)]
    · intro hk
      have hm : min k len = len := by omega
      rw [hm]
      have hc := classify_full (fun i => if i < len then w.content (a + i) else buf i) len h0 h1
      refine ⟨hc.1, ?_⟩
      rw [hc.2]
      constructor
      · rintro ⟨h8, h⟩
        refine ⟨h8, fun i hi => ?_⟩
        have := h i hi
        simpa [hi] using this
      · rintro ⟨h8, h⟩
        refine ⟨h8, fun i hi => ?_⟩
        simpa [hi] using h i hi

theorem chunk_len_bounds {o : discard_opts} {c : Nat} {s : State} (hs : Sized o c)
    (hlt : cur s < o.dev_size) :
    0 < chunk_len o c s ∧ chunk_len o c s < 2 ^ 31 ∧ cur s + chunk_len o c s ≤ o.dev_size ∧
    chunk_len o c s ≤ c := by
  have := hs.c_pos; have := hs.c_lt
  unfold chunk_len; omega

/-- The return code of a pass is one of the four enumerators, and determines the
value of `read` and the file position as far as the loop depends on them. -/
theorem verdict_spec (w : World) {o : discard_opts} {c : Nat} {s : State} (hs : Sized o c)
    (hlt : cur s < o.dev_size) :
    ((verdict w o c s).1 = IS_ZERO ∨ (verdict w o c s).1 = IS_NOT_ZERO ∨
      (verdict w o c s).1 = READ_ERR ∨ (verdict w o c s).1 = NEED_SEEK) ∧
    ((verdict w o c s).1 = IS_ZERO ∨ (verdict w o c s).1 = IS_NOT_ZERO →
      (verdict w o c s).2.1 = chunk_len o c s ∧
      (verdict w o c s).2.2.1 = cur s + chunk_len o c s) ∧
    ((verdict w o c s).1 = IS_ZERO →
      8 ∣ chunk_len o c s ∧ ∀ i, i < chunk_len o c s → w.content (cur s + i) = 0) ∧
    ((verdict w o c s).1 = NEED_SEEK →
      0 ≤ (verdict w o c s).2.1 ∧ (verdict w o c s).2.1 < chunk_len o c s ∧
      ((verdict w o c s).2.2.1 : Int) = cur s + (verdict w o c s).2.1) ∧
    ((verdict w o c s).1 = READ_ERR → (verdict w o c s).2.1 = -1) := by
  obtain ⟨h0, h1, h2, _⟩ := chunk_len_bounds hs hlt
  have hspec := is_chunk_zero_spec w o (cur s) s.fbuf (chunk_len o c s) h0 h1 h2
  unfold verdict
  generalize is_chunk_zero w o (cur s) s.fbuf (chunk_len o c s) = z at hspec ⊢
  generalize chunk_len o c s = len at *
  have hcodes : IS_ZERO = 0 ∧ IS_NOT_ZERO = 1 ∧ READ_ERR = 2 ∧ NEED_SEEK = -3 :=
    ⟨rfl, rfl, rfl, rfl⟩
  obtain ⟨e0, e1, e2, e3⟩ := hcodes
  cases hr : w.read_max (cur s) with
  | none =>
    obtain ⟨ha, hb⟩ := hspec.1 hr
    rw [ha, hb, e0, e1, e2, e3]
    refine ⟨by omega, ?_, ?_, ?_, ?_⟩ <;> intro h <;> omega
  | some k =>
    obtain ⟨ha, hb, hc, hd⟩ := hspec.2 k hr
    by_cases hk : k < len
    · have hz := hc hk
      rw [hz, ha, hb, e0, e1, e2, e3]
      refine ⟨by omega, ?_, ?_, ?_, ?_⟩ <;> intro h <;> omega
    · obtain ⟨hz, hiff⟩ := hd (by omega)
      have hm : min k len = len := by omega
      rw [hm] at ha hb
      rw [ha, hb]
      refine ⟨by tauto, fun _ => ⟨rfl, rfl⟩, fun h => hiff.1 h, ?_, ?_⟩
      · intro h; rw [h, e0, e1, e3] at hz; omega
      · intro h; rw [h, e0, e1, e2] at hz; omega

theorem body_eq_aux (w : World) {o : discard_opts} {c : Nat} (hs : Sized o c)
    (a r0 r1 freed : Nat) (ns : Bool) (fbuf : Nat → Byte) (pos : Nat) (log : List Event)
    (hlt : a < o.dev_size) (hpos : ns = false → pos = a) :
    body w o c ⟨(a : Int), r0, r1, freed, ns, false, fbuf, pos, log⟩ =
      if ns = true ∧ w.lseek_ok (a : Int) = false then
        .out ⟨(a : Int), r0, r1, freed, ns, decide (o.dev_size ≤ a + c), fbuf, pos,
          log ++ [Event.lseek (a : Int) false]⟩
      else match coalesce o
          ⟨(a : Int), r0, r1, freed, false, decide (o.dev_size ≤ a + c),
            (is_chunk_zero w o a fbuf ((min c (o.dev_size - a) : Nat) : Int)).2.2.2,
            (is_chunk_zero w o a fbuf ((min c (o.dev_size - a) : Nat) : Int)).2.2.1,
            log ++ (if ns then [Event.lseek (a : Int) true] else []) ++
              [Event.chunk (a : Int) a ((min c (o.dev_size - a) : Nat) : Int)
                (is_chunk_zero w o a fbuf ((min c (o.dev_size - a) : Nat) : Int)).2.1
                (is_chunk_zero w o a fbuf ((min c (o.dev_size - a) : Nat) : Int)).1]⟩
          (is_chunk_zero w o a fbuf ((min c (o.dev_size - a) : Nat) : Int)).1 with
        | none => .out
          ⟨(a : Int), r0, r1, freed, false, decide (o.dev_size ≤ a + c),
            (is_chunk_zero w o a fbuf ((min c (o.dev_size - a) : Nat) : Int)).2.2.2,
            (is_chunk_zero w o a fbuf ((min c (o.dev_size - a) : Nat) : Int)).2.2.1,
            log ++ (if ns then [Event.lseek (a : Int) true] else []) ++
              [Event.chunk (a : Int) a ((min c (o.dev_size - a) : Nat) : Int)
                (is_chunk_zero w o a fbuf ((min c (o.dev_size - a) : Nat) : Int)).2.1
                (is_chunk_zero w o a fbuf ((min c (o.dev_size - a) : Nat) : Int)).1]⟩
        | some t => emit w o t := by
  have hc0 := hs.c_pos
  have hc1 := hs.c_lt
  have hD := hs.size_lt
  have hA : to_u64 (a : Int) = a := to_u64_natCast a (by omega)
  have h1 : to_int (c : Int) = c := to_int_eq _ (by omega) (by omega)
  have h2 : to_u64 (to_off_t ((a : Int) + (c : Int))) = a + c := by
    rw [to_u64_to_off_t]
    have := to_u64_natCast (a + c) (by omega)
    simpa using this
  have h5 : (a : Int).toNat = a := by omega
  by_cases hl : o.dev_size ≤ a + c
  · have e3 : to_int (((o.dev_size + 2 ^ 64 - a) % 2 ^ 64 : Nat) : Int)
        = ((min c (o.dev_size - a) : Nat) : Int) := by
      rw [to_int_eq _ (by omega) (by omega)]
      omega
    cases ns
    · have := hpos rfl
      subst this
      simp only [body, h1, h2, hl, h5, hA, decide_True, decide_False, if_true, if_false,
        Bool.false_and, Bool.true_and, Bool.and_true, false_and, true_and, and_true, and_false,
        Bool.false_eq_true, List.append_nil, List.append_assoc, reduceCtorEq, Int.natCast_nonneg,
        Bool.not_eq_true, not_false_eq_true, not_true_eq_false, e3]
      try rfl
    · by_cases hk : w.lseek_ok (a : Int) = true
      · simp only [body, h1, h2, hl, h5, hA, decide_True, decide_False, if_true, if_false,
        Bool.false_and, Bool.true_and, Bool.and_true, false_and, true_and, and_true, and_false,
        Bool.false_eq_true, List.append_nil, List.append_assoc, reduceCtorEq, Int.natCast_nonneg,
        Bool.not_eq_true, not_false_eq_true, not_true_eq_false, e3, hk]
        try rfl
      · simp only [body, h1, h2, hl, h5, hA, decide_True, decide_False, if_true, if_false,
        Bool.false_and, Bool.true_and, Bool.and_true, false_and, true_and, and_true, and_false,
        Bool.false_eq_true, List.append_nil, List.append_assoc, reduceCtorEq, Int.natCast_nonneg,
        Bool.not_eq_true, not_false_eq_true, not_true_eq_false, e3, hk]
  · have e3 : (c : Int) = ((min c (o.dev_size - a) : Nat) : Int) := by omega
    rw [← e3]
    cases ns
    · have := hpos rfl
      subst this
      simp only [body, h1, h2, hl, h5, hA, decide_True, decide_False, if_true, if_false,
        Bool.false_and, Bool.true_and, Bool.and_true, false_and, true_and, and_true, and_false,
        Bool.false_eq_true, List.append_nil, List.append_assoc, reduceCtorEq, Int.natCast_nonneg,
        Bool.not_eq_true, not_false_eq_true, not_true_eq_false]
      try rfl
    · by_cases hk : w.lseek_ok (a : Int) = true
      · simp only [body, h1, h2, hl, h5, hA, decide_True, decide_False, if_true, if_false,
        Bool.false_and, Bool.true_and, Bool.and_true, false_and, true_and, and_true, and_false,
        Bool.false_eq_true, List.append_nil, List.append_assoc, reduceCtorEq, Int.natCast_nonneg,
        Bool.not_eq_true, not_false_eq_true, not_true_eq_false, hk]
        try rfl
      · simp only [body, h1, h2, hl, h5, hA, decide_True, decide_False, if_true, if_false,
        Bool.false_and, Bool.true_and, Bool.and_true, false_and, true_and, and_true, and_false,
        Bool.false_eq_true, List.append_nil, List.append_assoc, reduceCtorEq, Int.natCast_nonneg,
        Bool.not_eq_true, not_false_eq_true, not_true_eq_false, hk]

theorem pass_of_keep (w : World) {o : discard_opts} {c : Nat} {s t : State}
    (hseek : s.need_seek = true → w.lseek_ok s.ofs = true)
    (hr : (verdict w o c s).1 ≠ READ_ERR)
    (hcl : closing o c s (verdict w o c s).1 = none)
    (hlog : t.log = s.log ++ seek_events s ++ [chunk_event w o c s])
    (hfreed : t.freed = s.freed)
    (hr0 : t.range0 = if (verdict w o c s).1 = IS_ZERO then open_start s else OFS_INVAL)
    (hc : Carried w o c s t) : Pass w o c s (emit w o t) := by
  have : emit w o t = .next t := by
    unfold emit
    rw [if_neg]
    intro h
    exact h.2 hc.r1
  rw [this]
  exact Pass.keep t hseek hr hcl hlog hfreed hr0 hc

theorem pass_of_close (w : World) {o : discard_opts} {c : Nat} {s t : State} (st ln : Nat)
    (hseek : s.need_seek = true → w.lseek_ok s.ofs = true)
    (hr : (verdict w o c s).1 ≠ READ_ERR)
    (hcl : closing o c s (verdict w o c s).1 = some (st, ln))
    (hlog : t.log = s.log ++ seek_events s ++ [chunk_event w o c s])
    (hfreed : t.freed = s.freed)
    (h0 : t.range0 = st) (h1 : t.range1 = ln)
    (hst : st ≠ OFS_INVAL) (hln : ln ≠ OFS_INVAL) (hsum : s.freed + ln < 2 ^ 64)
    (hofs : t.ofs = s.ofs)
    (hns : t.need_seek = decide ((verdict w o c s).1 = NEED_SEEK))
    (hlast : t.last = decide (o.dev_size ≤ cur s + c))
    (hpos : t.pos = (verdict w o c s).2.2.1)
    (hbuf : t.fbuf = (verdict w o c s).2.2.2) : Pass w o c s (emit w o t) := by
  subst h0; subst h1
  unfold emit
  rw [if_pos ⟨hst, hln⟩]
  have hmod : (t.freed + t.range1) % 2 ^ 64 = s.freed + t.range1 := by
    rw [hfreed]; exact Nat.mod_eq_of_lt hsum
  cases hd : o.dry
  · rw [if_pos rfl]
    cases hk : w.discard_ok t.range0 t.range1
    · rw [if_neg (by simp)]
      refine Pass.close_fail _ t.range0 t.range1 hseek hr hcl hd hk ?_ hfreed
      simp only [hlog, List.append_assoc, List.singleton_append, List.cons_append, List.nil_append]
    · rw [if_pos rfl]
      refine Pass.close_ok _ t.range0 t.range1 hseek hr hcl (Or.inr hk) ?_ hmod rfl
        ⟨hofs, rfl, hns, hlast, hpos, hbuf⟩
      simp [hlog, hd]
  · rw [if_neg (by simp)]
    refine Pass.close_ok _ t.range0 t.range1 hseek hr hcl (Or.inl hd) ?_ hmod rfl
      ⟨hofs, rfl, hns, hlast, hpos, hbuf⟩
    simp [hlog, hd]

theorem body_pass (w : World) {o : discard_opts} {c : Nat} {s : State} (hs : Sized o c)
    (hi : Inv o c s) (hlt : cur s < o.dev_size) : Pass w o c s (body w o c s) := by
  have hofs := hi.nonneg hlt
  have hlast : s.last = false := by
    cases h : s.last
    · rfl
    · have := hi.last h; omega
  have hr1 := hi.r1
  have hr0 := hi.r0
  have hfreed := hi.freed
  have hpos := hi.pos
  have hv := (verdict_spec w hs hlt).1
  have hD := hs.size_lt
  have hc0 := hs.c_pos
  clear hi
  obtain ⟨ofs, r0, r1, freed, ns, last, fbuf, pos, log⟩ := s
  simp only [cur] at hofs hlast hr1 hr0 hfreed hpos hlt
  subst hlast; subst hr1
  have hu : to_u64 ofs < 2 ^ 64 := to_u64_lt ofs
  obtain ⟨a, ha⟩ : ∃ a : Nat, ofs = a := ⟨_, hofs⟩
  subst ha
  have hA : to_u64 (a : Int) = a := by omega
  rw [hA] at hlt hr0 hfreed hpos
  rw [body_eq_aux w hs a r0 OFS_INVAL freed ns fbuf pos log hlt (fun h => hpos h hlt)]
  have hI : OFS_INVAL = 2 ^ 64 - 1 := rfl
  have hcodes : IS_ZERO = 0 ∧ IS_NOT_ZERO = 1 ∧ READ_ERR = 2 ∧ NEED_SEEK = -3 :=
    ⟨rfl, rfl, rfl, rfl⟩
  obtain ⟨e0, e1, e2, e3⟩ := hcodes
  have hvd : verdict w o c ⟨(a : Int), r0, OFS_INVAL, freed, ns, false, fbuf, pos, log⟩
      = is_chunk_zero w o a fbuf ((min c (o.dev_size - a) : Nat) : Int) := by
    simp only [verdict, cur, chunk_len, hA]
  rw [hvd] at hv
  by_cases hsk : ns = true ∧ w.lseek_ok (a : Int) = false
  · rw [if_pos hsk]
    exact Pass.seek_fail _ hsk.1 hsk.2 rfl rfl
  · rw [if_neg hsk]
    have hseek : ns = true → w.lseek_ok (a : Int) = true := by
      intro h; cases hk : w.lseek_ok (a : Int)
      · exact absurd ⟨h, hk⟩ hsk
      · rfl
    generalize hz : is_chunk_zero w o a fbuf ((min c (o.dev_size - a) : Nat) : Int) = z at hv hvd ⊢
    have hce : chunk_event w o c ⟨(a : Int), r0, OFS_INVAL, freed, ns, false, fbuf, pos, log⟩
        = Event.chunk (a : Int) a ((min c (o.dev_size - a) : Nat) : Int) z.2.1 z.1 := by
      simp only [chunk_event, hvd, cur, chunk_len, hA]
    have hcl : ∀ r, closing o c ⟨(a : Int), r0, OFS_INVAL, freed, ns, false, fbuf, pos, log⟩ r
        = if r = IS_ZERO then
            if o.dev_size ≤ a + c then
              some (if r0 = OFS_INVAL then a else r0, o.dev_size - if r0 = OFS_INVAL then a else r0)
            else none
          else if r0 ≠ OFS_INVAL then some (r0, a - r0) else none := by
      intro r
      simp only [closing, open_start, cur, hA]
    have hnI : ∀ x : Nat, x < 2 ^ 63 → x ≠ OFS_INVAL := fun x hx => by omega
    have hrr : (verdict w o c ⟨(a : Int), r0, OFS_INVAL, freed, ns, false, fbuf, pos, log⟩).1
        = z.1 := by rw [hvd]
    have hcur : cur ⟨(a : Int), r0, OFS_INVAL, freed, ns, false, fbuf, pos, log⟩ = a := hA
    rcases hv with hr | hr | hr | hr
    · -- IS_ZERO
      have hne : z.1 ≠ READ_ERR := by rw [hr, e0, e2]; omega
      have hns : false = decide (z.1 = NEED_SEEK) := by rw [hr, e0, e3]; simp
      by_cases hl : o.dev_size ≤ a + c
      · by_cases h0 : r0 = OFS_INVAL
        · subst h0
          simp only [coalesce, hr, hl, hA, decide_True, if_true]
          refine pass_of_close w a (o.dev_size - a) hseek (by rw [hrr]; exact hne)
            (by rw [hrr, hcl, hr]; simp [hl]) (by simp only [seek_events, hce, hr]) rfl rfl
            (by simp only; omega) (hnI a (by omega)) (hnI _ (by omega))
            (by rw [if_pos rfl] at hfreed; simp only; omega) rfl
            (by rw [hrr]; exact hns) (by rw [hcur]; simp [hl]) (by rw [hvd]) (by rw [hvd])
        · simp only [coalesce, hr, hl, hA, h0, decide_True, if_true, if_false]
          have := hr0 h0
          refine pass_of_close w r0 (o.dev_size - r0) hseek (by rw [hrr]; exact hne)
            (by rw [hrr, hcl, hr]; simp [hl, h0]) (by simp only [seek_events, hce, hr]) rfl rfl
            (by simp only; omega) h0 (hnI _ (by omega))
            (by simp only [h0, if_false] at hfreed ⊢; omega) rfl
            (by rw [hrr]; exact hns) (by rw [hcur]; simp [hl]) (by rw [hvd]) (by rw [hvd])
      · by_cases h0 : r0 = OFS_INVAL
        · subst h0
          simp only [coalesce, hr, hl, hA, decide_False, if_true, if_false, Bool.false_eq_true]
          refine pass_of_keep w hseek (by rw [hrr]; exact hne)
            (by rw [hrr, hcl, hr]; simp [hl]) (by simp only [seek_events, hce, hr]) rfl
            (by rw [hrr, hr]; simp [open_start, hcur])
            ⟨rfl, rfl, by rw [hrr]; exact hns, by rw [hcur]; simp [hl], by rw [hvd], by rw [hvd]⟩
        · simp only [coalesce, hr, hl, hA, h0, decide_False, if_true, if_false, Bool.false_eq_true]
          refine pass_of_keep w hseek (by rw [hrr]; exact hne)
            (by rw [hrr, hcl, hr]; simp [hl]) (by simp only [seek_events, hce, hr]) rfl
            (by rw [hrr, hr]; simp [open_start, h0])
            ⟨rfl, rfl, by rw [hrr]; exact hns, by rw [hcur]; simp [hl], by rw [hvd], by rw [hvd]⟩
    · -- IS_NOT_ZERO
      have hne : z.1 ≠ READ_ERR := by rw [hr]; decide
      have hns : false = decide (z.1 = NEED_SEEK) := by rw [hr]; decide
      have d1 : ¬ IS_NOT_ZERO = IS_ZERO := by decide
      have d2 : ¬ IS_NOT_ZERO = NEED_SEEK := by decide
      by_cases h0 : r0 = OFS_INVAL
      · subst h0
        simp only [coalesce, hr, d1, d2, or_true, if_true, if_false, ne_eq, not_true_eq_false]
        refine pass_of_keep w hseek (by rw [hrr]; exact hne)
          (by rw [hrr, hcl, hr]; simp [d1]) (by simp only [seek_events, hce, hr]) rfl
          (by rw [hrr, hr]; simp [d1])
          ⟨rfl, rfl, by rw [hrr]; exact hns, by rw [hcur], by rw [hvd], by rw [hvd]⟩
      · simp only [coalesce, hr, d1, d2, h0, hA, or_true, if_true, if_false, ne_eq,
          not_false_eq_true]
        have := hr0 h0
        refine pass_of_close w r0 (a - r0) hseek (by rw [hrr]; exact hne)
          (by rw [hrr, hcl, hr]; simp [d1, h0]) (by simp only [seek_events, hce, hr]) rfl rfl
          (by simp only; omega) h0 (hnI _ (by omega))
          (by simp only [h0, if_false] at hfreed ⊢; omega) rfl
          (by rw [hrr]; exact hns) (by rw [hcur]) (by rw [hvd]) (by rw [hvd])
    · -- READ_ERR
      have : coalesce o ⟨(a : Int), r0, OFS_INVAL, freed, false, decide (o.dev_size ≤ a + c),
          z.2.2.2, z.2.2.1, log ++ (if ns then [Event.lseek (a : Int) true] else []) ++
              [Event.chunk (a : Int) a ((min c (o.dev_size - a) : Nat) : Int) z.2.1 z.1]⟩ z.1
          = none := by
        simp [coalesce, hr, e0, e1, e2, e3]
      rw [this]
      refine Pass.read_err _ hseek (by rw [hvd]; exact hr) ?_ rfl
      simp only [seek_events, hce]
    · -- NEED_SEEK
      have hne : z.1 ≠ READ_ERR := by rw [hr]; decide
      have hns : true = decide (z.1 = NEED_SEEK) := by rw [hr]; decide
      have d1 : ¬ NEED_SEEK = IS_ZERO := by decide
      by_cases h0 : r0 = OFS_INVAL
      · subst h0
        simp only [coalesce, hr, d1, true_or, if_true, if_false, ne_eq, not_true_eq_false]
        refine pass_of_keep w hseek (by rw [hrr]; exact hne)
          (by rw [hrr, hcl, hr]; simp [d1]) (by simp only [seek_events, hce, hr]) rfl
          (by rw [hrr, hr]; simp [d1])
          ⟨rfl, rfl, by rw [hrr]; exact hns, by rw [hcur], by rw [hvd], by rw [hvd]⟩
      · simp only [coalesce, hr, d1, h0, hA, true_or, if_true, if_false, ne_eq,
          not_false_eq_true]
        have := hr0 h0
        refine pass_of_close w r0 (a - r0) hseek (by rw [hrr]; exact hne)
          (by rw [hrr, hcl, hr]; simp [d1, h0]) (by simp only [seek_events, hce, hr]) rfl rfl
          (by simp only; omega) h0 (hnI _ (by omega))
          (by simp only [h0, if_false] at hfreed ⊢; omega) rfl
          (by rw [hrr]; exact hns) (by rw [hcur]) (by rw [hvd]) (by rw [hvd])

/-! ## The loop -/

theorem closing_some {o : discard_opts} {c : Nat} {s : State} {r : Int} {st ln : Nat}
    (hi : Inv o c s) (hlt : cur s < o.dev_size)
    (h : closing o c s r = some (st, ln)) :
    st + ln ≤ o.dev_size ∧ 0 < ln ∧ c ∣ st ∧ st ≤ cur s ∧ s.freed ≤ st ∧
    (r = IS_ZERO → st = open_start s ∧ st + ln = o.dev_size ∧ o.dev_size ≤ cur s + c) ∧
    (r ≠ IS_ZERO → st = s.range0 ∧ s.range0 ≠ OFS_INVAL ∧ st + ln = cur s) := by
  have hr0 := hi.r0
  have hfr := hi.freed
  have hdv := hi.dvd
  unfold closing open_start at h
  unfold open_start
  by_cases hz : r = IS_ZERO
  · rw [if_pos hz] at h
    by_cases hl : o.dev_size ≤ cur s + c
    · rw [if_pos hl] at h
      simp only [Option.some.injEq, Prod.mk.injEq] at h
      obtain ⟨h1, h2⟩ := h
      by_cases h0 : s.range0 = OFS_INVAL
      · rw [if_pos h0] at h1 h2 hfr ⊢
        subst h1; subst h2
        refine ⟨by omega, by omega, hdv, le_refl _, by omega, fun _ => ⟨rfl, by omega, hl⟩,
          fun h => absurd hz h⟩
      · rw [if_neg h0] at h1 h2 hfr ⊢
        obtain ⟨ha, hb, _⟩ := hr0 h0
        subst h1; subst h2
        refine ⟨by omega, by omega, hb, by omega, hfr, fun _ => ⟨rfl, by omega, hl⟩,
          fun h => absurd hz h⟩
    · rw [if_neg hl] at h
      exact absurd h (by simp)
  · rw [if_neg hz] at h
    by_cases h0 : s.range0 = OFS_INVAL
    · rw [if_neg (by simpa using h0)] at h
      exact absurd h (by simp)
    · rw [if_pos h0] at h
      simp only [Option.some.injEq, Prod.mk.injEq] at h
      obtain ⟨h1, h2⟩ := h
      rw [if_neg h0] at hfr
      obtain ⟨ha, hb, _⟩ := hr0 h0
      subst h1; subst h2
      refine ⟨by omega, by omega, hb, by omega, hfr, fun h => absurd h hz,
        fun _ => ⟨rfl, h0, by omega⟩⟩

theorem closing_none {o : discard_opts} {c : Nat} {s : State} {r : Int}
    (h : closing o c s r = none) :
    (r = IS_ZERO → cur s + c < o.dev_size) ∧ (r ≠ IS_ZERO → s.range0 = OFS_INVAL) := by
  unfold closing at h
  by_cases hz : r = IS_ZERO
  · rw [if_pos hz] at h
    by_cases hl : o.dev_size ≤ cur s + c
    · rw [if_pos hl] at h; exact absurd h (by simp)
    · exact ⟨fun _ => by omega, fun h => absurd hz h⟩
  · rw [if_neg hz] at h
    by_cases h0 : s.range0 = OFS_INVAL
    · exact ⟨fun h => absurd h hz, fun _ => h0⟩
    · rw [if_pos h0] at h; exact absurd h (by simp)

theorem Inv_init (w : World) {o : discard_opts} {c : Nat} (hs : Sized o c) :
    Inv o c (init_state w) := by
  have hc0 := hs.c_pos
  have h0 : cur (init_state w) = 0 := by
    show to_u64 0 = 0
    decide
  refine ⟨?_, ?_, ?_, ?_, rfl, ?_, ?_, ?_⟩
  · rw [h0]; exact Nat.dvd_zero c
  · rw [h0]; omega
  · intro _; rw [h0]; rfl
  · intro h; exact absurd h (by simp [init_state])
  · intro h; exact absurd rfl h
  · intro h; exact absurd h (by simp [init_state])
  · exact Nat.zero_le _

theorem cur_advance {o : discard_opts} {c : Nat} {s t : State} (hs : Sized o c)
    (hi : Inv o c s) (hlt : cur s < o.dev_size) (hofs : t.ofs = s.ofs) :
    cur (advance c t) = cur s + c := by
  have hnn := hi.nonneg hlt
  have := hs.c_lt
  have := hs.size_lt
  simp only [cur, advance, to_u64_to_off_t, hofs] at hnn hlt ⊢
  rw [hnn]
  have h := to_u64_natCast (to_u64 s.ofs + c) (by omega)
  have h2 := to_u64_natCast (to_u64 s.ofs) (by omega)
  rw [h2]
  simpa using h

theorem Inv_next (w : World) {o : discard_opts} {c : Nat} {s t : State} (hs : Sized o c)
    (hi : Inv o c s) (hlt : cur s < o.dev_size) (hp : Pass w o c s (.next t)) :
    Inv o c (advance c t) := by
  have hc0 := hs.c_pos
  have hc1 := hs.c_lt
  have hD := hs.size_lt
  have hv := verdict_spec w hs hlt
  have hlen := chunk_len_bounds hs hlt
  have hfr := hi.freed
  have hr0 := hi.r0
  have hdv := hi.dvd
  have hnn := hi.nonneg hlt
  have key : ∀ (hrr : (verdict w o c s).1 ≠ READ_ERR) (hc : Carried w o c s t)
      (h0 : t.range0 ≠ OFS_INVAL → t.range0 < cur s + c ∧ c ∣ t.range0 ∧ cur s + c < o.dev_size)
      (hf : t.freed ≤ if t.range0 = OFS_INVAL then min (cur s + c) o.dev_size else t.range0),
      Inv o c (advance c t) := by
    intro hrr hc h0 hf
    have hcur := cur_advance hs hi hlt hc.ofs
    refine ⟨?_, ?_, ?_, ?_, hc.r1, ?_, ?_, ?_⟩
    · rw [hcur]; exact Dvd.dvd.add hdv (dvd_refl c)
    · rw [hcur]; omega
    · intro h
      rw [hcur] at h ⊢
      simp only [advance, hc.ofs, hnn]
      unfold to_off_t; omega
    · intro h
      rw [hcur]
      have := hc.last
      simp only [advance] at h
      rw [h] at this
      simpa using this.symm
    · rw [hcur]; exact h0
    · intro hn hl
      rw [hcur] at hl ⊢
      simp only [advance] at hn ⊢
      have hns := hc.need_seek
      rw [hn] at hns
      have hne : (verdict w o c s).1 ≠ NEED_SEEK := by simpa using hns.symm
      have hne2 : (verdict w o c s).1 ≠ READ_ERR := hrr
      have h01 : (verdict w o c s).1 = IS_ZERO ∨ (verdict w o c s).1 = IS_NOT_ZERO := by
        rcases hv.1 with h | h | h | h
        · exact Or.inl h
        · exact Or.inr h
        · exact absurd h hne2
        · exact absurd h hne
      rw [hc.pos, (hv.2.1 h01).2]
      unfold chunk_len; omega
    · rw [hcur]; exact hf
  cases hp with
  | keep _ hseek hr hcl hlog hfreed hr0' hc =>
    obtain ⟨hn1, hn2⟩ := closing_none hcl
    refine key hr hc ?_ ?_
    · intro hne
      by_cases hz : (verdict w o c s).1 = IS_ZERO
      · rw [if_pos hz] at hr0'
        rw [hr0']
        unfold open_start
        by_cases h0 : s.range0 = OFS_INVAL
        · rw [if_pos h0]
          exact ⟨by omega, hdv, hn1 hz⟩
        · rw [if_neg h0]
          obtain ⟨ha, hb, _⟩ := hr0 h0
          exact ⟨by omega, hb, hn1 hz⟩
      · rw [if_neg hz] at hr0'
        exact absurd hr0' hne
    · rw [hfreed, hr0']
      by_cases hz : (verdict w o c s).1 = IS_ZERO
      · rw [if_pos hz]
        unfold open_start
        by_cases h0 : s.range0 = OFS_INVAL
        · have hIc : ¬ cur s = OFS_INVAL := by unfold OFS_INVAL; omega
          rw [if_pos h0] at hfr ⊢
          rw [if_neg hIc]
          omega
        · rw [if_neg h0] at hfr ⊢
          rw [if_neg h0]
          exact hfr
      · rw [if_neg hz, if_pos rfl]
        rw [if_pos (hn2 hz)] at hfr
        omega
  | close_ok _ st ln hseek hr hcl hok hlog hfreed hr0' hc =>
    obtain ⟨h1, h2, h3, h4, h5, h6, h7⟩ := closing_some hi hlt hcl
    refine key hr hc ?_ ?_
    · intro hne; exact absurd hr0' hne
    · rw [hfreed, hr0', if_pos rfl]
      by_cases hz : (verdict w o c s).1 = IS_ZERO
      · have := h6 hz; omega
      · have := h7 hz; omega

/-- Invariant rule for the loop: a property of the state at the loop condition that
every completed pass re-establishes gives a property of the outcome. -/
theorem loop_rule (w : World) {o : discard_opts} {c : Nat} (hs : Sized o c)
    (P : State → Prop) (Q : Outcome → Prop)
    (hnext : ∀ s t, Inv o c s → P s → cur s < o.dev_size → Pass w o c s (.next t) →
      P (advance c t))
    (hout : ∀ s t, Inv o c s → P s → cur s < o.dev_size → Pass w o c s (.out t) →
      Q (.returned (-1) t.freed t.log))
    (hdone : ∀ s, Inv o c s → P s → o.dev_size ≤ cur s → Q (.returned 0 s.freed s.log)) :
    ∀ fuel s r, Inv o c s → P s → discard0_loop w o c fuel s = some r → Q r := by
  intro fuel
  induction fuel with
  | zero => intro s r _ _ h; exact absurd h (by simp [discard0_loop])
  | succ n ih =>
    intro s r hi hP h
    unfold discard0_loop at h
    by_cases hlt : cur s < o.dev_size
    · have hlt2 : to_u64 s.ofs < o.dev_size := hlt
      rw [if_pos hlt2] at h
      have hp := body_pass w hs hi hlt
      cases hb : body w o c s with
      | out t =>
        rw [hb] at h hp
        simp only [Option.some.injEq] at h
        rw [← h]
        exact hout s t hi hP hlt hp
      | next t =>
        rw [hb] at h hp
        simp only [advance] at h
        exact ih _ r (Inv_next w hs hi hlt hp) (hnext s t hi hP hlt hp) h
    · have hlt2 : ¬ to_u64 s.ofs < o.dev_size := hlt
      rw [if_neg hlt2] at h
      simp only [Option.some.injEq] at h
      rw [← h]
      exact hdone s hi hP (by omega)

/-- The loop returns when it is given one unit of fuel per chunk still ahead, plus one. -/
theorem loop_returns (w : World) {o : discard_opts} {c : Nat} (hs : Sized o c) :
    ∀ n s, Inv o c s → o.dev_size ≤ cur s + n * c →
      ∃ ret freed log, discard0_loop w o c (n + 1) s = some (.returned ret freed log) := by
  intro n
  induction n with
  | zero =>
    intro s _ h
    unfold discard0_loop
    have hlt2 : ¬ to_u64 s.ofs < o.dev_size := by
      show ¬ cur s < o.dev_size
      omega
    rw [if_neg hlt2]
    exact ⟨_, _, _, rfl⟩
  | succ n ih =>
    intro s hi h
    unfold discard0_loop
    by_cases hlt : cur s < o.dev_size
    · have hlt2 : to_u64 s.ofs < o.dev_size := hlt
      rw [if_pos hlt2]
      have hp := body_pass w hs hi hlt
      cases hb : body w o c s with
      | out t => exact ⟨_, _, _, rfl⟩
      | next t =>
        rw [hb] at hp
        simp only
        have hofs : t.ofs = s.ofs := by
          cases hp with
          | keep _ _ _ _ _ _ _ hc => exact hc.ofs
          | close_ok _ _ _ _ _ _ _ _ _ _ hc => exact hc.ofs
        refine ih _ (Inv_next w hs hi hlt hp) ?_
        rw [cur_advance hs hi hlt hofs]
        have : (n + 1) * c = n * c + c := by ring
        omega
    · have hlt2 : ¬ to_u64 s.ofs < o.dev_size := hlt
      rw [if_neg hlt2]
      exact ⟨_, _, _, rfl⟩

theorem chunk_size_ok_iff (g : Nat) (p : Int) (c : Nat) :
    chunk_size g p = .ok c ↔
      g ≠ 0 ∧ c = (if (g : Int) < p then to_u32 p else g) ∧ c % g = 0 := by
  unfold chunk_size
  by_cases hg : g = 0
  · simp [hg]
  · simp only [hg, if_false, ne_eq, not_false_eq_true, true_and]
    by_cases hm : (if (g : Int) < p then to_u32 p else g) % g = 0
    · rw [if_neg (by simpa using hm)]
      constructor
      · intro h
        simp only [Except.ok.injEq] at h
        rw [← h]; exact ⟨rfl, hm⟩
      · rintro ⟨h, _⟩
        rw [h]
    · rw [if_pos hm]
      constructor
      · intro h; exact absurd h (by simp)
      · rintro ⟨h, h2⟩
        rw [h] at h2
        exact absurd h2 hm

/-- With enough fuel `discard0` returns. -/
theorem discard0_returns (w : World) (o : discard_opts) (c : Nat)
    (hc : chunk_size o.granularity w.pagesize = .ok c) (hs : Sized o c)
    (fuel : Nat) (hfuel : o.dev_size < fuel) :
    ∃ ret freed log, discard0 fuel w o = some (.returned ret freed log) := by
  unfold discard0
  rw [hc]
  simp only
  by_cases hm : w.malloc_ok = false
  · rw [if_pos hm]; exact ⟨_, _, _, rfl⟩
  · rw [if_neg hm]
    obtain ⟨n, rfl⟩ : ∃ n, fuel = n + 1 := ⟨fuel - 1, by omega⟩
    refine loop_returns w hs n _ (Inv_init w hs) ?_
    have h0 : cur (init_state w) = 0 := by
      show to_u64 0 = 0
      decide
    rw [h0]
    have := hs.c_pos
    have : n ≤ n * c := Nat.le_mul_of_pos_right n this
    omega

/-- Invariant rule for `discard0`. -/
theorem discard0_rule (w : World) (o : discard_opts) (c : Nat)
    (hc : chunk_size o.granularity w.pagesize = .ok c) (hs : Sized o c)
    (P : State → Prop) (Q : Outcome → Prop)
    (hinit : P (init_state w))
    (hnext : ∀ s t, Inv o c s → P s → cur s < o.dev_size → Pass w o c s (.next t) →
      P (advance c t))
    (hout : ∀ s t, Inv o c s → P s → cur s < o.dev_size → Pass w o c s (.out t) →
      Q (.returned (-1) t.freed t.log))
    (hdone : ∀ s, Inv o c s → P s → o.dev_size ≤ cur s → Q (.returned 0 s.freed s.log))
    (hmalloc : w.malloc_ok = false → Q (.returned (-1) 0 [])) :
    ∀ fuel r, discard0 fuel w o = some r → Q r := by
  intro fuel r h
  unfold discard0 at h
  rw [hc] at h
  simp only at h
  by_cases hm : w.malloc_ok = false
  · rw [if_pos hm] at h
    simp only [Option.some.injEq] at h
    rw [← h]; exact hmalloc hm
  · rw [if_neg hm] at h
    exact loop_rule w hs P Q hnext hout hdone fuel _ r (Inv_init w hs) hinit h

/-! ## Projections of a trace -/

@[simp] theorem found_ranges_append (a b : List Event) :
    found_ranges (a ++ b) = found_ranges a ++ found_ranges b := by
  simp [found_ranges, List.filterMap_append]

@[simp] theorem issued_ranges_append (a b : List Event) :
    issued_ranges (a ++ b) = issued_ranges a ++ issued_ranges b := by
  simp [issued_ranges, List.filterMap_append]

@[simp] theorem chunks_append (a b : List Event) :
    chunks (a ++ b) = chunks a ++ chunks b := by
  simp [chunks, List.filterMap_append]

@[simp] theorem found_ranges_seek (s : State) : found_ranges (seek_events s) = [] := by
  unfold seek_events; split <;> rfl

@[simp] theorem issued_ranges_seek (s : State) : issued_ranges (seek_events s) = [] := by
  unfold seek_events; split <;> rfl

@[simp] theorem chunks_seek (s : State) : chunks (seek_events s) = [] := by
  unfold seek_events; split <;> rfl

@[simp] theorem found_ranges_nil : found_ranges [] = [] := rfl
@[simp] theorem issued_ranges_nil : issued_ranges [] = [] := rfl
@[simp] theorem chunks_nil : chunks [] = [] := rfl

@[simp] theorem found_ranges_cons_lseek (x : Int) (b : Bool) (l : List Event) :
    found_ranges (Event.lseek x b :: l) = found_ranges l := rfl
@[simp] theorem found_ranges_cons_chunk (w : World) (o : discard_opts) (c : Nat) (s : State)
    (l : List Event) : found_ranges (chunk_event w o c s :: l) = found_ranges l := rfl
@[simp] theorem found_ranges_cons_found (st ln : Nat) (l : List Event) :
    found_ranges (Event.found st ln :: l) = (st, ln) :: found_ranges l := rfl
@[simp] theorem found_ranges_cons_blkdiscard (st ln : Nat) (b : Bool) (l : List Event) :
    found_ranges (Event.blkdiscard st ln b :: l) = found_ranges l := rfl

@[simp] theorem issued_ranges_cons_lseek (x : Int) (b : Bool) (l : List Event) :
    issued_ranges (Event.lseek x b :: l) = issued_ranges l := rfl
@[simp] theorem issued_ranges_cons_chunk (w : World) (o : discard_opts) (c : Nat) (s : State)
    (l : List Event) : issued_ranges (chunk_event w o c s :: l) = issued_ranges l := rfl
@[simp] theorem issued_ranges_cons_found (st ln : Nat) (l : List Event) :
    issued_ranges (Event.found st ln :: l) = issued_ranges l := rfl
@[simp] theorem issued_ranges_cons_blkdiscard (st ln : Nat) (b : Bool) (l : List Event) :
    issued_ranges (Event.blkdiscard st ln b :: l) = (st, ln) :: issued_ranges l := rfl

@[simp] theorem chunks_cons_lseek (x : Int) (b : Bool) (l : List Event) :
    chunks (Event.lseek x b :: l) = chunks l := rfl
@[simp] theorem chunks_cons_chunk (w : World) (o : discard_opts) (c : Nat) (s : State)
    (l : List Event) : chunks (chunk_event w o c s :: l) = chunk_rec w o c s :: chunks l := rfl
@[simp] theorem chunks_cons_found (st ln : Nat) (l : List Event) :
    chunks (Event.found st ln :: l) = chunks l := rfl
@[simp] theorem chunks_cons_blkdiscard (st ln : Nat) (b : Bool) (l : List Event) :
    chunks (Event.blkdiscard st ln b :: l) = chunks l := rfl

@[simp] theorem found_ranges_cons_chunk_event (a : Int) (p : Nat) (len n r : Int)
    (l : List Event) : found_ranges (Event.chunk a p len n r :: l) = found_ranges l := rfl
@[simp] theorem issued_ranges_cons_chunk_event (a : Int) (p : Nat) (len n r : Int)
    (l : List Event) : issued_ranges (Event.chunk a p len n r :: l) = issued_ranges l := rfl
@[simp] theorem chunks_cons_chunk_event (a : Int) (p : Nat) (len n r : Int)
    (l : List Event) : chunks (Event.chunk a p len n r :: l) = ⟨a, p, len, n, r⟩ :: chunks l := rfl

/-- The five ways of a pass, read off the three projections of the trace. -/
theorem pass_proj {w : World} {o : discard_opts} {c : Nat} {s : State} {step : Step}
    (hp : Pass w o c s step) :
    (chunks step.state.log = chunks s.log ∧ found_ranges step.state.log = found_ranges s.log ∧
      issued_ranges step.state.log = issued_ranges s.log ∧ ∃ t, step = .out t) ∨
    (chunks step.state.log = chunks s.log ++ [chunk_rec w o c s] ∧
      found_ranges step.state.log = found_ranges s.log ∧
      issued_ranges step.state.log = issued_ranges s.log ∧
      ((verdict w o c s).1 = READ_ERR ∧ (∃ t, step = .out t) ∨
       (verdict w o c s).1 ≠ READ_ERR ∧ closing o c s (verdict w o c s).1 = none ∧
        ∃ t, step = .next t)) ∨
    (∃ st ln, closing o c s (verdict w o c s).1 = some (st, ln) ∧
      (verdict w o c s).1 ≠ READ_ERR ∧
      chunks step.state.log = chunks s.log ++ [chunk_rec w o c s] ∧
      found_ranges step.state.log = found_ranges s.log ++ [(st, ln)] ∧
      (issued_ranges step.state.log = issued_ranges s.log ∨
        issued_ranges step.state.log = issued_ranges s.log ++ [(st, ln)])) := by
  cases hp with
  | seek_fail t h1 h2 hlog hfreed =>
    left
    simp [Step.state, hlog]
  | read_err t hseek hr hlog hfreed =>
    right; left
    simp [Step.state, hlog, hr]
  | keep t hseek hr hcl hlog hfreed hr0 hc =>
    right; left
    simp [Step.state, hlog, hr, hcl]
  | close_ok t st ln hseek hr hcl hok hlog hfreed hr0 hc =>
    right; right
    refine ⟨st, ln, hcl, hr, ?_, ?_, ?_⟩
    · cases hd : o.dry <;> simp [Step.state, hlog, hd]
    · cases hd : o.dry <;> simp [Step.state, hlog, hd]
    · cases hd : o.dry
      · right; simp [Step.state, hlog, hd]
      · left; simp [Step.state, hlog, hd]
  | close_fail t st ln hseek hr hcl hdry hok hlog hfreed =>
    right; right
    refine ⟨st, ln, hcl, hr, ?_, ?_, ?_⟩
    · simp [Step.state, hlog]
    · simp [Step.state, hlog]
    · right; simp [Step.state, hlog]

theorem chunk_rec_ok (w : World) {o : discard_opts} {c : Nat} {s : State} (hs : Sized o c)
    (hi : Inv o c s) (hlt : cur s < o.dev_size) :
    ChunkOk w o c (chunk_rec w o c s) ∧ (chunk_rec w o c s).ofs = cur s ∧
    (chunk_rec w o c s).len = chunk_len o c s ∧
    (chunk_rec w o c s).r = (verdict w o c s).1 := by
  have hv := verdict_spec w hs hlt
  have hlen := chunk_len_bounds hs hlt
  have hnn := hi.nonneg hlt
  have hdv := hi.dvd
  refine ⟨⟨?_, ?_, ?_, ?_, ?_, ?_, hv.1, ?_, ?_, ?_⟩, hnn, rfl, rfl⟩
  all_goals simp only [chunk_rec]
  · omega
  · omega
  · omega
  · omega
  · omega
  · rw [hnn]; exact Int.natCast_dvd_natCast.mpr hdv
  · intro h
    refine ⟨(hv.2.1 (Or.inl h)).1, fun x h1 h2 => ?_⟩
    have := (hv.2.2.1 h).2 (x - cur s) (by omega)
    rwa [show cur s + (x - cur s) = x by omega] at this
  · intro h
    exact ⟨(hv.2.2.2.1 h).1, (hv.2.2.2.1 h).2.1⟩
  · intro h
    exact (hv.2.1 (Or.inr h)).1

/-! ## Geometry of the trace -/

theorem zero_covered_mono {w : World} {ch : List Chunk} {x : Nat} (k : Chunk)
    (h : zero_covered w ch x) : zero_covered w (ch ++ [k]) x := by
  obtain ⟨h0, k0, hk, h1⟩ := h
  exact ⟨h0, k0, List.mem_append_left _ hk, h1⟩

theorem zero_covered_new {w : World} {o : discard_opts} {c : Nat} {ch : List Chunk}
    {k : Chunk} {x : Nat} (hk : ChunkOk w o c k) (hz : k.r = IS_ZERO)
    (h1 : k.ofs ≤ (x : Int)) (h2 : (x : Int) < k.ofs + k.len) :
    zero_covered w (ch ++ [k]) x := by
  refine ⟨(hk.zero hz).2 x h1 h2, k, by simp, hz, hk.pos_eq, (hk.zero hz).1, ?_⟩
  simp [in_chunk, h1, h2]

theorem RangeOk_mono {w : World} {o : discard_opts} {c : Nat} {ch : List Chunk}
    {p : Nat × Nat} (k : Chunk) (h : RangeOk w o c ch p) : RangeOk w o c (ch ++ [k]) p :=
  ⟨h.len_pos, h.end_le, h.dvd, h.len_dvd, fun x h1 h2 => zero_covered_mono k (h.zero x h1 h2),
    by
      rcases h.closed with ⟨h1, k2, hk2, h2⟩ | ⟨k2, hk2, h2⟩
      · exact Or.inl ⟨h1, k2, List.mem_append_left _ hk2, h2⟩
      · exact Or.inr ⟨k2, List.mem_append_left _ hk2, h2⟩⟩

theorem cover_count_append (fd newf : List (Nat × Nat)) (ch : List Chunk) (k : Chunk)
    (x : Nat) :
    cover_count (fd ++ newf) (ch ++ [k]) x =
      cover_count fd ch x + newf.countP (in_range x) +
        (if (k.r = IS_NOT_ZERO ∨ k.r = NEED_SEEK) ∧ k.ofs ≤ (x : Int) ∧ (x : Int) < k.ofs + k.len
          then 1 else 0) := by
  simp only [cover_count, List.countP_append, List.countP_cons, List.countP_nil, Chunk.nonzero,
    Chunk.short, in_chunk, Bool.and_eq_true, Bool.or_eq_true, decide_eq_true_eq]
  omega

theorem countP_in_range_single (x st ln : Nat) :
    [(st, ln)].countP (in_range x) = if st ≤ x ∧ x < st + ln then 1 else 0 := by
  simp [List.countP_cons, in_range]

/-- Extension of the geometry by one classified chunk and the ranges emitted with it. -/
theorem Geo_extend {w : World} {o : discard_opts} {c : Nat} {ch : List Chunk}
    {fd iss : List (Nat × Nat)} {a bnd : Nat} (hG : Geo w o c ch fd iss a bnd)
    (ha : a < o.dev_size) {k : Chunk} (hk : ChunkOk w o c k) (a2 : Nat)
    (ha2 : k.ofs + k.len ≤ a2) (haa : a ≤ a2)
    (newf newi : List (Nat × Nat)) (bnd2 : Nat)
    (hnew : ∀ p, p ∈ newf → RangeOk w o c (ch ++ [k]) p)
    (hiss : ∀ p, p ∈ newi → p ∈ newf)
    (htile : ∀ x, (if x < bnd then 1 else 0) + newf.countP (in_range x) +
        (if (k.r = IS_NOT_ZERO ∨ k.r = NEED_SEEK) ∧ k.ofs ≤ (x : Int) ∧
          (x : Int) < k.ofs + k.len then 1 else 0) = if x < bnd2 then 1 else 0)
    (hbnd : bnd2 ≤ a2 ∧ bnd2 ≤ o.dev_size)
    (hfinal : k.r = IS_ZERO → k.ofs + k.len = o.dev_size →
      ∃ st, (fd ++ newf).getLast? = some (st, o.dev_size - st) ∧ (st : Int) ≤ k.ofs) :
    Geo w o c (ch ++ [k]) (fd ++ newf) (iss ++ newi) a2 bnd2 := by
  refine ⟨?_, ?_, ?_, ?_, hbnd, ?_⟩
  · intro k2 hk2
    rcases List.mem_append.1 hk2 with h | h
    · obtain ⟨h1, h2⟩ := hG.chunk_ok k2 h
      exact ⟨h1, by omega⟩
    · simp only [List.mem_singleton] at h
      subst h
      exact ⟨hk, ha2⟩
  · intro p hp
    rcases List.mem_append.1 hp with h | h
    · exact RangeOk_mono k (hG.found_ok p h)
    · exact hnew p h
  · intro p hp
    rcases List.mem_append.1 hp with h | h
    · exact List.mem_append_left _ (hG.issued p h)
    · exact List.mem_append_right _ (hiss p h)
  · intro x
    rw [cover_count_append, hG.tiling x]
    exact htile x
  · intro k2 hk2 hz hf
    rcases List.mem_append.1 hk2 with h | h
    · obtain ⟨_, h2⟩ := hG.chunk_ok k2 h
      omega
    · simp only [List.mem_singleton] at h
      subst h
      exact hfinal hz hf

theorem bound_eq_open_start {o : discard_opts} {s : State} (hlt : cur s < o.dev_size) :
    bound o s = open_start s := by
  unfold bound open_start
  split
  · omega
  · rfl

theorem chunk_len_cases {o : discard_opts} {c : Nat} {s : State} (hlt : cur s < o.dev_size) :
    (cur s + c < o.dev_size → chunk_len o c s = c) ∧
    (o.dev_size ≤ cur s + c → cur s + chunk_len o c s = o.dev_size) ∧
    min (cur s + c) o.dev_size = cur s + chunk_len o c s := by
  unfold chunk_len
  rcases Nat.lt_or_ge (cur s + c) o.dev_size with h | h
  · rw [Nat.min_eq_left (by omega), Nat.min_eq_left (by omega)]
    exact ⟨fun _ => rfl, fun _ => by omega, rfl⟩
  · rw [Nat.min_eq_right (by omega), Nat.min_eq_right (by omega)]
    exact ⟨fun _ => by omega, fun _ => by omega, by omega⟩

/-- Geometry after a pass that classifies its chunk and closes no range. -/
theorem Geo_keep (w : World) {o : discard_opts} {c : Nat} {s : State} (hs : Sized o c)
    (hi : Inv o c s) (hg : GeoAt w o c s) (hlt : cur s < o.dev_size)
    (hcl : (verdict w o c s).1 = READ_ERR ∨ closing o c s (verdict w o c s).1 = none) :
    Geo w o c (chunks s.log ++ [chunk_rec w o c s]) (found_ranges s.log) (issued_ranges s.log)
      (cur s + c)
      (if (verdict w o c s).1 = IS_ZERO ∨ (verdict w o c s).1 = READ_ERR then open_start s
        else cur s + chunk_len o c s) := by
  obtain ⟨hk, hko, hkl, hkr⟩ := chunk_rec_ok w hs hi hlt
  have hlen := chunk_len_bounds hs hlt
  have hlc := chunk_len_cases (c := c) hlt
  have hb := bound_eq_open_start hlt
  have hG := hg.geo
  rw [hb] at hG
  have hble := hG.bnd_le
  have e0 : IS_ZERO = 0 := rfl
  have e1 : IS_NOT_ZERO = 1 := rfl
  have e2 : READ_ERR = 2 := rfl
  have e3 : NEED_SEEK = -3 := rfl
  have hcodes := hk.codes
  rw [hkr] at hcodes
  have hos : (verdict w o c s).1 = IS_NOT_ZERO ∨ (verdict w o c s).1 = NEED_SEEK →
      open_start s = cur s := by
    intro h
    have hn : closing o c s (verdict w o c s).1 = none := by
      rcases hcl with h2 | h2
      · rw [h2] at h; omega
      · exact h2
    have h0 := (closing_none hn).2 (by omega)
    unfold open_start; rw [if_pos h0]
  have hnl : (verdict w o c s).1 = IS_ZERO → cur s + c < o.dev_size := by
    intro h
    rcases hcl with h2 | h2
    · rw [h2] at h; omega
    · exact (closing_none h2).1 h
  have := Geo_extend hG hlt hk (cur s + c) (by rw [hko, hkl]; omega) (by omega) [] []
    (if (verdict w o c s).1 = IS_ZERO ∨ (verdict w o c s).1 = READ_ERR then open_start s
        else cur s + chunk_len o c s)
    (by intro p hp; exact absurd hp (by simp))
    (by intro p hp; exact absurd hp (by simp))
    ?_ ?_ ?_
  · simpa using this
  · intro x
    rw [hko, hkl, hkr]
    simp only [List.countP_nil, Nat.add_zero]
    generalize (verdict w o c s).1 = r at *
    generalize chunk_len o c s = len at *
    generalize open_start s = st at *
    split_ifs <;> omega
  · generalize (verdict w o c s).1 = r at *
    generalize chunk_len o c s = len at *
    generalize open_start s = st at *
    split_ifs <;> omega
  · intro hz hf
    rw [hkr] at hz
    rw [hko, hkl] at hf
    have := hnl hz
    omega

/-- The pending zero range and the chunk of the current pass, when it is zero, are covered
by chunks that were read in full and classified `IS_ZERO`. -/
theorem pend_covered (w : World) {o : discard_opts} {c : Nat} {s : State} (hs : Sized o c)
    (hi : Inv o c s) (hg : GeoAt w o c s) (hlt : cur s < o.dev_size) (x : Nat)
    (h1 : open_start s ≤ x)
    (h2 : x < cur s ∨ ((verdict w o c s).1 = IS_ZERO ∧ x < cur s + chunk_len o c s)) :
    zero_covered w (chunks s.log ++ [chunk_rec w o c s]) x := by
  obtain ⟨hk, hko, hkl, hkr⟩ := chunk_rec_ok w hs hi hlt
  by_cases hx : x < cur s
  · have h0 : s.range0 ≠ OFS_INVAL := by
      intro h
      unfold open_start at h1
      rw [if_pos h] at h1
      omega
    unfold open_start at h1
    rw [if_neg h0] at h1
    exact zero_covered_mono _ (hg.pend h0 x h1 hx)
  · rcases h2 with h2 | ⟨hz, h2⟩
    · exact absurd h2 hx
    · exact zero_covered_new hk (by rw [hkr]; exact hz) (by rw [hko]; omega)
        (by rw [hko, hkl]; omega)

/-- Geometry after a pass that classifies its chunk and closes the range `st`, `ln`. -/
theorem Geo_close (w : World) {o : discard_opts} {c : Nat} {s : State} (hs : Sized o c)
    (hi : Inv o c s) (hg : GeoAt w o c s) (hlt : cur s < o.dev_size) {st ln : Nat}
    (hr : (verdict w o c s).1 ≠ READ_ERR)
    (hcl : closing o c s (verdict w o c s).1 = some (st, ln))
    (newi : List (Nat × Nat)) (hnewi : newi = [] ∨ newi = [(st, ln)]) :
    Geo w o c (chunks s.log ++ [chunk_rec w o c s]) (found_ranges s.log ++ [(st, ln)])
      (issued_ranges s.log ++ newi) (cur s + c) (cur s + chunk_len o c s) := by
  obtain ⟨hk, hko, hkl, hkr⟩ := chunk_rec_ok w hs hi hlt
  have hlen := chunk_len_bounds hs hlt
  have hlc := chunk_len_cases (c := c) hlt
  have hb := bound_eq_open_start hlt
  have hG := hg.geo
  rw [hb] at hG
  have hble := hG.bnd_le
  have e0 : IS_ZERO = 0 := rfl
  have e1 : IS_NOT_ZERO = 1 := rfl
  have e2 : READ_ERR = 2 := rfl
  have e3 : NEED_SEEK = -3 := rfl
  have hcodes := hk.codes
  rw [hkr] at hcodes
  obtain ⟨c1, c2, c3, c4, c5, c6, c7⟩ := closing_some hi hlt hcl
  have hst : st = open_start s := by
    by_cases hz : (verdict w o c s).1 = IS_ZERO
    · exact (c6 hz).1
    · have := c7 hz
      unfold open_start
      rw [if_neg this.2.1]
      exact this.1
  have hdv := hi.dvd
  refine Geo_extend hG hlt hk (cur s + c) (by rw [hko, hkl]; omega) (by omega) [(st, ln)] newi
    (cur s + chunk_len o c s) ?_ ?_ ?_ ?_ ?_
  · intro p hp
    simp only [List.mem_singleton] at hp
    subst hp
    refine ⟨c2, c1, c3, ?_, ?_, ?_⟩
    pick_goal 3
    · by_cases hz : (verdict w o c s).1 = IS_ZERO
      · left
        have h6 := c6 hz
        refine ⟨h6.2.1, chunk_rec w o c s, by simp, by rw [hkr]; exact hz, ?_⟩
        rw [hko, hkl]
        have := hlc.2.1 h6.2.2
        omega
      · right
        have h7 := c7 hz
        refine ⟨chunk_rec w o c s, by simp, ?_, ?_⟩
        · rw [hkr]
          rcases hcodes with h | h | h | h
          · exact absurd h hz
          · exact Or.inl h
          · exact absurd h hr
          · exact Or.inr h
        · rw [hko]
          simp only
          rw [h7.2.2]
    · by_cases hz : (verdict w o c s).1 = IS_ZERO
      · left; exact (c6 hz).2.1
      · right
        have h := (c7 hz).2.2
        have hl : ln = cur s - st := by omega
        rw [hl]
        exact Nat.dvd_sub' hdv c3
    · intro x h1 h2
      refine pend_covered w hs hi hg hlt x (by simp only at h1; omega) ?_
      by_cases hz : (verdict w o c s).1 = IS_ZERO
      · right
        have := c6 hz
        simp only at h2
        exact ⟨hz, by omega⟩
      · left
        have := c7 hz
        simp only at h2
        omega
  · intro p hp
    rcases hnewi with h | h
    · rw [h] at hp; exact absurd hp (by simp)
    · rw [h] at hp; exact hp
  · intro x
    rw [hko, hkl, hkr, countP_in_range_single]
    generalize (verdict w o c s).1 = r at *
    generalize chunk_len o c s = len at *
    generalize open_start s = os at *
    have k6 : r = 0 → st + ln = o.dev_size ∧ o.dev_size ≤ cur s + c := by
      intro h; exact (c6 (by omega)).2
    have k7 : r ≠ 0 → st + ln = cur s := by
      intro h; exact (c7 (by omega)).2.2
    clear c6 c7 hG hg hi hk hcl hb hdv c3 hnewi
    split_ifs <;> omega
  · omega
  · intro hz hf
    rw [hkr] at hz
    refine ⟨st, ?_, by rw [hko]; omega⟩
    have := (c6 hz).2.1
    have hl : ln = o.dev_size - st := by omega
    rw [hl]
    simp

theorem open_start_ne {o : discard_opts} {c : Nat} {s : State} (hs : Sized o c)
    (hi : Inv o c s) (hlt : cur s < o.dev_size) : open_start s ≠ OFS_INVAL := by
  have := hs.size_lt
  have := hi.r0
  unfold open_start
  split
  · unfold OFS_INVAL; omega
  · assumption

/-- One pass keeps the geometry of the trace, whether it falls through or leaves the loop. -/
theorem GeoAt_pass (w : World) {o : discard_opts} {c : Nat} {s : State} {step : Step}
    (hs : Sized o c) (hi : Inv o c s) (hg : GeoAt w o c s) (hlt : cur s < o.dev_size)
    (hp : Pass w o c s step) :
    (∃ a2 b2, Geo w o c (chunks step.state.log) (found_ranges step.state.log)
      (issued_ranges step.state.log) a2 b2) ∧
    (∀ t, step = .next t → GeoAt w o c (advance c t)) := by
  have hlc := chunk_len_cases (c := c) hlt
  have hne := open_start_ne hs hi hlt
  cases hp with
  | seek_fail t h1 h2 hlog hfreed =>
    refine ⟨⟨cur s, bound o s, ?_⟩, fun t h => by cases h⟩
    simp only [Step.state, hlog]
    simpa using hg.geo
  | read_err t hseek hr hlog hfreed =>
    have hgeo := Geo_keep w hs hi hg hlt (Or.inl hr)
    have hch : chunks t.log = chunks s.log ++ [chunk_rec w o c s] := by simp [hlog]
    have hfd : found_ranges t.log = found_ranges s.log := by simp [hlog]
    have his : issued_ranges t.log = issued_ranges s.log := by simp [hlog]
    refine ⟨⟨?_, ?_, ?_⟩, fun t h => by cases h⟩
    pick_goal 3
    · simp only [Step.state, hch, hfd, his]
      exact hgeo
  | keep t hseek hr hcl hlog hfreed hr0 hc =>
    have hgeo := Geo_keep w hs hi hg hlt (Or.inr hcl)
    have hch : chunks t.log = chunks s.log ++ [chunk_rec w o c s] := by simp [hlog]
    have hfd : found_ranges t.log = found_ranges s.log := by simp [hlog]
    have his : issued_ranges t.log = issued_ranges s.log := by simp [hlog]
    refine ⟨⟨?_, ?_, ?_⟩, fun t2 h => ?_⟩
    pick_goal 3
    · simp only [Step.state, hch, hfd, his]
      exact hgeo
    · cases h
      have hcur := cur_advance hs hi hlt hc.ofs
      have hlog2 : (advance c t).log = t.log := rfl
      have hr2 : (advance c t).range0 = t.range0 := rfl
      have hbd : bound o (advance c t) =
          if (verdict w o c s).1 = IS_ZERO ∨ (verdict w o c s).1 = READ_ERR then open_start s
          else cur s + chunk_len o c s := by
        unfold bound
        rw [hr2, hcur, hr0]
        by_cases hz : (verdict w o c s).1 = IS_ZERO
        · rw [if_pos hz, if_neg hne, if_pos (Or.inl hz)]
        · rw [if_neg hz, if_pos rfl, if_neg (by tauto)]
          exact hlc.2.2
      refine ⟨?_, ?_⟩
      · rw [hlog2, hch, hfd, his, hcur, hbd]
        exact hgeo
      · intro h0 x h1 h2
        rw [hr2, hr0] at h0 h1
        rw [hcur] at h2
        rw [hlog2, hch]
        by_cases hz : (verdict w o c s).1 = IS_ZERO
        · rw [if_pos hz] at h1
          have := hlc.1 ((closing_none hcl).1 hz)
          exact pend_covered w hs hi hg hlt x h1 (Or.inr ⟨hz, by omega⟩)
        · rw [if_neg hz] at h0
          exact absurd rfl h0
  | close_ok t st ln hseek hr hcl hok hlog hfreed hr0 hc =>
    have hch : chunks t.log = chunks s.log ++ [chunk_rec w o c s] := by
      cases hd : o.dry <;> simp [hlog, hd]
    have hfd : found_ranges t.log = found_ranges s.log ++ [(st, ln)] := by
      cases hd : o.dry <;> simp [hlog, hd]
    have his : issued_ranges t.log =
        issued_ranges s.log ++ (if o.dry then [] else [(st, ln)]) := by
      cases hd : o.dry <;> simp [hlog, hd]
    have hgeo := Geo_close w hs hi hg hlt hr hcl (if o.dry then [] else [(st, ln)])
      (by cases o.dry <;> simp)
    refine ⟨⟨?_, ?_, ?_⟩, fun t2 h => ?_⟩
    pick_goal 3
    · simp only [Step.state, hch, hfd, his]
      exact hgeo
    · cases h
      have hcur := cur_advance hs hi hlt hc.ofs
      have hlog2 : (advance c t).log = t.log := rfl
      have hr2 : (advance c t).range0 = t.range0 := rfl
      have hbd : bound o (advance c t) = cur s + chunk_len o c s := by
        unfold bound
        rw [hr2, hcur, hr0, if_pos rfl]
        exact hlc.2.2
      refine ⟨?_, ?_⟩
      · rw [hlog2, hch, hfd, his, hcur, hbd]
        exact hgeo
      · intro h0
        rw [hr2, hr0] at h0
        exact absurd rfl h0
  | close_fail t st ln hseek hr hcl hdry hok hlog hfreed =>
    have hgeo := Geo_close w hs hi hg hlt hr hcl [(st, ln)] (Or.inr rfl)
    have hch : chunks t.log = chunks s.log ++ [chunk_rec w o c s] := by simp [hlog]
    have hfd : found_ranges t.log = found_ranges s.log ++ [(st, ln)] := by simp [hlog]
    have his : issued_ranges t.log = issued_ranges s.log ++ [(st, ln)] := by simp [hlog]
    refine ⟨⟨?_, ?_, ?_⟩, fun t h => by cases h⟩
    pick_goal 3
    · simp only [Step.state, hch, hfd, his]
      exact hgeo

theorem GeoAt_init (w : World) (o : discard_opts) (c : Nat) : GeoAt w o c (init_state w) := by
  have h0 : cur (init_state w) = 0 := by
    show to_u64 0 = 0
    decide
  have hb : bound o (init_state w) = 0 := by
    unfold bound
    rw [h0]
    simp [init_state]
  refine ⟨?_, ?_⟩
  · rw [hb, h0]
    refine ⟨?_, ?_, ?_, ?_, ?_, ?_⟩
    · intro k hk; exact absurd hk (by simp [init_state])
    · intro k hk; exact absurd hk (by simp [init_state])
    · intro k hk; exact absurd hk (by simp [init_state])
    · intro x; simp [init_state, cover_count]
    · exact ⟨le_refl _, Nat.zero_le _⟩
    · intro k hk; exact absurd hk (by simp [init_state])
  · intro h; exact absurd rfl h

/-- The trace of every returning call of `discard0` has the geometry `Geo`, and after a
call that returns 0 the tiles reach the end of the device. -/
theorem discard0_geo (w : World) (o : discard_opts) (c : Nat)
    (hc : chunk_size o.granularity w.pagesize = .ok c) (hs : Sized o c)
    (fuel : Nat) (ret : Int) (freed : Nat) (log : List Event)
    (h : discard0 fuel w o = some (.returned ret freed log)) :
    ∃ a2 b2, Geo w o c (chunks log) (found_ranges log) (issued_ranges log) a2 b2 ∧
      (ret = 0 → b2 = o.dev_size) := by
  have := discard0_rule w o c hc hs (GeoAt w o c)
    (fun out => ∀ ret freed log, out = .returned ret freed log →
      ∃ a2 b2, Geo w o c (chunks log) (found_ranges log) (issued_ranges log) a2 b2 ∧
      (ret = 0 → b2 = o.dev_size))
    (GeoAt_init w o c) ?_ ?_ ?_ ?_ fuel _ h ret freed log rfl
  · exact this
  · intro s t hi hg hlt hp
    exact (GeoAt_pass w hs hi hg hlt hp).2 t rfl
  · intro s t hi hg hlt hp ret freed log he
    cases he
    obtain ⟨a2, b2, hgeo⟩ := (GeoAt_pass w hs hi hg hlt hp).1
    exact ⟨a2, b2, hgeo, fun h => absurd h (by decide)⟩
  · intro s hi hg hge ret freed log he
    cases he
    refine ⟨_, _, hg.geo, fun _ => ?_⟩
    unfold bound
    have := hi.r0
    split
    · omega
    · rename_i h0
      have := this h0
      omega
  · intro hm ret freed log he
    cases he
    refine ⟨0, 0, ?_, fun h => absurd h (by decide)⟩
    refine ⟨?_, ?_, ?_, ?_, ?_, ?_⟩
    · intro k hk; exact absurd hk (by simp)
    · intro k hk; exact absurd hk (by simp)
    · intro k hk; exact absurd hk (by simp)
    · intro x; simp [cover_count]
    · exact ⟨le_refl _, Nat.zero_le _⟩
    · intro k hk; exact absurd hk (by simp)

/-! ## Emitted ranges and zero runs -/

theorem foldl_run_snoc (l : List Chunk) (k : Chunk) :
    (l ++ [k]).foldl run_step ([], none) = run_step (l.foldl run_step ([], none)) k := by
  simp [List.foldl_append]

theorem pend_getD {o : discard_opts} {s : State} (hlt : cur s < o.dev_size) :
    (pend s).getD (cur s) = open_start s ∧ bound o s = open_start s := by
  unfold pend open_start bound
  split
  · exact ⟨rfl, by omega⟩
  · exact ⟨rfl, rfl⟩

theorem RunsAt_init (w : World) (o : discard_opts) : RunsAt o (init_state w) := by
  refine ⟨Or.inl ?_, ?_, ?_⟩
  · simp [init_state, pend]
  · simp [init_state]
  · intro _ p hp; exact absurd hp (by simp [init_state])

theorem RunsAt_next (w : World) {o : discard_opts} {c : Nat} {s t : State} (hs : Sized o c)
    (hi : Inv o c s) (hr : RunsAt o s) (hlt : cur s < o.dev_size)
    (hp : Pass w o c s (.next t)) : RunsAt o (advance c t) := by
  obtain ⟨hk, hko, hkl, hkr⟩ := chunk_rec_ok w hs hi hlt
  have hlen := chunk_len_bounds hs hlt
  have hlc := chunk_len_cases (c := c) hlt
  have hne := open_start_ne hs hi hlt
  obtain ⟨hpg, hbd⟩ := pend_getD hlt
  have hfold : (chunks s.log).foldl run_step ([], none) = (found_ranges s.log, pend s) := by
    rcases hr.fold with h | ⟨h, _⟩
    · exact h
    · omega
  have hbelow := hr.below hlt
  rw [hbd] at hbelow
  have hktn : (chunk_rec w o c s).ofs.toNat = cur s := by rw [hko]; omega
  have hlog2 : (advance c t).log = t.log := rfl
  have hr2 : (advance c t).range0 = t.range0 := rfl
  have hos : open_start s ≤ cur s := by
    unfold open_start
    split
    · exact le_refl _
    · rename_i h0; have := (hi.r0 h0).1; omega
  cases hp with
  | keep _ hseek hrr hcl hlog hfreed hr0 hc =>
    have hcur := cur_advance hs hi hlt hc.ofs
    have hch : chunks t.log = chunks s.log ++ [chunk_rec w o c s] := by simp [hlog]
    have hfd : found_ranges t.log = found_ranges s.log := by simp [hlog]
    obtain ⟨hn1, hn2⟩ := closing_none hcl
    refine ⟨Or.inl ?_, ?_, ?_⟩
    · rw [hlog2, hch, hfd, foldl_run_snoc, hfold]
      by_cases hz : (verdict w o c s).1 = IS_ZERO
      · have hp2 : pend (advance c t) = some (open_start s) := by
          unfold pend; rw [hr2, hr0, if_pos hz, if_neg hne]
        rw [hp2]
        unfold run_step
        rw [hkr, if_pos hz]
        simp only [hktn, hpg]
      · have hp2 : pend (advance c t) = none := by
          unfold pend; rw [hr2, hr0, if_neg hz, if_pos rfl]
        have hp1 : pend s = none := by
          unfold pend; rw [if_pos (hn2 hz)]
        rw [hp2, hp1]
        unfold run_step
        rw [hkr, if_neg hz]
    · rw [hlog2, hfd]; exact hr.gap
    · intro hlt2 p hp2
      rw [hlog2, hfd] at hp2
      have := hbelow p hp2
      unfold bound
      rw [hr2, hr0, hcur]
      by_cases hz : (verdict w o c s).1 = IS_ZERO
      · rw [if_pos hz, if_neg hne]; exact this
      · rw [if_neg hz, if_pos rfl, hlc.2.2]; omega
  | close_ok _ st ln hseek hrr hcl hok hlog hfreed hr0 hc =>
    have hcur := cur_advance hs hi hlt hc.ofs
    have hch : chunks t.log = chunks s.log ++ [chunk_rec w o c s] := by
      cases hd : o.dry <;> simp [hlog, hd]
    have hfd : found_ranges t.log = found_ranges s.log ++ [(st, ln)] := by
      cases hd : o.dry <;> simp [hlog, hd]
    obtain ⟨c1, c2, c3, c4, c5, c6, c7⟩ := closing_some hi hlt hcl
    have hst : st = open_start s := by
      by_cases hz : (verdict w o c s).1 = IS_ZERO
      · exact (c6 hz).1
      · have := c7 hz
        unfold open_start
        rw [if_neg this.2.1]
        exact this.1
    refine ⟨?_, ?_, ?_⟩
    · by_cases hz : (verdict w o c s).1 = IS_ZERO
      · right
        have h6 := c6 hz
        refine ⟨by rw [hcur]; exact h6.2.2, by rw [hr2, hr0], st, ?_, ?_⟩
        · rw [hlog2, hch, foldl_run_snoc, hfold]
          unfold run_step
          rw [hkr, if_pos hz]
          simp only [hktn, hpg, hst]
        · rw [hlog2, hch, hfd, foldl_run_snoc, hfold]
          unfold run_step
          rw [hkr, if_pos hz]
          simp only
          have : ln = o.dev_size - st := by omega
          rw [this]
      · left
        have h7 := c7 hz
        rw [hlog2, hch, hfd, foldl_run_snoc, hfold]
        have hp2 : pend (advance c t) = none := by
          unfold pend; rw [hr2, hr0, if_pos rfl]
        have hp1 : pend s = some s.range0 := by
          unfold pend; rw [if_neg h7.2.1]
        rw [hp2, hp1]
        unfold run_step
        rw [hkr, if_neg hz]
        simp only [hktn]
        have : ln = cur s - s.range0 := by omega
        rw [this, h7.1]
    · rw [hlog2, hfd, List.pairwise_append]
      refine ⟨hr.gap, List.pairwise_singleton _ _, ?_⟩
      intro p hp2 q hq
      simp only [List.mem_singleton] at hq
      subst hq
      have := hbelow p hp2
      simp only
      omega
    · intro hlt2 p hp2
      rw [hcur] at hlt2
      rw [hlog2, hfd] at hp2
      unfold bound
      rw [hr2, hr0, if_pos rfl, hcur, hlc.2.2]
      have hnz : (verdict w o c s).1 ≠ IS_ZERO := by
        intro hz
        have := (c6 hz).2.2
        omega
      have h7 := c7 hnz
      rcases List.mem_append.1 hp2 with h | h
      · have := hbelow p h
        omega
      · simp only [List.mem_singleton] at h
        subst h
        simp only
        omega

/-- After a call of `discard0` that returns 0 the emitted ranges are the zero runs of the
classified chunks, and they are pairwise separated. -/
theorem discard0_runs (w : World) (o : discard_opts) (c : Nat)
    (hc : chunk_size o.granularity w.pagesize = .ok c) (hs : Sized o c)
    (fuel : Nat) (freed : Nat) (log : List Event)
    (h : discard0 fuel w o = some (.returned 0 freed log)) :
    found_ranges log = spec_zero_runs o.dev_size (chunks log) ∧
    (found_ranges log).Pairwise (fun p q => p.1 + p.2 < q.1) := by
  have := discard0_rule w o c hc hs (RunsAt o)
    (fun out => ∀ freed log, out = .returned 0 freed log →
      found_ranges log = spec_zero_runs o.dev_size (chunks log) ∧
      (found_ranges log).Pairwise (fun p q => p.1 + p.2 < q.1))
    (RunsAt_init w o) ?_ ?_ ?_ ?_ fuel _ h freed log rfl
  · exact this
  · intro s t hi hr hlt hp
    exact RunsAt_next w hs hi hr hlt hp
  · intro s t hi hr hlt hp freed log he
    cases he
  · intro s hi hr hge freed log he
    cases he
    refine ⟨?_, hr.gap⟩
    have h0 : s.range0 = OFS_INVAL := by
      by_contra h0
      have := (hi.r0 h0).2.2
      omega
    unfold spec_zero_runs
    rcases hr.fold with hf | ⟨_, _, st, hf1, hf2⟩
    · have hp : pend s = none := by unfold pend; rw [if_pos h0]
      rw [hf, hp]
    · rw [hf1]
      exact hf2
  · intro hm freed log he
    cases he

/-! ## Accounting of `freed` -/

@[simp] theorem done_ranges_append (a b : List Event) :
    done_ranges (a ++ b) = done_ranges a ++ done_ranges b := by
  simp [done_ranges, List.filterMap_append]

@[simp] theorem done_ranges_seek (s : State) : done_ranges (seek_events s) = [] := by
  unfold seek_events; split <;> rfl

@[simp] theorem done_ranges_nil : done_ranges [] = [] := rfl
@[simp] theorem done_ranges_cons_lseek (x : Int) (b : Bool) (l : List Event) :
    done_ranges (Event.lseek x b :: l) = done_ranges l := rfl
@[simp] theorem done_ranges_cons_chunk (w : World) (o : discard_opts) (c : Nat) (s : State)
    (l : List Event) : done_ranges (chunk_event w o c s :: l) = done_ranges l := rfl
@[simp] theorem done_ranges_cons_found (st ln : Nat) (l : List Event) :
    done_ranges (Event.found st ln :: l) = done_ranges l := rfl
@[simp] theorem done_ranges_cons_ok (st ln : Nat) (l : List Event) :
    done_ranges (Event.blkdiscard st ln true :: l) = (st, ln) :: done_ranges l := rfl
@[simp] theorem done_ranges_cons_fail (st ln : Nat) (l : List Event) :
    done_ranges (Event.blkdiscard st ln false :: l) = done_ranges l := rfl

theorem total_length_append (a b : List (Nat × Nat)) :
    total_length (a ++ b) = total_length a + total_length b := by
  simp [total_length]

/-- One pass keeps the accounting: at the end of the body every emitted range is
completed and counted in `freed`; at a `goto out` the range whose discard failed is
emitted but neither completed nor counted. -/
theorem FreedAt_pass {w : World} {o : discard_opts} {c : Nat} {s : State} {step : Step}
    (hf : FreedAt o s) (hp : Pass w o c s step) :
    (∀ t, step = .next t → FreedAt o (advance c t)) ∧
    (∀ t, step = .out t →
      t.freed = total_length (completed_ranges o.dry t.log) ∧
      completed_ranges o.dry t.log = found_ranges s.log ∧
      (completed_ranges o.dry t.log = found_ranges t.log ∧
          (∀ st ln, t.log.getLast? ≠ some (Event.blkdiscard st ln false)) ∨
        ∃ st ln, found_ranges t.log = completed_ranges o.dry t.log ++ [(st, ln)] ∧
          t.log.getLast? = some (Event.blkdiscard st ln false))) := by
  obtain ⟨hf1, hf2⟩ := hf
  unfold completed_ranges at hf2 ⊢
  cases hp with
  | seek_fail t h1 h2 hlog hfreed =>
    refine ⟨fun t h => (by cases h), fun t2 h => ?_⟩
    cases h
    have hfd : found_ranges t.log = found_ranges s.log := by simp [hlog]
    have hdn : done_ranges t.log = done_ranges s.log := by simp [hlog]
    have hlast : ∀ st ln, t.log.getLast? ≠ some (Event.blkdiscard st ln false) := by
      intro st ln; rw [hlog]; simp
    rw [hfd, hdn, hfreed, hf2]
    exact ⟨hf1, rfl, Or.inl ⟨rfl, hlast⟩⟩
  | read_err t hseek hr hlog hfreed =>
    refine ⟨fun t h => (by cases h), fun t2 h => ?_⟩
    cases h
    have hfd : found_ranges t.log = found_ranges s.log := by simp [hlog]
    have hdn : done_ranges t.log = done_ranges s.log := by simp [hlog]
    have hlast : ∀ st ln, t.log.getLast? ≠ some (Event.blkdiscard st ln false) := by
      intro st ln; rw [hlog]; simp [chunk_event]
    rw [hfd, hdn, hfreed, hf2]
    exact ⟨hf1, rfl, Or.inl ⟨rfl, hlast⟩⟩
  | keep t hseek hr hcl hlog hfreed hr0 hc =>
    refine ⟨fun t2 h => ?_, fun t h => by cases h⟩
    cases h
    have hfd : found_ranges t.log = found_ranges s.log := by simp [hlog]
    have hdn : done_ranges t.log = done_ranges s.log := by simp [hlog]
    refine ⟨?_, ?_⟩
    · show t.freed = total_length (found_ranges t.log)
      rw [hfd, hfreed, hf1]
    · show completed_ranges o.dry t.log = found_ranges t.log
      unfold completed_ranges
      rw [hfd, hdn, hf2]
  | close_ok t st ln hseek hr hcl hok hlog hfreed hr0 hc =>
    refine ⟨fun t2 h => ?_, fun t h => by cases h⟩
    cases h
    have hfd : found_ranges t.log = found_ranges s.log ++ [(st, ln)] := by
      cases hd : o.dry <;> simp [hlog, hd]
    have hdn : done_ranges t.log = done_ranges s.log ++ (if o.dry then [] else [(st, ln)]) := by
      cases hd : o.dry <;> simp [hlog, hd]
    refine ⟨?_, ?_⟩
    · show t.freed = total_length (found_ranges t.log)
      rw [hfd, hfreed, hf1, total_length_append]
      simp [total_length]
    · show completed_ranges o.dry t.log = found_ranges t.log
      unfold completed_ranges
      rw [hfd, hdn]
      cases hd : o.dry
      · rw [hd] at hf2
        simp only [Bool.false_eq_true, if_false] at hf2 ⊢
        rw [hf2]
      · simp
  | close_fail t st ln hseek hr hcl hdry hok hlog hfreed =>
    refine ⟨fun t h => (by cases h), fun t2 h => ?_⟩
    cases h
    have hfd : found_ranges t.log = found_ranges s.log ++ [(st, ln)] := by simp [hlog]
    have hdn : done_ranges t.log = done_ranges s.log := by simp [hlog]
    rw [hdry] at hf2 ⊢
    simp only [Bool.false_eq_true, if_false] at hf2 ⊢
    rw [hfd, hdn, hfreed, hf2]
    refine ⟨hf1, rfl, Or.inr ⟨st, ln, rfl, ?_⟩⟩
    rw [hlog]
    simp

theorem FreedAt_init (w : World) (o : discard_opts) : FreedAt o (init_state w) := by
  refine ⟨?_, ?_⟩
  · simp [init_state, total_length]
  · unfold completed_ranges
    simp [init_state]

/-- The value of `freed` that `discard0` reports is the total length of the ranges whose
reclaim completed; these are all the emitted ranges, or all but the last one when the last
event is a failed `BLKDISCARD`. -/
theorem discard0_freed (w : World) (o : discard_opts) (c : Nat)
    (hc : chunk_size o.granularity w.pagesize = .ok c) (hs : Sized o c)
    (fuel : Nat) (ret : Int) (freed : Nat) (log : List Event)
    (h : discard0 fuel w o = some (.returned ret freed log)) :
    freed = total_length (completed_ranges o.dry log) ∧
    (ret = 0 → completed_ranges o.dry log = found_ranges log) ∧
    (completed_ranges o.dry log = found_ranges log ∧
        (ret = -1 → ∀ st ln, log.getLast? ≠ some (Event.blkdiscard st ln false)) ∨
      ∃ st ln, found_ranges log = completed_ranges o.dry log ++ [(st, ln)] ∧
        log.getLast? = some (Event.blkdiscard st ln false)) := by
  have := discard0_rule w o c hc hs (FreedAt o)
    (fun out => ∀ ret freed log, out = .returned ret freed log →
      freed = total_length (completed_ranges o.dry log) ∧
      (ret = 0 → completed_ranges o.dry log = found_ranges log) ∧
      (completed_ranges o.dry log = found_ranges log ∧
          (ret = -1 → ∀ st ln, log.getLast? ≠ some (Event.blkdiscard st ln false)) ∨
        ∃ st ln, found_ranges log = completed_ranges o.dry log ++ [(st, ln)] ∧
          log.getLast? = some (Event.blkdiscard st ln false)))
    (FreedAt_init w o) ?_ ?_ ?_ ?_ fuel _ h ret freed log rfl
  · exact this
  · intro s t _ hf _ hp
    exact (FreedAt_pass hf hp).1 t rfl
  · intro s t _ hf _ hp ret freed log he
    cases he
    obtain ⟨h1, _, h2⟩ := (FreedAt_pass hf hp).2 t rfl
    refine ⟨h1, fun h => absurd h (by decide), ?_⟩
    rcases h2 with ⟨h3, h4⟩ | h3
    · exact Or.inl ⟨h3, fun _ => h4⟩
    · exact Or.inr h3
  · intro s _ hf _ ret freed log he
    cases he
    exact ⟨by rw [hf.all]; exact hf.sum, fun _ => hf.all,
      Or.inl ⟨hf.all, fun h => absurd h (by decide)⟩⟩
  · intro _ ret freed log he
    cases he
    refine ⟨?_, fun h => absurd h (by decide), Or.inl ⟨?_, fun _ st ln => by simp⟩⟩
    · unfold completed_ranges; cases o.dry <;> rfl
    · unfold completed_ranges; cases o.dry <;> rfl

/-! ## Failures end the scan -/

theorem failed_seek_events (s : State) : ∀ e, e ∈ seek_events s → e.failed = false := by
  intro e he
  unfold seek_events at he
  split at he
  · simp only [List.mem_singleton] at he
    subst he; rfl
  · exact absurd he (by simp)

theorem failed_chunk_event (w : World) (o : discard_opts) (c : Nat) (s : State) :
    (chunk_event w o c s).failed = decide ((verdict w o c s).1 = READ_ERR) := rfl

/-- The trace of a call of `discard0`: no failed call when it returns 0, and when it
returns -1 after `malloc` succeeded the last event is a failed call and the only one. -/
theorem discard0_failures (w : World) (o : discard_opts) (c : Nat)
    (hc : chunk_size o.granularity w.pagesize = .ok c) (hs : Sized o c)
    (fuel : Nat) (ret : Int) (freed : Nat) (log : List Event)
    (h : discard0 fuel w o = some (.returned ret freed log)) :
    (ret = 0 ∧ ∀ e, e ∈ log → e.failed = false) ∨
    (ret = -1 ∧ w.malloc_ok = false ∧ log = [] ∧ freed = 0) ∨
    (ret = -1 ∧ ∃ l e, log = l ++ [e] ∧ e.failed = true ∧ ∀ e2, e2 ∈ l → e2.failed = false) := by
  have := discard0_rule w o c hc hs (fun s => ∀ e, e ∈ s.log → e.failed = false)
    (fun out => ∀ ret freed log, out = .returned ret freed log →
      (ret = 0 ∧ ∀ e, e ∈ log → e.failed = false) ∨
      (ret = -1 ∧ w.malloc_ok = false ∧ log = [] ∧ freed = 0) ∨
      (ret = -1 ∧ ∃ l e, log = l ++ [e] ∧ e.failed = true ∧
        ∀ e2, e2 ∈ l → e2.failed = false))
    ?_ ?_ ?_ ?_ ?_ fuel _ h ret freed log rfl
  · exact this
  · intro e he; exact absurd he (by simp [init_state])
  · intro s t _ hn _ hp
    show ∀ e, e ∈ t.log → e.failed = false
    cases hp with
    | keep _ hseek hr hcl hlog hfreed hr0 hc =>
      intro e he
      rw [hlog] at he
      simp only [List.mem_append, List.mem_singleton] at he
      rcases he with (he | he) | he
      · exact hn e he
      · exact failed_seek_events s e he
      · subst he
        rw [failed_chunk_event]
        simpa using hr
    | close_ok _ st ln hseek hr hcl hok hlog hfreed hr0 hc =>
      intro e he
      rw [hlog] at he
      simp only [List.mem_append, List.mem_cons, List.mem_singleton, List.not_mem_nil,
        or_false] at he
      rcases he with ((he | he) | he | he) | he
      · exact hn e he
      · exact failed_seek_events s e he
      · subst he
        rw [failed_chunk_event]
        simpa using hr
      · subst he; rfl
      · split at he
        · exact absurd he (by simp)
        · simp only [List.mem_singleton] at he
          subst he; rfl
  · intro s t _ hn _ hp ret freed log he
    cases he
    right; right
    refine ⟨rfl, ?_⟩
    cases hp with
    | seek_fail _ h1 h2 hlog hfreed =>
      exact ⟨s.log, _, hlog, rfl, hn⟩
    | read_err _ hseek hr hlog hfreed =>
      refine ⟨s.log ++ seek_events s, _, hlog, ?_, ?_⟩
      · rw [failed_chunk_event]; simpa using hr
      · intro e he
        rcases List.mem_append.1 he with he | he
        · exact hn e he
        · exact failed_seek_events s e he
    | close_fail _ st ln hseek hr hcl hdry hok hlog hfreed =>
      refine ⟨s.log ++ seek_events s ++ [chunk_event w o c s, Event.found st ln],
        Event.blkdiscard st ln false, ?_, rfl, ?_⟩
      · rw [hlog]; simp
      · intro e he
        simp only [List.mem_append, List.mem_cons, List.mem_singleton, List.not_mem_nil,
          or_false] at he
        rcases he with (he | he) | he | he
        · exact hn e he
        · exact failed_seek_events s e he
        · subst he
          rw [failed_chunk_event]
          simpa using hr
        · subst he; rfl
  · intro s _ hn _ ret freed log he
    cases he
    exact Or.inl ⟨rfl, hn⟩
  · intro hm ret freed log he
    cases he
    exact Or.inr (Or.inl ⟨rfl, hm, rfl, rfl⟩)

/-! ## Dry run and real run -/

@[simp] theorem strip_append (a b : List Event) : strip (a ++ b) = strip a ++ strip b := by
  simp [strip, List.filter_append]

@[simp] theorem strip_nil : strip [] = [] := rfl
@[simp] theorem strip_cons_lseek (x : Int) (b : Bool) (l : List Event) :
    strip (Event.lseek x b :: l) = Event.lseek x b :: strip l := rfl
@[simp] theorem strip_cons_chunk (a : Int) (p : Nat) (len n r : Int) (l : List Event) :
    strip (Event.chunk a p len n r :: l) = Event.chunk a p len n r :: strip l := rfl
@[simp] theorem strip_cons_found (st ln : Nat) (l : List Event) :
    strip (Event.found st ln :: l) = Event.found st ln :: strip l := rfl
@[simp] theorem strip_cons_blkdiscard (st ln : Nat) (b : Bool) (l : List Event) :
    strip (Event.blkdiscard st ln b :: l) = strip l := rfl

theorem Rel.cur_eq {sd sr : State} (h : Rel sd sr) : cur sd = cur sr := by
  unfold cur; rw [h.ofs]

theorem Rel.verdict_eq {sd sr : State} (h : Rel sd sr) (w : World) {od o : discard_opts}
    (hD : od.dev_size = o.dev_size) (c : Nat) : verdict w od c sd = verdict w o c sr := by
  unfold verdict chunk_len is_chunk_zero sys_read
  rw [h.cur_eq, h.fbuf, hD]

theorem Rel.closing_eq {sd sr : State} (h : Rel sd sr) {od o : discard_opts}
    (hD : od.dev_size = o.dev_size) (c : Nat) (r : Int) :
    closing od c sd r = closing o c sr r := by
  unfold closing open_start
  rw [h.cur_eq, h.range0, hD]

theorem Rel.seek_events_eq {sd sr : State} (h : Rel sd sr) :
    seek_events sd = seek_events sr := by
  unfold seek_events
  rw [h.need_seek, h.ofs]

theorem Rel.chunk_event_eq {sd sr : State} (h : Rel sd sr) (w : World) {od o : discard_opts}
    (hD : od.dev_size = o.dev_size) (c : Nat) :
    chunk_event w od c sd = chunk_event w o c sr := by
  unfold chunk_event
  rw [h.verdict_eq w hD c, h.ofs, h.cur_eq]
  unfold chunk_len
  rw [h.cur_eq, hD]

theorem strip_seek_events (s : State) : strip (seek_events s) = seek_events s := by
  unfold seek_events; split <;> rfl

theorem strip_chunk_event (w : World) (o : discard_opts) (c : Nat) (s : State) (l : List Event) :
    strip (chunk_event w o c s :: l) = chunk_event w o c s :: strip l := rfl

/-- One pass of a dry run and of a real run from related states: both fall through to
related states, or both leave the loop at the same failed call, or the real run leaves
the loop because its `BLKDISCARD` failed. -/
theorem sim_pass {w : World} {od o : discard_opts} {c : Nat} {sd sr : State}
    {stepd stepr : Step} (hD : od.dev_size = o.dev_size) (hdry : od.dry = true)
    (hreal : o.dry = false) (hrel : Rel sd sr)
    (hpd : Pass w od c sd stepd) (hpr : Pass w o c sr stepr) :
    (∃ td tr, stepd = .next td ∧ stepr = .next tr ∧ Rel td tr) ∨
    (∃ td tr, stepd = .out td ∧ stepr = .out tr ∧ td.freed = tr.freed ∧
      td.log = strip tr.log) ∨
    (∃ tr st ln, stepr = .out tr ∧ w.discard_ok st ln = false) := by
  have ev := hrel.verdict_eq w hD c
  have ecl := hrel.closing_eq hD c
  have ese := hrel.seek_events_eq
  have ece := hrel.chunk_event_eq w hD c
  have ens := hrel.need_seek
  have eofs := hrel.ofs
  have elog := hrel.log
  have efr := hrel.freed
  cases hpd <;> cases hpr
  all_goals first | (exfalso; simp_all; done) | skip
  case seek_fail.seek_fail td d1 d2 dlog dfreed tr r1 r2 rlog rfreed =>
    right; left
    refine ⟨td, tr, rfl, rfl, by rw [dfreed, rfreed, efr], ?_⟩
    rw [dlog, rlog, elog, eofs]
    simp
  case read_err.read_err td dseek dr dlog dfreed tr rseek rr rlog rfreed =>
    right; left
    refine ⟨td, tr, rfl, rfl, by rw [dfreed, rfreed, efr], ?_⟩
    rw [dlog, rlog, elog, ese, ece]
    simp [strip_seek_events, strip_chunk_event]
  case keep.keep td dseek dr dcl dlog dfreed dr0 dc tr rseek rr rcl rlog rfreed rr0 rc =>
    left
    refine ⟨td, tr, rfl, rfl, ?_⟩
    refine ⟨by rw [dc.ofs, rc.ofs, eofs], ?_, by rw [dc.r1, rc.r1], by rw [dfreed, rfreed, efr],
      by rw [dc.need_seek, rc.need_seek, ev], ?_, by rw [dc.fbuf, rc.fbuf, ev],
      by rw [dc.pos, rc.pos, ev], ?_⟩
    · rw [dr0, rr0, ev]
      unfold open_start
      rw [hrel.cur_eq, hrel.range0]
    · rw [dc.last, rc.last, hrel.cur_eq, hD]
    · rw [dlog, rlog, elog, ese, ece]
      simp [strip_seek_events, strip_chunk_event]
  case close_ok.close_ok td st ln dseek dr dcl dok dlog dfreed dr0 dc tr st2 ln2 rseek rr rcl
      rok rlog rfreed rr0 rc =>
    left
    have hsame : (st, ln) = (st2, ln2) := by
      rw [ev, ecl, rcl] at dcl
      exact (Option.some.inj dcl).symm
    obtain ⟨rfl, rfl⟩ := Prod.mk.inj hsame
    refine ⟨td, tr, rfl, rfl, ?_⟩
    refine ⟨by rw [dc.ofs, rc.ofs, eofs], by rw [dr0, rr0], by rw [dc.r1, rc.r1],
      by rw [dfreed, rfreed, efr],
      by rw [dc.need_seek, rc.need_seek, ev], ?_, by rw [dc.fbuf, rc.fbuf, ev],
      by rw [dc.pos, rc.pos, ev], ?_⟩
    · rw [dc.last, rc.last, hrel.cur_eq, hD]
    · rw [dlog, rlog, elog, ese, ece, hdry, hreal]
      simp [strip_seek_events, strip_chunk_event]
  case close_ok.close_fail td st ln dseek dr dcl dok dlog dfreed dr0 dc tr st2 ln2 rseek rr rcl
      rdry rok rlog rfreed =>
    right; right
    exact ⟨tr, st2, ln2, rfl, rok⟩

theorem Rel.inv {sd sr : State} (h : Rel sd sr) {od o : discard_opts}
    (hD : od.dev_size = o.dev_size) {c : Nat} (hi : Inv o c sr) : Inv od c sd := by
  have hc := h.cur_eq
  refine ⟨?_, ?_, ?_, ?_, ?_, ?_, ?_, ?_⟩
  · rw [hc]; exact hi.dvd
  · rw [hc, hD]; exact hi.lt
  · rw [hc, hD, h.ofs]; exact hi.nonneg
  · rw [hc, hD, h.last]; exact hi.last
  · rw [h.range1]; exact hi.r1
  · rw [hc, hD, h.range0]; exact hi.r0
  · rw [hc, hD, h.need_seek, h.pos]; exact hi.pos
  · rw [hc, hD, h.range0, h.freed]; exact hi.freed

/-- The loop of a dry run and of a real run from related states, with the same fuel:
when the real run returns 0 so does the dry run, with the same `freed` and the same trace
up to the `BLKDISCARD` calls; and conversely when no `BLKDISCARD` can fail. -/
theorem sim_loop {w : World} {od o : discard_opts} {c : Nat} (hs : Sized o c)
    (hD : od.dev_size = o.dev_size) (hdry : od.dry = true) (hreal : o.dry = false) :
    ∀ fuel sd sr, Inv o c sr → Rel sd sr →
      (∀ freed log, discard0_loop w o c fuel sr = some (.returned 0 freed log) →
        discard0_loop w od c fuel sd = some (.returned 0 freed (strip log))) ∧
      ((∀ st ln, w.discard_ok st ln = true) →
        ∀ freed logd, discard0_loop w od c fuel sd = some (.returned 0 freed logd) →
          ∃ logr, discard0_loop w o c fuel sr = some (.returned 0 freed logr) ∧
            logd = strip logr) := by
  have hsd : Sized od c := ⟨hs.c_pos, hs.c_lt, by rw [hD]; exact hs.size_lt⟩
  intro fuel
  induction fuel with
  | zero =>
    intro sd sr _ _
    exact ⟨fun _ _ h => absurd h (by simp [discard0_loop]),
      fun _ _ _ h => absurd h (by simp [discard0_loop])⟩
  | succ n ih =>
    intro sd sr hi hrel
    have hid := hrel.inv hD hi
    have hcur := hrel.cur_eq
    unfold discard0_loop
    by_cases hlt : cur sr < o.dev_size
    · have hltr : to_u64 sr.ofs < o.dev_size := hlt
      have hltd : to_u64 sd.ofs < od.dev_size := by
        show cur sd < od.dev_size
        rw [hcur, hD]; exact hlt
      rw [if_pos hltr, if_pos hltd]
      have hpr := body_pass w hs hi hlt
      have hpd := body_pass w hsd hid hltd
      rcases sim_pass hD hdry hreal hrel hpd hpr with
        ⟨td, tr, hd, hr, hrel2⟩ | ⟨td, tr, hd, hr, _, _⟩ | ⟨tr, st, ln, hr, hfail⟩
      · rw [hd, hr]
        simp only
        rw [hr] at hpr
        have hi2 := Inv_next w hs hi hlt hpr
        have hrel3 : Rel (advance c td) (advance c tr) :=
          ⟨by simp only [advance]; rw [hrel2.ofs], hrel2.range0, hrel2.range1, hrel2.freed,
            hrel2.need_seek, hrel2.last, hrel2.fbuf, hrel2.pos, hrel2.log⟩
        exact ih _ _ hi2 hrel3
      · rw [hd, hr]
        simp only
        refine ⟨fun _ _ h => ?_, fun _ _ _ h => ?_⟩
        · simp only [Option.some.injEq, Outcome.returned.injEq] at h
          exact absurd h.1 (by decide)
        · simp only [Option.some.injEq, Outcome.returned.injEq] at h
          exact absurd h.1 (by decide)
      · rw [hr]
        simp only
        refine ⟨fun _ _ h => ?_, fun hok => ?_⟩
        · simp only [Option.some.injEq, Outcome.returned.injEq] at h
          exact absurd h.1 (by decide)
        · rw [hok st ln] at hfail
          exact absurd hfail (by decide)
    · have hltr : ¬ to_u64 sr.ofs < o.dev_size := hlt
      have hltd : ¬ to_u64 sd.ofs < od.dev_size := by
        show ¬ cur sd < od.dev_size
        rw [hcur, hD]; exact hlt
      rw [if_neg hltr, if_neg hltd]
      refine ⟨fun freed log h => ?_, fun _ freed logd h => ?_⟩
      · simp only [Option.some.injEq, Outcome.returned.injEq, true_and] at h ⊢
        obtain ⟨h1, h2⟩ := h
        exact ⟨by rw [hrel.freed, h1], by rw [hrel.log, h2]⟩
      · simp only [Option.some.injEq, Outcome.returned.injEq, true_and] at h ⊢
        obtain ⟨h1, h2⟩ := h
        exact ⟨sr.log, ⟨by rw [← hrel.freed, h1], rfl⟩, by rw [← h2, hrel.log]⟩

theorem found_ranges_strip (log : List Event) : found_ranges (strip log) = found_ranges log := by
  induction log with
  | nil => rfl
  | cons e l ih =>
    cases e <;> simp [ih]

theorem issued_ranges_strip (log : List Event) : issued_ranges (strip log) = [] := by
  induction log with
  | nil => rfl
  | cons e l ih =>
    cases e <;> simp [ih]

theorem issued_eq_done (log : List Event) (h : ∀ e, e ∈ log → e.failed = false) :
    issued_ranges log = done_ranges log := by
  induction log with
  | nil => rfl
  | cons e l ih =>
    have ih2 := ih (fun e2 he2 => h e2 (List.mem_cons_of_mem _ he2))
    have he := h e (List.mem_cons_self _ _)
    cases e with
    | lseek x b => simp [ih2]
    | chunk a p len n r =>
      show issued_ranges l = done_ranges l
      exact ih2
    | found st ln => simp [ih2]
    | blkdiscard st ln b =>
      cases b
      · exact absurd he (by simp [Event.failed])
      · simp [ih2]

/-! ## A failing scan against the error-free scan of the same device -/

theorem pass_log_grows {w : World} {o : discard_opts} {c : Nat} {s : State} {step : Step}
    (hp : Pass w o c s step) : s.log <+: step.state.log := by
  cases hp with
  | seek_fail t _ _ hlog _ => exact ⟨_, hlog.symm⟩
  | read_err t _ _ hlog _ =>
    refine ⟨seek_events s ++ [chunk_event w o c s], ?_⟩
    simp [Step.state, hlog]
  | keep t _ _ _ hlog _ _ _ =>
    refine ⟨seek_events s ++ [chunk_event w o c s], ?_⟩
    simp [Step.state, hlog]
  | close_ok t st ln _ _ _ _ hlog _ _ _ =>
    refine ⟨seek_events s ++ [chunk_event w o c s, Event.found st ln] ++
      (if o.dry then [] else [Event.blkdiscard st ln true]), ?_⟩
    simp [Step.state, hlog]
  | close_fail t st ln _ _ _ _ _ hlog _ =>
    refine ⟨seek_events s ++ [chunk_event w o c s, Event.found st ln,
      Event.blkdiscard st ln false], ?_⟩
    simp [Step.state, hlog]

theorem loop_log_grows (w : World) {o : discard_opts} {c : Nat} (hs : Sized o c)
    (fuel : Nat) (s : State) (hi : Inv o c s) (ret : Int) (freed : Nat) (log : List Event)
    (h : discard0_loop w o c fuel s = some (.returned ret freed log)) : s.log <+: log := by
  have := loop_rule w hs (fun s2 => s.log <+: s2.log)
    (fun out => ∀ ret freed log, out = .returned ret freed log → s.log <+: log)
    ?_ ?_ ?_ fuel s _ hi (List.prefix_refl _) h ret freed log rfl
  · exact this
  · intro s2 t _ hpre _ hp
    exact List.IsPrefix.trans hpre (pass_log_grows hp)
  · intro s2 t _ hpre _ hp ret freed log he
    cases he
    exact List.IsPrefix.trans hpre (pass_log_grows hp)
  · intro s2 _ hpre _ ret freed log he
    cases he
    exact hpre

theorem verdict_error_free (w : World) (fill : Nat → Nat) (o : discard_opts) (c : Nat)
    (s : State) (h : w.read_max (cur s) ≠ none) :
    verdict (error_free w fill) o c s = verdict w o c s := by
  unfold verdict is_chunk_zero sys_read
  cases hr : w.read_max (cur s) with
  | none => exact absurd hr h
  | some k => simp [error_free, hr]

theorem read_max_of_verdict (w : World) {o : discard_opts} {c : Nat} {s : State}
    (hs : Sized o c) (hlt : cur s < o.dev_size) (h : (verdict w o c s).1 ≠ READ_ERR) :
    w.read_max (cur s) ≠ none := by
  intro hn
  obtain ⟨h0, h1, h2, _⟩ := chunk_len_bounds hs hlt
  exact h ((is_chunk_zero_spec w o (cur s) s.fbuf (chunk_len o c s) h0 h1 h2).1 hn).1

theorem verdict_error_free_ne (w : World) (fill : Nat → Nat) {o : discard_opts} {c : Nat}
    {s : State} (hs : Sized o c) (hlt : cur s < o.dev_size) :
    (verdict (error_free w fill) o c s).1 ≠ READ_ERR := by
  obtain ⟨h0, h1, h2, _⟩ := chunk_len_bounds hs hlt
  have hsp := (is_chunk_zero_spec (error_free w fill) o (cur s) s.fbuf (chunk_len o c s)
    h0 h1 h2).2
  have hex : ∃ k, (error_free w fill).read_max (cur s) = some k := by
    cases hr : w.read_max (cur s) with
    | none => exact ⟨fill (cur s), by simp [error_free, hr]⟩
    | some k => exact ⟨k, by simp [error_free, hr]⟩
  obtain ⟨k, hk⟩ := hex
  obtain ⟨_, _, h3, h4⟩ := hsp k hk
  unfold verdict
  by_cases hkl : k < chunk_len o c s
  · rw [h3 hkl]; decide
  · rcases (h4 (by omega)).1 with h | h <;> rw [h] <;> decide

theorem state_ext {a b : State} (h1 : a.ofs = b.ofs) (h2 : a.range0 = b.range0)
    (h3 : a.range1 = b.range1) (h4 : a.freed = b.freed) (h5 : a.need_seek = b.need_seek)
    (h6 : a.last = b.last) (h7 : a.fbuf = b.fbuf) (h8 : a.pos = b.pos) (h9 : a.log = b.log) :
    a = b := by
  cases a; cases b
  simp only [State.mk.injEq]
  exact ⟨h1, h2, h3, h4, h5, h6, h7, h8, h9⟩

/-- A pass that falls through on a device is the same pass on the error-free device. -/
theorem pass_error_free {w : World} (fill : Nat → Nat) {o : discard_opts} {c : Nat}
    {s t : State} {step2 : Step} (hs : Sized o c) (hlt : cur s < o.dev_size)
    (hp : Pass w o c s (.next t)) (hp2 : Pass (error_free w fill) o c s step2) :
    step2 = .next t := by
  have hne : (verdict w o c s).1 ≠ READ_ERR := by
    cases hp with
    | keep _ _ hr _ _ _ _ _ => exact hr
    | close_ok _ _ _ _ hr _ _ _ _ _ _ => exact hr
  have ev := verdict_error_free w fill o c s (read_max_of_verdict w hs hlt hne)
  have ece : chunk_event (error_free w fill) o c s = chunk_event w o c s := by
    unfold chunk_event; rw [ev]
  have hlk : ∀ x, (error_free w fill).lseek_ok x = true := fun _ => rfl
  have hdk : ∀ a b, (error_free w fill).discard_ok a b = true := fun _ _ => rfl
  cases hp <;> cases hp2
  all_goals first | (exfalso; simp_all; done) | skip
  case keep.keep dseek dr dcl dlog dfreed dr0 dc t2 rseek rr rcl rlog rfreed rr0 rc =>
    congr 1
    refine state_ext ?_ ?_ ?_ ?_ ?_ ?_ ?_ ?_ ?_
    · rw [rc.ofs, dc.ofs]
    · rw [rr0, dr0, ev]
    · rw [rc.r1, dc.r1]
    · rw [rfreed, dfreed]
    · rw [rc.need_seek, dc.need_seek, ev]
    · rw [rc.last, dc.last]
    · rw [rc.fbuf, dc.fbuf, ev]
    · rw [rc.pos, dc.pos, ev]
    · rw [rlog, dlog, ece]
  case close_ok.close_ok st ln dseek dr dcl dok dlog dfreed dr0 dc t2 st2 ln2 rseek rr rcl rok
      rlog rfreed rr0 rc =>
    have hsame : (st2, ln2) = (st, ln) := by
      rw [ev, dcl] at rcl
      exact (Option.some.inj rcl).symm
    obtain ⟨rfl, rfl⟩ := Prod.mk.inj hsame
    congr 1
    refine state_ext ?_ ?_ ?_ ?_ ?_ ?_ ?_ ?_ ?_
    · rw [rc.ofs, dc.ofs]
    · rw [rr0, dr0]
    · rw [rc.r1, dc.r1]
    · rw [rfreed, dfreed]
    · rw [rc.need_seek, dc.need_seek, ev]
    · rw [rc.last, dc.last]
    · rw [rc.fbuf, dc.fbuf, ev]
    · rw [rc.pos, dc.pos, ev]
    · rw [rlog, dlog, ece]

/-- The ranges completed by a scan that starts in state `s` form a prefix of the ranges
emitted by the scan of the error-free device from the same state. -/
theorem prefix_sim (w : World) (fill : Nat → Nat) {o : discard_opts} {c : Nat} (hs : Sized o c) :
    ∀ fuel s, Inv o c s → FreedAt o s →
      ∀ ret freed log, discard0_loop w o c fuel s = some (.returned ret freed log) →
      ∀ fuel2 ret2 freed2 log2,
        discard0_loop (error_free w fill) o c fuel2 s = some (.returned ret2 freed2 log2) →
        completed_ranges o.dry log <+: found_ranges log2 := by
  intro fuel
  induction fuel with
  | zero => intro s _ _ ret freed log h; exact absurd h (by simp [discard0_loop])
  | succ n ih =>
    intro s hi hf ret freed log h fuel2 ret2 freed2 log2 h2
    have hpre := loop_log_grows (error_free w fill) hs fuel2 s hi ret2 freed2 log2 h2
    have hfpre : found_ranges s.log <+: found_ranges log2 := by
      unfold found_ranges
      exact List.IsPrefix.filterMap _ hpre
    unfold discard0_loop at h
    by_cases hlt : cur s < o.dev_size
    · have hlt2 : to_u64 s.ofs < o.dev_size := hlt
      rw [if_pos hlt2] at h
      have hp := body_pass w hs hi hlt
      cases hb : body w o c s with
      | out t =>
        rw [hb] at h hp
        simp only [Option.some.injEq, Outcome.returned.injEq] at h
        obtain ⟨_, _, hl⟩ := h
        rw [← hl, ((FreedAt_pass hf hp).2 t rfl).2.1]
        exact hfpre
      | next t =>
        rw [hb] at h hp
        simp only at h
        cases fuel2 with
        | zero => exact absurd h2 (by simp [discard0_loop])
        | succ m =>
          unfold discard0_loop at h2
          rw [if_pos hlt2] at h2
          have hp2 := body_pass (error_free w fill) hs hi hlt
          have hb2 := pass_error_free fill hs hlt hp hp2
          rw [hb2] at h2
          simp only at h2
          exact ih _ (Inv_next w hs hi hlt hp) ((FreedAt_pass hf hp).1 t rfl) ret freed log h
            m ret2 freed2 log2 h2
    · have hlt2 : ¬ to_u64 s.ofs < o.dev_size := hlt
      rw [if_neg hlt2] at h
      simp only [Option.some.injEq, Outcome.returned.injEq] at h
      obtain ⟨_, _, hl⟩ := h
      rw [← hl, hf.all]
      exact hfpre

/-- The scan of the error-free device returns 0. -/
theorem error_free_returns_zero (w : World) (fill : Nat → Nat) (o : discard_opts) (c : Nat)
    (hc : chunk_size o.granularity w.pagesize = .ok c) (hs : Sized o c)
    (fuel : Nat) (ret : Int) (freed : Nat) (log : List Event)
    (h : discard0 fuel (error_free w fill) o = some (.returned ret freed log)) : ret = 0 := by
  have := discard0_rule (error_free w fill) o c hc hs (fun _ => True)
    (fun out => ∀ ret freed log, out = .returned ret freed log → ret = 0)
    trivial ?_ ?_ ?_ ?_ fuel _ h ret freed log rfl
  · exact this
  · intros; trivial
  · intro s t _ _ hlt hp ret freed log he
    exfalso
    have hne := verdict_error_free_ne w fill hs hlt
    cases hp with
    | seek_fail _ _ h2 _ _ => exact absurd h2 (by simp [error_free])
    | read_err _ _ hr _ _ => exact hne hr
    | close_fail _ _ _ _ _ _ _ hok _ _ => exact absurd hok (by simp [error_free])
  · intro s _ _ _ ret freed log he
    cases he; rfl
  · intro hm
    exact absurd hm (by simp [error_free])

/-! ## The claims -/

theorem classify_codes (n : Int) (buf : Nat → Byte) (len : Int) :
    (n < 0 ∧ classify n buf len = READ_ERR) ∨
    (0 ≤ n ∧ n < len ∧ classify n buf len = NEED_SEEK) ∨
    (0 ≤ n ∧ len ≤ n ∧ (classify n buf len = IS_ZERO ∨ classify n buf len = IS_NOT_ZERO)) := by
  unfold classify
  by_cases h1 : n < 0
  · left; rw [if_pos h1]; exact ⟨h1, rfl⟩
  · rw [if_neg h1]
    by_cases h2 : n < len
    · right; left; rw [if_pos h2]; exact ⟨by omega, h2, rfl⟩
    · rw [if_neg h2]
      right; right
      refine ⟨by omega, by omega, ?_⟩
      split
      · right; rfl
      · exact scan_words_cases _ _ _

/-- C7 (chunk classification): for a requested length `0 < len` (an `int`), the
classification that `is_chunk_zero` computes from the value `n` of `read` and the buffer is
`READ_ERR` iff `n < 0`, `NEED_SEEK` iff `0 ≤ n < len`, and for `n = len` it is `IS_ZERO` iff
`n` is a multiple of the word size 8 and each of the `n` bytes read is zero, and
`IS_NOT_ZERO` otherwise; so a full read whose length is not a multiple of 8 is
`IS_NOT_ZERO` whatever its bytes, and the word-wise loop decides exactly "all bytes zero". -/
theorem C7_chunk_classification (n : Int) (buf : Nat → Byte) (len : Int)
    (hlen : 0 < len) (hint : len < 2 ^ 31) :
    (classify n buf len = READ_ERR ↔ n < 0) ∧
    (classify n buf len = NEED_SEEK ↔ 0 ≤ n ∧ n < len) ∧
    (n = len →
      (classify n buf len = IS_ZERO ↔
        (8 : Int) ∣ n ∧ ∀ i : Nat, (i : Int) < n → buf i = 0) ∧
      (classify n buf len ≠ IS_ZERO → classify n buf len = IS_NOT_ZERO) ∧
      (¬ (8 : Int) ∣ n → classify n buf len = IS_NOT_ZERO)) ∧
    (∀ (w : World) (o : discard_opts) (pos : Nat) (buf0 : Nat → Byte),
      (is_chunk_zero w o pos buf0 len).1 =
        classify (is_chunk_zero w o pos buf0 len).2.1 (is_chunk_zero w o pos buf0 len).2.2.2
          len) := by
  have e0 : IS_ZERO = 0 := rfl
  have e1 : IS_NOT_ZERO = 1 := rfl
  have e2 : READ_ERR = 2 := rfl
  have e3 : NEED_SEEK = -3 := rfl
  have hc := classify_codes n buf len
  refine ⟨?_, ?_, ?_, fun _ _ _ _ => rfl⟩
  · constructor
    · intro h
      rcases hc with ⟨h1, _⟩ | ⟨_, _, h2⟩ | ⟨_, _, h2 | h2⟩
      · exact h1
      · rw [h] at h2; omega
      · rw [h] at h2; omega
      · rw [h] at h2; omega
    · intro h
      rcases hc with ⟨_, h1⟩ | ⟨h0, _, _⟩ | ⟨h0, _, _⟩
      · exact h1
      · omega
      · omega
  · constructor
    · intro h
      rcases hc with ⟨_, h2⟩ | ⟨h0, h1, _⟩ | ⟨_, _, h2 | h2⟩
      · rw [h] at h2; omega
      · exact ⟨h0, h1⟩
      · rw [h] at h2; omega
      · rw [h] at h2; omega
    · rintro ⟨h0, h1⟩
      rcases hc with ⟨h, _⟩ | ⟨_, _, h2⟩ | ⟨_, h, _⟩
      · omega
      · exact h2
      · omega
  · intro hn
    subst hn
    obtain ⟨m, rfl⟩ : ∃ m : Nat, n = m := ⟨n.toNat, by omega⟩
    obtain ⟨hf1, hf2⟩ := classify_full buf m (by omega) (by omega)
    have hiff : (classify (m : Int) buf (m : Int) = IS_ZERO ↔
        (8 : Int) ∣ (m : Int) ∧ ∀ i : Nat, (i : Int) < (m : Int) → buf i = 0) := by
      rw [hf2]
      constructor
      · rintro ⟨h8, h⟩
        exact ⟨Int.natCast_dvd_natCast.mpr h8, fun i hi => h i (by omega)⟩
      · rintro ⟨h8, h⟩
        exact ⟨Int.natCast_dvd_natCast.mp h8, fun i hi => h i (by omega)⟩
    refine ⟨hiff, ?_, ?_⟩
    · intro h
      rcases hf1 with h1 | h1
      · exact absurd h1 h
      · exact h1
    · intro h8
      rcases hf1 with h1 | h1
      · exact absurd (hiff.1 h1).1 h8
      · exact h1

theorem C7_witness :
    (0 : Int) < 16 ∧ (16 : Int) < 2 ^ 31 ∧
    classify 16 (fun _ => 0) 16 = IS_ZERO ∧
    classify 12 (fun _ => 0) 12 = IS_NOT_ZERO ∧
    classify 5 (fun _ => 0) 16 = NEED_SEEK := by
  refine ⟨by decide, by decide, ?_, ?_, ?_⟩
  · exact ((C7_chunk_classification 16 (fun _ => 0) 16 (by decide) (by decide)).2.2.1 rfl).1.2
      ⟨⟨2, rfl⟩, fun _ _ => rfl⟩
  · exact ((C7_chunk_classification 12 (fun _ => 0) 12 (by decide) (by decide)).2.2.1 rfl).2.2
      (by decide)
  · exact (C7_chunk_classification 5 (fun _ => 0) 16 (by decide) (by decide)).2.1.2
      ⟨by decide, by decide⟩

/-- C8, counterexample: with granularity 3 and 4096-byte pages the chunk-size computation
of `discard0` ends in the failure of `assert (chunksz % opts.granularity == 0)` and yields
no chunk size, although `max 3 4096 = 4096` exists. -/
theorem C8_counterexample :
    (0 : Int) < 4096 ∧ chunk_size 3 4096 = .error .assert_fail ∧
    chunk_size 3 4096 ≠ .ok (max 3 4096) := by
  refine ⟨by decide, rfl, ?_⟩
  intro h
  have : chunk_size 3 4096 = .error .assert_fail := rfl
  rw [this] at h
  cases h

/-- C8, amended: for a granularity `g > 0` and a page size `0 < p < 2^32` the chunk-size
computation yields `max g p` exactly when `max g p % g = 0`, and then the chunk size is a
multiple of `g`; otherwise the assertion fails. -/
theorem C8_chunk_size (g p : Nat) (hg : 0 < g) (hp : 0 < p) (hp32 : p < 2 ^ 32) :
    (max g p % g = 0 → chunk_size g (p : Int) = .ok (max g p)) ∧
    (max g p % g ≠ 0 → chunk_size g (p : Int) = .error .assert_fail) ∧
    (∀ c, chunk_size g (p : Int) = .ok c → c = max g p ∧ c % g = 0 ∧ (g ≤ p → p % g = 0)) := by
  have hu : to_u32 (p : Int) = p := by unfold to_u32; omega
  have hsel : (if (g : Int) < (p : Int) then to_u32 (p : Int) else g) = max g p := by
    split
    · rw [hu]; omega
    · omega
  refine ⟨?_, ?_, ?_⟩
  · intro h
    rw [chunk_size_ok_iff]
    exact ⟨by omega, hsel.symm, h⟩
  · intro h
    unfold chunk_size
    simp only [hsel]
    rw [if_neg (by omega), if_pos h]
  · intro c h
    rw [chunk_size_ok_iff, hsel] at h
    obtain ⟨_, h1, h2⟩ := h
    refine ⟨h1, h2, fun hle => ?_⟩
    have : max g p = p := by omega
    rw [h1, this] at h2
    exact h2

theorem C8_witness :
    0 < 512 ∧ 0 < 4096 ∧ 4096 < 2 ^ 32 ∧ chunk_size 512 ((4096 : Nat) : Int) = .ok 4096 ∧
    chunk_size 8192 ((4096 : Nat) : Int) = .ok 8192 := by
  refine ⟨by decide, by decide, by decide, ?_, ?_⟩
  · exact (C8_chunk_size 512 4096 (by decide) (by decide) (by decide)).1 (by decide)
  · exact (C8_chunk_size 8192 4096 (by decide) (by decide) (by decide)).1 (by decide)

theorem sized_of {o : discard_opts} {c : Nat} (hpos : 0 < c) (hint : c < 2 ^ 31)
    (hsz : o.dev_size < 2 ^ 63) : Sized o c := ⟨hpos, hint, hsz⟩

/-- Data safety where `int len = chunksz` keeps its value: with a chunk size that fits
`int` and a device below `2^63` bytes, `discard0` returns, and in every returning call each byte offset of each range for which
the discard block is entered or that is handed to `BLKDISCARD` holds a zero byte on the
device and lies in a chunk of this scan that was read in full at its own offset and
classified `IS_ZERO`; no byte of a chunk classified `IS_NOT_ZERO` or `NEED_SEEK` lies in
such a range. -/
theorem data_safety_int_range (w : World) (o : discard_opts) (c : Nat)
    (hc : chunk_size o.granularity w.pagesize = .ok c) (hpos : 0 < c) (hint : c < 2 ^ 31)
    (hsz : o.dev_size < 2 ^ 63) :
    (∀ fuel, o.dev_size < fuel →
      ∃ ret freed log, discard0 fuel w o = some (.returned ret freed log)) ∧
    ∀ fuel ret freed log, discard0 fuel w o = some (.returned ret freed log) →
      ∀ p, p ∈ found_ranges log ∨ p ∈ issued_ranges log →
        (∀ x, p.1 ≤ x → x < p.1 + p.2 →
          w.content x = 0 ∧
          ∃ k, k ∈ chunks log ∧ k.r = IS_ZERO ∧ (k.pos : Int) = k.ofs ∧ k.n = k.len ∧
            k.ofs ≤ (x : Int) ∧ (x : Int) < k.ofs + k.len) ∧
        (∀ k, k ∈ chunks log → k.r = IS_NOT_ZERO ∨ k.r = NEED_SEEK →
          ∀ x : Nat, k.ofs ≤ (x : Int) → (x : Int) < k.ofs + k.len →
            ¬ (p.1 ≤ x ∧ x < p.1 + p.2)) := by
  have hs := sized_of hpos hint hsz
  refine ⟨fun fuel hf => discard0_returns w o c hc hs fuel hf, ?_⟩
  intro fuel ret freed log h p hp
  obtain ⟨a2, b2, hgeo, _⟩ := discard0_geo w o c hc hs fuel ret freed log h
  have hpf : p ∈ found_ranges log := by
    rcases hp with hp | hp
    · exact hp
    · exact hgeo.issued p hp
  refine ⟨?_, ?_⟩
  · intro x h1 h2
    obtain ⟨h0, k, hk, hz, hpos2, hn, hin⟩ := (hgeo.found_ok p hpf).zero x h1 h2
    simp only [in_chunk, decide_eq_true_eq] at hin
    exact ⟨h0, k, hk, hz, hpos2, hn, hin.1, hin.2⟩
  · intro k hk hr x hx1 hx2 hx
    have ht := hgeo.tiling x
    have h1 : 0 < (found_ranges log).countP (in_range x) :=
      List.countP_pos_iff.2 ⟨p, hpf, by simp [in_range, hx.1, hx.2]⟩
    have h2 : 0 < (chunks log).countP (fun k => (k.nonzero || k.short) && in_chunk x k) :=
      List.countP_pos_iff.2 ⟨k, hk, by
        simp only [Chunk.nonzero, Chunk.short, in_chunk, Bool.and_eq_true, Bool.or_eq_true,
          decide_eq_true_eq]
        exact ⟨hr, hx1, hx2⟩⟩
    unfold cover_count at ht
    split at ht <;> omega

theorem data_safety_int_range_example :
    ∃ ret freed log,
      discard0 25 zero_one_zero ⟨24, 8, false⟩ = some (.returned ret freed log) ∧
      ∀ p, p ∈ issued_ranges log → ∀ x, p.1 ≤ x → x < p.1 + p.2 →
        zero_one_zero.content x = 0 := by
  obtain ⟨h1, h2⟩ := data_safety_int_range zero_one_zero ⟨24, 8, false⟩ 8 rfl (by decide) (by decide)
    (by decide)
  obtain ⟨ret, freed, log, h⟩ := h1 25 (by decide)
  exact ⟨ret, freed, log, h, fun p hp x hx1 hx2 =>
    ((h2 25 ret freed log h p (Or.inr hp)).1 x hx1 hx2).1⟩

set_option maxRecDepth 100000 in
/-- C1 (data safety) fails on the code at granularity `2^31`: on a device of `2^32 + 4096`
bytes with 4096-byte pages, whose first page is zero and whose other bytes are all 1,
the chunk size is `2^31`, `int len = chunksz` is `-2^31`, the first pass takes the branch
of the last chunk with `len = 4096`, reads one page of zeros and hands the whole device
`(0, 2^32 + 4096)` to `BLKDISCARD`. Offset 4096 lies in that range, holds a non-zero byte
and lies in no chunk of the scan that was classified `IS_ZERO`. -/
theorem C1_data_safety_violated :
    chunk_size wrap_opts.granularity wrap_world.pagesize = .ok (2 ^ 31) ∧
    to_int (2 ^ 31) = -2 ^ 31 ∧
    discard0 2 wrap_world wrap_opts = some (.returned (-1) (2 ^ 32 + 4096) wrap_trace) ∧
    (0, 2 ^ 32 + 4096) ∈ issued_ranges wrap_trace ∧
    wrap_world.content 4096 = 1 ∧
    ∀ k, k ∈ chunks wrap_trace → k.r = IS_ZERO →
      ¬ (k.ofs ≤ 4096 ∧ (4096 : Int) < k.ofs + k.len) := by
  refine ⟨rfl, by decide, by decide, by decide, by decide, by decide⟩

/-- C2, counterexample: on an 8-byte all-zero device with 8-byte chunks whose only read is
short (3 bytes), the scan returns 0 without emitting a range and without classifying a
chunk `IS_NOT_ZERO`; byte 0 lies in no emitted range and in no NonZero chunk. -/
theorem C2_counterexample :
    discard0 2 short_world ⟨8, 8, false⟩ =
      some (.returned 0 0 [Event.lseek 0 true, Event.chunk 0 0 8 3 NEED_SEEK]) ∧
    spec_cover_count (found_ranges [Event.lseek 0 true, Event.chunk 0 0 8 3 NEED_SEEK])
      (chunks [Event.lseek 0 true, Event.chunk 0 0 8 3 NEED_SEEK]) 0 = 0 ∧
    (0 : Nat) < (⟨8, 8, false⟩ : discard_opts).dev_size := by
  refine ⟨by decide, by decide, by decide⟩

/-- C2, amended (coverage): after a call of `discard0` that returns 0, every byte offset
below `dev_size` lies in exactly one piece, and every other offset in none, where the
pieces are the emitted ranges and the chunks classified `IS_NOT_ZERO` or `NEED_SEEK`. -/
theorem C2_coverage (w : World) (o : discard_opts) (c : Nat)
    (hc : chunk_size o.granularity w.pagesize = .ok c) (hpos : 0 < c) (hint : c < 2 ^ 31)
    (hsz : o.dev_size < 2 ^ 63) (fuel : Nat) (freed : Nat) (log : List Event)
    (h : discard0 fuel w o = some (.returned 0 freed log)) (x : Nat) :
    (found_ranges log).countP (in_range x) +
      (chunks log).countP (fun k => (k.nonzero || k.short) && in_chunk x k) =
      if x < o.dev_size then 1 else 0 := by
  have hs := sized_of hpos hint hsz
  obtain ⟨a2, b2, hgeo, hb⟩ := discard0_geo w o c hc hs fuel 0 freed log h
  have := hgeo.tiling x
  rw [hb rfl] at this
  exact this

theorem C2_witness :
    (found_ranges [Event.lseek 0 true, Event.chunk 0 0 8 3 NEED_SEEK]).countP (in_range 5) +
      (chunks [Event.lseek 0 true, Event.chunk 0 0 8 3 NEED_SEEK]).countP
        (fun k => (k.nonzero || k.short) && in_chunk 5 k) =
      if 5 < (⟨8, 8, false⟩ : discard_opts).dev_size then 1 else 0 :=
  C2_coverage short_world ⟨8, 8, false⟩ 8 rfl (by decide) (by decide) (by decide) 2 0
    [Event.lseek 0 true, Event.chunk 0 0 8 3 NEED_SEEK] (by decide) 5

/-- C5 (granularity alignment): when the chunk-size assertion holds (which needs a
granularity above 0), every range emitted by `discard0` starts at a multiple of the chunk
size and of the granularity, and every emitted range that does not end at `dev_size` has
a length that is a multiple of both. -/
theorem C5_alignment (w : World) (o : discard_opts) (c : Nat)
    (hc : chunk_size o.granularity w.pagesize = .ok c) (hpos : 0 < c) (hint : c < 2 ^ 31)
    (hsz : o.dev_size < 2 ^ 63)
    (fuel : Nat) (ret : Int) (freed : Nat) (log : List Event)
    (h : discard0 fuel w o = some (.returned ret freed log))
    (p : Nat × Nat) (hp : p ∈ found_ranges log) :
    c % o.granularity = 0 ∧
    p.1 % c = 0 ∧ p.1 % o.granularity = 0 ∧
    (p.1 + p.2 ≠ o.dev_size → p.2 % c = 0 ∧ p.2 % o.granularity = 0) := by
  have hs := sized_of hpos hint hsz
  obtain ⟨a2, b2, hgeo, _⟩ := discard0_geo w o c hc hs fuel ret freed log h
  have hr := hgeo.found_ok p hp
  have hgc : o.granularity ∣ c := by
    rw [chunk_size_ok_iff] at hc
    exact Nat.dvd_of_mod_eq_zero hc.2.2
  refine ⟨Nat.mod_eq_zero_of_dvd hgc, Nat.mod_eq_zero_of_dvd hr.dvd,
    Nat.mod_eq_zero_of_dvd (Dvd.dvd.trans hgc hr.dvd), fun hne => ?_⟩
  rcases hr.len_dvd with h1 | h1
  · exact absurd h1 hne
  · exact ⟨Nat.mod_eq_zero_of_dvd h1, Nat.mod_eq_zero_of_dvd (Dvd.dvd.trans hgc h1)⟩

theorem C5_witness :
    (0 : Nat) % 8 = 0 ∧ (8 : Nat) % 8 = 0 :=
  have h := C5_alignment zero_one_zero ⟨24, 8, false⟩ 8 rfl (by decide) (by decide) (by decide)
    4 0 16 [Event.lseek 0 true, Event.chunk 0 0 8 8 0, Event.chunk 8 8 8 8 1,
     Event.found 0 8, Event.blkdiscard 0 8 true, Event.chunk 16 16 8 8 0, Event.found 16 8,
     Event.blkdiscard 16 8 true] (by decide) (0, 8) (by decide)
  ⟨h.2.1, (h.2.2.2 (by decide)).1⟩

/-- C10 (well-formed, byte-precise ranges): on a device below `2^63` bytes every range
that `discard0` emits or hands to `BLKDISCARD` has a positive length, ends at or before
`dev_size`, and neither field is `OFS_INVAL`; and when the chunk that ends at `dev_size`
is classified `IS_ZERO`, the last emitted range ends exactly at `dev_size`. -/
theorem C10_well_formed (w : World) (o : discard_opts) (c : Nat)
    (hc : chunk_size o.granularity w.pagesize = .ok c) (hpos : 0 < c) (hint : c < 2 ^ 31)
    (hsz : o.dev_size < 2 ^ 63)
    (fuel : Nat) (ret : Int) (freed : Nat) (log : List Event)
    (h : discard0 fuel w o = some (.returned ret freed log)) :
    (∀ p, p ∈ found_ranges log ∨ p ∈ issued_ranges log →
      0 < p.2 ∧ p.1 + p.2 ≤ o.dev_size ∧ p.1 ≠ OFS_INVAL ∧ p.2 ≠ OFS_INVAL) ∧
    (∀ k, k ∈ chunks log → k.r = IS_ZERO → k.ofs + k.len = o.dev_size →
      ∃ st, (found_ranges log).getLast? = some (st, o.dev_size - st) ∧ (st : Int) ≤ k.ofs ∧
        st + (o.dev_size - st) = o.dev_size) := by
  have hs := sized_of hpos hint hsz
  obtain ⟨a2, b2, hgeo, _⟩ := discard0_geo w o c hc hs fuel ret freed log h
  refine ⟨?_, ?_⟩
  · intro p hp
    have hpf : p ∈ found_ranges log := by
      rcases hp with hp | hp
      · exact hp
      · exact hgeo.issued p hp
    have hr := hgeo.found_ok p hpf
    have h1 := hr.len_pos
    have h2 := hr.end_le
    refine ⟨h1, h2, ?_, ?_⟩ <;> unfold OFS_INVAL <;> omega
  · intro k hk hz hf
    obtain ⟨st, h1, h2⟩ := hgeo.final k hk hz hf
    have := (hgeo.chunk_ok k hk).1.len_pos
    exact ⟨st, h1, h2, by omega⟩

theorem C10_witness :
    ∃ st, (found_ranges [Event.lseek 0 true, Event.chunk 0 0 32 32 1,
        Event.chunk 32 32 16 16 0, Event.found 32 16, Event.blkdiscard 32 16 true]).getLast?
        = some (st, 48 - st) ∧ (st : Int) ≤ 32 ∧ st + (48 - st) = 48 :=
  (C10_well_formed tail_world ⟨48, 32, false⟩ 32 rfl (by decide) (by decide) (by decide)
    3 0 16 [Event.lseek 0 true, Event.chunk 0 0 32 32 1,
        Event.chunk 32 32 16 16 0, Event.found 32 16, Event.blkdiscard 32 16 true]
    (by decide)).2 ⟨32, 32, 16, 16, 0⟩ (by decide) rfl (by decide)

theorem reach_inv (w : World) {o : discard_opts} {c : Nat} (hs : Sized o c) {s : State}
    (h : Reach w o c s) : Inv o c s := by
  induction h with
  | init => exact Inv_init w hs
  | step _ hlt hb ih =>
    have hp := body_pass w hs ih hlt
    rw [hb] at hp
    exact Inv_next w hs ih hlt hp

/-- C9, counterexample: on a 16-byte device with 8-byte chunks the read at cursor 0
delivers 3 bytes; the next pass seeks to offset 8 and reads there, not at offset 3. -/
theorem C9_counterexample :
    discard0 3 short_first ⟨16, 8, false⟩ =
      some (.returned 0 8 [Event.lseek 0 true, Event.chunk 0 0 8 3 NEED_SEEK,
        Event.lseek 8 true, Event.chunk 8 8 8 8 IS_ZERO, Event.found 8 8,
        Event.blkdiscard 8 8 true]) ∧
    (8 : Int) ≠ 0 + 3 := by
  refine ⟨by decide, by decide⟩

/-- C9, amended (short-read recovery): in a pass at cursor `cur s` whose read is short
(`0 ≤ n < len`, return code `NEED_SEEK`), `discard0` closes an open pending range at
exactly `[range0, cur s)`, sets `need_seek`, and advances the cursor by the chunk size;
the next pass first seeks to `cur s + c` and then reads at that position. -/
theorem C9_short_read (w : World) (o : discard_opts) (c : Nat)
    (hpos : 0 < c) (hint : c < 2 ^ 31) (hsz : o.dev_size < 2 ^ 63)
    (s : State) (hreach : Reach w o c s) (hlt : cur s < o.dev_size)
    (hseek : s.need_seek = true → w.lseek_ok s.ofs = true)
    (hshort : (verdict w o c s).1 = NEED_SEEK)
    (hdisc : s.range0 ≠ OFS_INVAL →
      o.dry = true ∨ w.discard_ok s.range0 (cur s - s.range0) = true) :
    0 ≤ (verdict w o c s).2.1 ∧ (verdict w o c s).2.1 < chunk_len o c s ∧
    ∃ t, body w o c s = .next t ∧
      t.log = s.log ++ (if s.need_seek then [Event.lseek s.ofs true] else []) ++
        [Event.chunk s.ofs (cur s) (chunk_len o c s) (verdict w o c s).2.1 NEED_SEEK] ++
        (if s.range0 = OFS_INVAL then []
          else Event.found s.range0 (cur s - s.range0) ::
            (if o.dry then [] else [Event.blkdiscard s.range0 (cur s - s.range0) true])) ∧
      t.need_seek = true ∧ t.range0 = OFS_INVAL ∧
      cur (advance c t) = cur s + c ∧
      (cur s + c < o.dev_size →
        ∃ u, (body w o c (advance c t) = .next u ∨ body w o c (advance c t) = .out u) ∧
          (u.log = t.log ++ [Event.lseek ((cur s + c : Nat) : Int) false] ∨
           ∃ n2 r2 rest, u.log = t.log ++
             [Event.lseek ((cur s + c : Nat) : Int) true,
              Event.chunk ((cur s + c : Nat) : Int) (cur s + c)
                ((min c (o.dev_size - (cur s + c)) : Nat) : Int) n2 r2] ++ rest)) := by
  have hs := sized_of hpos hint hsz
  have hi := reach_inv w hs hreach
  have hv := verdict_spec w hs hlt
  have hsh := hv.2.2.2.1 hshort
  refine ⟨hsh.1, hsh.2.1, ?_⟩
  have hp := body_pass w hs hi hlt
  have hnz : (verdict w o c s).1 ≠ IS_ZERO := by rw [hshort]; decide
  -- the next pass, once the state after this one is known
  have hnext : ∀ t, Pass w o c s (.next t) → t.need_seek = true →
      cur (advance c t) = cur s + c ∧
      (cur s + c < o.dev_size →
        ∃ u, (body w o c (advance c t) = .next u ∨ body w o c (advance c t) = .out u) ∧
          (u.log = t.log ++ [Event.lseek ((cur s + c : Nat) : Int) false] ∨
           ∃ n2 r2 rest, u.log = t.log ++
             [Event.lseek ((cur s + c : Nat) : Int) true,
              Event.chunk ((cur s + c : Nat) : Int) (cur s + c)
                ((min c (o.dev_size - (cur s + c)) : Nat) : Int) n2 r2] ++ rest)) := by
    intro t hpt hns
    have hofs : t.ofs = s.ofs := by
      cases hpt with
      | keep _ _ _ _ _ _ _ hc => exact hc.ofs
      | close_ok _ _ _ _ _ _ _ _ _ _ hc => exact hc.ofs
    have hcur := cur_advance hs hi hlt hofs
    refine ⟨hcur, fun hlt2 => ?_⟩
    have hi2 := Inv_next w hs hi hlt hpt
    have hlt3 : cur (advance c t) < o.dev_size := by rw [hcur]; exact hlt2
    have hp2 := body_pass w hs hi2 hlt3
    have hofs2 : (advance c t).ofs = ((cur s + c : Nat) : Int) := by
      rw [hi2.nonneg hlt3, hcur]
    have hns2 : (advance c t).need_seek = true := hns
    have hlog2 : (advance c t).log = t.log := rfl
    have hse : seek_events (advance c t) = [Event.lseek ((cur s + c : Nat) : Int) true] := by
      unfold seek_events
      rw [hns2, hofs2]
      rfl
    have hce : chunk_event w o c (advance c t) =
        Event.chunk ((cur s + c : Nat) : Int) (cur s + c)
          ((min c (o.dev_size - (cur s + c)) : Nat) : Int)
          (verdict w o c (advance c t)).2.1 (verdict w o c (advance c t)).1 := by
      unfold chunk_event chunk_len
      rw [hofs2, hcur]
    generalize body w o c (advance c t) = step at hp2
    cases hp2 with
    | seek_fail u h1 h2 hlog hfreed =>
      exact ⟨u, Or.inr rfl, Or.inl (by rw [hlog, hlog2, hofs2])⟩
    | read_err u _ _ hlog _ =>
      refine ⟨u, Or.inr rfl, Or.inr ⟨(verdict w o c (advance c t)).2.1, (verdict w o c (advance c t)).1, [], ?_⟩⟩
      rw [hlog, hlog2, hse, hce]; simp
    | keep u _ _ _ hlog _ _ _ =>
      refine ⟨u, Or.inl rfl, Or.inr ⟨(verdict w o c (advance c t)).2.1, (verdict w o c (advance c t)).1, [], ?_⟩⟩
      rw [hlog, hlog2, hse, hce]; simp
    | close_ok u st ln _ _ _ _ hlog _ _ _ =>
      refine ⟨u, Or.inl rfl, Or.inr ⟨(verdict w o c (advance c t)).2.1, (verdict w o c (advance c t)).1,
        Event.found st ln :: (if o.dry then [] else [Event.blkdiscard st ln true]), ?_⟩⟩
      rw [hlog, hlog2, hse, hce]
      simp
    | close_fail u st ln _ _ _ _ _ hlog _ =>
      refine ⟨u, Or.inr rfl, Or.inr ⟨(verdict w o c (advance c t)).2.1, (verdict w o c (advance c t)).1,
        [Event.found st ln, Event.blkdiscard st ln false], ?_⟩⟩
      rw [hlog, hlog2, hse, hce]
      simp
  generalize hb : body w o c s = step at hp
  cases hp with
  | seek_fail t h1 h2 _ _ =>
    rw [hseek h1] at h2; exact absurd h2 (by decide)
  | read_err t _ hr _ _ =>
    rw [hshort] at hr; exact absurd hr (by decide)
  | keep t hsk hr hcl hlog hfreed hr0 hc =>
    have h0 := (closing_none hcl).2 hnz
    have hns : t.need_seek = true := by rw [hc.need_seek, hshort]; decide
    refine ⟨t, rfl, ?_, hns, ?_, hnext t (Pass.keep t hsk hr hcl hlog hfreed hr0 hc) hns⟩
    · rw [hlog, if_pos h0]
      simp [seek_events, chunk_event, hshort]
    · rw [hr0, if_neg hnz]
  | close_ok t st ln hsk hr hcl hok hlog hfreed hr0 hc =>
    obtain ⟨_, _, _, _, _, _, h7⟩ := closing_some hi hlt hcl
    obtain ⟨h71, h72, h73⟩ := h7 hnz
    have hln : ln = cur s - s.range0 := by omega
    have hns : t.need_seek = true := by rw [hc.need_seek, hshort]; decide
    refine ⟨t, rfl, ?_, hns, hr0,
      hnext t (Pass.close_ok t st ln hsk hr hcl hok hlog hfreed hr0 hc) hns⟩
    subst h71; subst hln
    rw [hlog, if_neg h72]
    simp [seek_events, chunk_event, hshort]
  | close_fail t st ln _ _ hcl hdry hok _ _ =>
    obtain ⟨_, _, _, _, _, _, h7⟩ := closing_some hi hlt hcl
    obtain ⟨h71, h72, h73⟩ := h7 hnz
    have hln : ln = cur s - s.range0 := by omega
    subst h71; subst hln
    rcases hdisc h72 with h | h
    · rw [hdry] at h; exact absurd h (by decide)
    · rw [hok] at h; exact absurd h (by decide)

theorem C9_witness :
    ∃ t, body short_first ⟨16, 8, false⟩ 8 (init_state short_first) = .next t ∧
      t.need_seek = true ∧ cur (advance 8 t) = cur (init_state short_first) + 8 := by
  obtain ⟨_, _, t, h1, _, h3, _, h5, _⟩ := C9_short_read short_first ⟨16, 8, false⟩ 8
    (by decide) (by decide) (by decide) (init_state short_first) Reach.init (by decide)
    (fun _ => rfl) (by decide) (fun h => absurd rfl h)
  exact ⟨t, h1, h3, h5⟩

set_option maxRecDepth 100000 in
/-- C3 (maximality): after a call of `discard0` that returns 0, the sequence of emitted
ranges is the list of the maximal runs of consecutive chunks classified `IS_ZERO`, and
consecutive emitted ranges are not adjacent: `start + length` of one is below the start of
the next.  A 4096-byte all-zero device with 4096-byte chunks yields the single range
`(0, 4096)`; an 8192-byte device zero/non-zero yields `(0, 4096)`; a 12288-byte device
zero/non-zero/zero yields `(0, 4096)` and `(8192, 4096)`. -/
theorem C3_maximality :
    (∀ (w : World) (o : discard_opts) (c : Nat),
      chunk_size o.granularity w.pagesize = .ok c → 0 < c → c < 2 ^ 31 →
      o.dev_size < 2 ^ 63 →
      ∀ (fuel freed : Nat) (log : List Event),
        discard0 fuel w o = some (.returned 0 freed log) →
        found_ranges log = spec_zero_runs o.dev_size (chunks log) ∧
        ∀ (i : Nat) (p q : Nat × Nat), (found_ranges log)[i]? = some p →
          (found_ranges log)[i + 1]? = some q → p.1 + p.2 < q.1) ∧
    (∃ log, discard0 2 (paged fun _ => 0) ⟨4096, 4096, false⟩ = some (.returned 0 4096 log) ∧
      found_ranges log = [(0, 4096)]) ∧
    (∃ log, discard0 3 (paged fun i => if i < 4096 then 0 else 1) ⟨8192, 4096, false⟩ =
        some (.returned 0 4096 log) ∧
      found_ranges log = [(0, 4096)]) ∧
    (∃ log, discard0 4 (paged fun i => if i < 4096 then 0 else if i < 8192 then 1 else 0)
        ⟨12288, 4096, false⟩ = some (.returned 0 8192 log) ∧
      found_ranges log = [(0, 4096), (8192, 4096)]) := by
  refine ⟨?_, ?_, ?_, ?_⟩
  · intro w o c hc hpos hint hsz fuel freed log h
    obtain ⟨h1, h2⟩ := discard0_runs w o c hc (sized_of hpos hint hsz) fuel freed log h
    refine ⟨h1, ?_⟩
    intro i p q hp hq
    rw [List.getElem?_eq_some] at hp hq
    obtain ⟨hi, rfl⟩ := hp
    obtain ⟨hj, rfl⟩ := hq
    exact List.pairwise_iff_getElem.1 h2 i (i + 1) hi hj (by omega)
  · exact ⟨[Event.lseek 0 true, Event.chunk 0 0 4096 4096 IS_ZERO, Event.found 0 4096,
      Event.blkdiscard 0 4096 true], by decide, by decide⟩
  · exact ⟨[Event.lseek 0 true, Event.chunk 0 0 4096 4096 IS_ZERO,
      Event.chunk 4096 4096 4096 4096 IS_NOT_ZERO, Event.found 0 4096,
      Event.blkdiscard 0 4096 true], by decide, by decide⟩
  · exact ⟨[Event.lseek 0 true, Event.chunk 0 0 4096 4096 IS_ZERO,
      Event.chunk 4096 4096 4096 4096 IS_NOT_ZERO, Event.found 0 4096,
      Event.blkdiscard 0 4096 true, Event.chunk 8192 8192 4096 4096 IS_ZERO,
      Event.found 8192 4096, Event.blkdiscard 8192 4096 true], by decide, by decide⟩

theorem C3_witness :
    found_ranges [Event.lseek 0 true, Event.chunk 0 0 8 8 0, Event.chunk 8 8 8 8 1,
      Event.found 0 8, Event.blkdiscard 0 8 true, Event.chunk 16 16 8 8 0, Event.found 16 8,
      Event.blkdiscard 16 8 true] =
    spec_zero_runs 24 (chunks [Event.lseek 0 true, Event.chunk 0 0 8 8 0,
      Event.chunk 8 8 8 8 1, Event.found 0 8, Event.blkdiscard 0 8 true,
      Event.chunk 16 16 8 8 0, Event.found 16 8, Event.blkdiscard 16 8 true]) :=
  (C3_maximality.1 zero_one_zero ⟨24, 8, false⟩ 8 rfl (by decide) (by decide) (by decide) 4 16
    [Event.lseek 0 true, Event.chunk 0 0 8 8 0, Event.chunk 8 8 8 8 1,
      Event.found 0 8, Event.blkdiscard 0 8 true, Event.chunk 16 16 8 8 0, Event.found 16 8,
      Event.blkdiscard 16 8 true] (by decide)).1

/-- C4 (conservation and dry-run equivalence): when the real run (`dry = false`) returns
0, the `freed` it reports is the sum of the lengths of the emitted ranges, each emitted
range was handed to `BLKDISCARD`, and the dry run (`dry = true`) on the same device returns
0 with the same `freed` and the same trace except that no `BLKDISCARD` is issued, so with
the same sequence of ranges.  Conversely, when no `BLKDISCARD` of the device can fail and
the dry run returns 0, the real run returns 0 with the same `freed` and the same ranges. -/
theorem C4_conservation_dry_run (w : World) (o : discard_opts) (c : Nat)
    (hc : chunk_size o.granularity w.pagesize = .ok c) (hpos : 0 < c) (hint : c < 2 ^ 31)
    (hsz : o.dev_size < 2 ^ 63) (fuel : Nat) :
    (∀ freed log, discard0 fuel w { o with dry := false } = some (.returned 0 freed log) →
      freed = total_length (found_ranges log) ∧
      issued_ranges log = found_ranges log ∧
      discard0 fuel w { o with dry := true } = some (.returned 0 freed (strip log)) ∧
      found_ranges (strip log) = found_ranges log ∧
      issued_ranges (strip log) = []) ∧
    ((∀ st ln, w.discard_ok st ln = true) →
      ∀ freed log, discard0 fuel w { o with dry := true } = some (.returned 0 freed log) →
        freed = total_length (found_ranges log) ∧
        ∃ logr, discard0 fuel w { o with dry := false } = some (.returned 0 freed logr) ∧
          found_ranges logr = found_ranges log ∧ log = strip logr) := by
  have hs : Sized ({ o with dry := false } : discard_opts) c := sized_of hpos hint hsz
  have hsd : Sized ({ o with dry := true } : discard_opts) c := sized_of hpos hint hsz
  have hrel : Rel (init_state w) (init_state w) :=
    ⟨rfl, rfl, rfl, rfl, rfl, rfl, rfl, rfl, rfl⟩
  have hsim := @sim_loop w { o with dry := true } { o with dry := false } c
    hs rfl rfl rfl fuel (init_state w) (init_state w) (Inv_init w hs) hrel
  have hunf : ∀ b : Bool, discard0 fuel w { o with dry := b } =
      if w.malloc_ok = false then some (.returned (-1) 0 [])
      else discard0_loop w { o with dry := b } c fuel (init_state w) := by
    intro b
    unfold discard0
    simp only [hc]
  refine ⟨?_, ?_⟩
  · intro freed log h
    have hfr := discard0_freed w { o with dry := false } c hc hs fuel 0 freed log h
    have hfl := discard0_failures w { o with dry := false } c hc hs fuel 0 freed log h
    have hnf : ∀ e, e ∈ log → e.failed = false := by
      rcases hfl with ⟨_, h1⟩ | ⟨h1, _⟩ | ⟨h1, _⟩
      · exact h1
      · exact absurd h1 (by decide)
      · exact absurd h1 (by decide)
    have hdone : done_ranges log = found_ranges log := by
      have := hfr.2.1 rfl
      unfold completed_ranges at this
      simpa using this
    refine ⟨?_, ?_, ?_, found_ranges_strip log, issued_ranges_strip log⟩
    · have := hfr.1
      unfold completed_ranges at this
      simp only [Bool.false_eq_true, if_false] at this
      rw [this, hdone]
    · rw [issued_eq_done log hnf, hdone]
    · rw [hunf] at h ⊢
      by_cases hm : w.malloc_ok = false
      · rw [if_pos hm] at h
        simp only [Option.some.injEq, Outcome.returned.injEq] at h
        exact absurd h.1 (by decide)
      · rw [if_neg hm] at h ⊢
        exact hsim.1 freed log h
  · intro hok freed log h
    have hfr := discard0_freed w { o with dry := true } c hc hsd fuel 0 freed log h
    have hsum : freed = total_length (found_ranges log) := by
      have := hfr.1
      unfold completed_ranges at this
      simpa using this
    refine ⟨hsum, ?_⟩
    rw [hunf] at h
    by_cases hm : w.malloc_ok = false
    · rw [if_pos hm] at h
      simp only [Option.some.injEq, Outcome.returned.injEq] at h
      exact absurd h.1 (by decide)
    · rw [if_neg hm] at h
      obtain ⟨logr, h1, h2⟩ := hsim.2 hok freed log h
      refine ⟨logr, ?_, ?_, h2⟩
      · rw [hunf, if_neg hm]; exact h1
      · rw [h2, found_ranges_strip]

theorem C4_witness :
    discard0 4 zero_one_zero { (⟨24, 8, false⟩ : discard_opts) with dry := true } =
      some (.returned 0 16 (strip [Event.lseek 0 true, Event.chunk 0 0 8 8 0,
        Event.chunk 8 8 8 8 1, Event.found 0 8, Event.blkdiscard 0 8 true,
        Event.chunk 16 16 8 8 0, Event.found 16 8, Event.blkdiscard 16 8 true])) ∧
    16 = total_length (found_ranges [Event.lseek 0 true, Event.chunk 0 0 8 8 0,
        Event.chunk 8 8 8 8 1, Event.found 0 8, Event.blkdiscard 0 8 true,
        Event.chunk 16 16 8 8 0, Event.found 16 8, Event.blkdiscard 16 8 true]) :=
  have h := (C4_conservation_dry_run zero_one_zero ⟨24, 8, false⟩ 8 rfl (by decide)
    (by decide) (by decide) 4).1 16 [Event.lseek 0 true, Event.chunk 0 0 8 8 0,
        Event.chunk 8 8 8 8 1, Event.found 0 8, Event.blkdiscard 0 8 true,
        Event.chunk 16 16 8 8 0, Event.found 16 8, Event.blkdiscard 16 8 true] (by decide)
  ⟨h.2.2.1, h.1⟩

/-- C6 (fatal errors abort without partial emission): `discard0` returns 0 or -1; a failed
`lseek`, a read error or a failed `BLKDISCARD` makes it return -1 and is the last event of
the scan, so no further read or discard is issued; every range emitted or handed to
`BLKDISCARD` was closed, by a chunk classified `IS_NOT_ZERO` or `NEED_SEEK` at its end or
by the zero chunk that ends the device, so a zero range that is still open at the failure
is not discarded; the range whose `BLKDISCARD` failed is emitted last and is not counted;
the reported `freed` is the total length of the ranges whose reclaim completed, and these
form a prefix of the ranges that the scan of the same device without failing calls emits,
which returns 0. -/
theorem C6_fatal_errors (w : World) (o : discard_opts) (c : Nat)
    (hc : chunk_size o.granularity w.pagesize = .ok c) (hpos : 0 < c) (hint : c < 2 ^ 31)
    (hsz : o.dev_size < 2 ^ 63) :
    (∀ fuel, o.dev_size < fuel →
      ∃ ret freed log, discard0 fuel w o = some (.returned ret freed log)) ∧
    ∀ fuel ret freed log, discard0 fuel w o = some (.returned ret freed log) →
      (ret = 0 ∨ ret = -1) ∧
      (∀ e, e ∈ log → e.failed = true → ret = -1 ∧ log.getLast? = some e) ∧
      (∀ p, p ∈ found_ranges log ∨ p ∈ issued_ranges log →
        (p.1 + p.2 = o.dev_size ∧
          ∃ k, k ∈ chunks log ∧ k.r = IS_ZERO ∧ k.ofs + k.len = o.dev_size) ∨
        (∃ k, k ∈ chunks log ∧ (k.r = IS_NOT_ZERO ∨ k.r = NEED_SEEK) ∧
          k.ofs = ((p.1 + p.2 : Nat) : Int))) ∧
      freed = total_length (completed_ranges o.dry log) ∧
      (∀ st ln, Event.blkdiscard st ln false ∈ log →
        found_ranges log = completed_ranges o.dry log ++ [(st, ln)]) ∧
      ((∀ st ln, Event.blkdiscard st ln false ∉ log) →
        completed_ranges o.dry log = found_ranges log) ∧
      (∀ fill fuel2 ret2 freed2 log2,
        discard0 fuel2 (error_free w fill) o = some (.returned ret2 freed2 log2) →
        ret2 = 0 ∧ completed_ranges o.dry log <+: found_ranges log2) := by
  have hs := sized_of hpos hint hsz
  refine ⟨fun fuel hf => discard0_returns w o c hc hs fuel hf, ?_⟩
  intro fuel ret freed log h
  have hfl := discard0_failures w o c hc hs fuel ret freed log h
  have hfr := discard0_freed w o c hc hs fuel ret freed log h
  obtain ⟨a2, b2, hgeo, _⟩ := discard0_geo w o c hc hs fuel ret freed log h
  have hret : ret = 0 ∨ ret = -1 := by
    rcases hfl with ⟨h1, _⟩ | ⟨h1, _⟩ | ⟨h1, _⟩
    · exact Or.inl h1
    · exact Or.inr h1
    · exact Or.inr h1
  have hlast : ∀ e, e ∈ log → e.failed = true → ret = -1 ∧ log.getLast? = some e := by
    intro e he hfe
    rcases hfl with ⟨_, h1⟩ | ⟨_, _, h1, _⟩ | ⟨h1, l, e0, h2, h3, h4⟩
    · rw [h1 e he] at hfe; exact absurd hfe (by decide)
    · rw [h1] at he; exact absurd he (by simp)
    · refine ⟨h1, ?_⟩
      rw [h2] at he ⊢
      rcases List.mem_append.1 he with he | he
      · rw [h4 e he] at hfe; exact absurd hfe (by decide)
      · simp only [List.mem_singleton] at he
        subst he
        simp
  refine ⟨hret, hlast, ?_, hfr.1, ?_, ?_, ?_⟩
  · intro p hp
    have hpf : p ∈ found_ranges log := by
      rcases hp with hp | hp
      · exact hp
      · exact hgeo.issued p hp
    exact (hgeo.found_ok p hpf).closed
  · intro st ln hmem
    obtain ⟨h1, h2⟩ := hlast _ hmem rfl
    rcases hfr.2.2 with ⟨_, h3⟩ | ⟨st2, ln2, h3, h4⟩
    · exact absurd h2 (h3 h1 st ln)
    · rw [h2] at h4
      simp only [Option.some.injEq, Event.blkdiscard.injEq, and_true] at h4
      obtain ⟨rfl, rfl⟩ := h4
      exact h3
  · intro hno
    rcases hfr.2.2 with ⟨h3, _⟩ | ⟨st2, ln2, _, h4⟩
    · exact h3
    · exact absurd (List.mem_of_getLast?_eq_some h4) (hno st2 ln2)
  · intro fill fuel2 ret2 freed2 log2 h2
    have hc2 : chunk_size o.granularity (error_free w fill).pagesize = .ok c := hc
    refine ⟨error_free_returns_zero w fill o c hc hs fuel2 ret2 freed2 log2 h2, ?_⟩
    unfold discard0 at h h2
    rw [hc] at h
    rw [hc2] at h2
    simp only at h h2
    by_cases hm : w.malloc_ok = false
    · rw [if_pos hm] at h
      simp only [Option.some.injEq, Outcome.returned.injEq] at h
      rw [← h.2.2]
      unfold completed_ranges
      cases o.dry <;> exact List.nil_prefix
    · rw [if_neg hm] at h
      rw [if_neg (by simp [error_free])] at h2
      exact prefix_sim w fill hs fuel (init_state w) (Inv_init w hs) (FreedAt_init w o)
        ret freed log h fuel2 ret2 freed2 log2 h2

theorem C6_witness :
    discard0 5 failing_world ⟨32, 8, false⟩ =
      some (.returned (-1) 8 [Event.lseek 0 true, Event.chunk 0 0 8 8 0, Event.chunk 8 8 8 8 1,
        Event.found 0 8, Event.blkdiscard 0 8 true, Event.chunk 16 16 8 8 0,
        Event.chunk 24 24 8 8 1, Event.found 16 8, Event.blkdiscard 16 8 false]) ∧
    8 = total_length (completed_ranges false [Event.lseek 0 true, Event.chunk 0 0 8 8 0,
        Event.chunk 8 8 8 8 1, Event.found 0 8, Event.blkdiscard 0 8 true,
        Event.chunk 16 16 8 8 0, Event.chunk 24 24 8 8 1, Event.found 16 8,
        Event.blkdiscard 16 8 false]) ∧
    found_ranges [Event.lseek 0 true, Event.chunk 0 0 8 8 0,
        Event.chunk 8 8 8 8 1, Event.found 0 8, Event.blkdiscard 0 8 true,
        Event.chunk 16 16 8 8 0, Event.chunk 24 24 8 8 1, Event.found 16 8,
        Event.blkdiscard 16 8 false] =
      completed_ranges false [Event.lseek 0 true, Event.chunk 0 0 8 8 0,
        Event.chunk 8 8 8 8 1, Event.found 0 8, Event.blkdiscard 0 8 true,
        Event.chunk 16 16 8 8 0, Event.chunk 24 24 8 8 1, Event.found 16 8,
        Event.blkdiscard 16 8 false] ++ [(16, 8)] :=
  have hrun : discard0 5 failing_world ⟨32, 8, false⟩ =
      some (.returned (-1) 8 [Event.lseek 0 true, Event.chunk 0 0 8 8 0, Event.chunk 8 8 8 8 1,
        Event.found 0 8, Event.blkdiscard 0 8 true, Event.chunk 16 16 8 8 0,
        Event.chunk 24 24 8 8 1, Event.found 16 8, Event.blkdiscard 16 8 false]) := by decide
  have h := (C6_fatal_errors failing_world ⟨32, 8, false⟩ 8 rfl (by decide) (by decide)
    (by decide)).2 5 (-1) 8 _ hrun
  ⟨hrun, h.2.2.2.1, h.2.2.2.2.1 16 8 (by decide)⟩

end Discard0
